import Mathlib

/-!
# Verification of `fastaselecth.c`

A shallow embedding of the core of `fastaselecth.c` (version 1.0.11/1.0.12,
D. Mathog): the selector-index construction (`get_entries`, `sort_entries`,
`remove_dups`), the binary search (`bin_search`), and the main scanning /
reorder-buffer / group-routing loop of `main`, together with theorems about
the testable properties of the program.

Modelling conventions:
* C byte strings are `List Nat` (one `Nat` per byte, NUL-free; `strcmp` on
  NUL-terminated strings coincides with lexicographic comparison `scmp`).
* The record stream is a list of already-delimited FASTA records (a header
  line beginning with the byte `>` = 62, plus body lines that do not start
  with `>`); the C code reads line by line, and a record's payload is
  accumulated and handed over when the *next* header line (or EOF) is seen,
  which the record-level step function below mirrors exactly.
* C `int` / `unsigned long long` counters are `Nat` (no claim depends on
  overflow, and realistic inputs stay far below the wrap point).
* Unbounded C loops (the restartable comb sort, the binary search, the
  eager-drain loop) are written with explicit fuel; the fuel is proven
  sufficient, so the embedded function equals the loop's limit behaviour.
-/

/-- A byte string: the contents of a C `char *` (bytes, without the NUL). -/
abbrev Str := List Nat

/-- `strcmp` on NUL-terminated byte strings, as a three-way comparison.
`[] < nonempty` because the terminating NUL compares below every byte. -/
def scmp : Str → Str → Ordering
  | [], [] => Ordering.eq
  | [], _ :: _ => Ordering.lt
  | _ :: _, [] => Ordering.gt
  | a :: as, b :: bs =>
    if a < b then Ordering.lt
    else if b < a then Ordering.gt
    else scmp as bs

theorem scmp_eq_iff : ∀ a b : Str, scmp a b = Ordering.eq ↔ a = b := by
  intro a
  induction a with
  | nil => intro b; cases b <;> simp [scmp]
  | cons x as ih =>
    intro b
    cases b with
    | nil => simp [scmp]
    | cons y bs =>
      by_cases h1 : x < y
      · simp [scmp, h1]; omega
      · by_cases h2 : y < x
        · simp [scmp, h1, h2]; omega
        · have hxy : x = y := by omega
          simp [scmp, h1, h2, ih, hxy]

theorem scmp_refl (a : Str) : scmp a a = Ordering.eq := (scmp_eq_iff a a).mpr rfl

theorem scmp_lt_gt : ∀ a b : Str, scmp a b = Ordering.lt ↔ scmp b a = Ordering.gt := by
  intro a
  induction a with
  | nil => intro b; cases b <;> simp [scmp]
  | cons x as ih =>
    intro b
    cases b with
    | nil => simp [scmp]
    | cons y bs =>
      by_cases h1 : x < y
      · have h2 : ¬ y < x := by omega
        simp [scmp, h1, h2]
      · by_cases h2 : y < x
        · simp [scmp, h1, h2]
        · simp [scmp, h1, h2, ih]

theorem scmp_lt_trans : ∀ a b c : Str, scmp a b = Ordering.lt →
    scmp b c = Ordering.lt → scmp a c = Ordering.lt := by
  intro a
  induction a with
  | nil =>
    intro b c hab hbc
    cases b with
    | nil => exact hbc
    | cons y bs =>
      cases c with
      | nil => simp [scmp] at hbc
      | cons z cs => simp [scmp]
  | cons x as ih =>
    intro b c hab hbc
    cases b with
    | nil => simp [scmp] at hab
    | cons y bs =>
      cases c with
      | nil => simp [scmp] at hbc
      | cons z cs =>
        simp only [scmp] at hab hbc ⊢
        by_cases hxy : x < y
        · by_cases hyz : y < z
          · have : x < z := by omega
            simp [this]
          · by_cases hzy : z < y
            · simp [hyz, hzy] at hbc
            · have : x < z := by omega
              simp [this]
        · by_cases hyx : y < x
          · simp [hxy, hyx] at hab
          · have hxy2 : x = y := by omega
            subst hxy2
            by_cases hyz : x < z
            · simp [hyz]
            · by_cases hzy : z < x
              · simp [hyz, hzy] at hbc
              · simp [hxy, hyz, hzy] at hab hbc ⊢
                exact ih bs cs hab hbc

theorem scmp_not_lt_not_gt (a b : Str) (h1 : scmp a b ≠ Ordering.lt)
    (h2 : scmp a b ≠ Ordering.gt) : a = b := by
  have := scmp_eq_iff a b
  cases hc : scmp a b
  · exact absurd hc h1
  · exact (scmp_eq_iff a b).mp hc
  · exact absurd hc h2

/-- Transitivity of the non-strict order `scmp · · ≠ .gt` (i.e. `≤`). -/
theorem scmp_le_trans {a b c : Str} (hab : scmp a b ≠ Ordering.gt)
    (hbc : scmp b c ≠ Ordering.gt) : scmp a c ≠ Ordering.gt := by
  intro hac
  cases ha : scmp a b with
  | gt => exact hab ha
  | eq =>
    rw [(scmp_eq_iff a b).mp ha] at hac
    exact hbc hac
  | lt =>
    cases hb : scmp b c with
    | gt => exact hbc hb
    | eq =>
      rw [← (scmp_eq_iff b c).mp hb] at hac
      rw [ha] at hac
      cases hac
    | lt =>
      have := scmp_lt_trans a b c ha hb
      rw [this] at hac
      cases hac

/-- Transitivity mixing strict and non-strict: `a < b ≤ c → a < c`. -/
theorem scmp_lt_of_lt_of_le {a b c : Str} (hab : scmp a b = Ordering.lt)
    (hbc : scmp b c ≠ Ordering.gt) : scmp a c = Ordering.lt := by
  cases hb : scmp b c with
  | gt => exact absurd hb hbc
  | eq => rwa [← (scmp_eq_iff b c).mp hb]
  | lt => exact scmp_lt_trans a b c hab hb

/-! ## Selector entries

`main` keeps three parallel arrays (`header_name_list`, `group_name_list`,
`emitorder`) that are always permuted together (`sort_entries` swaps all
three with the same indices, `remove_dups` compacts all three).  We model
them as a single list of records.  When `-frag` is off the C group array is
`NULL`; here every `group` is `none` then, and swapping `none`s is a no-op,
so the joint representation is faithful in both modes. -/

structure SelEntry where
  key : Str
  group : Option Str
  pos : Nat
deriving DecidableEq

/-- Swap the entries at indices `i` and `j` (the three simultaneous swaps in
the body of `sort_entries`). -/
def lswap (a : List SelEntry) (i j : Nat) : List SelEntry :=
  match a[i]?, a[j]? with
  | some x, some y => (a.set i y).set j x
  | _, _ => a

theorem lswap_count (a : List SelEntry) (i j : Nat) (hi : i < a.length)
    (hj : j < a.length) (c : SelEntry) : (lswap a i j).count c = a.count c := by
  unfold lswap
  rw [List.getElem?_eq_getElem hi, List.getElem?_eq_getElem hj]
  by_cases hij : i = j
  · subst hij
    show List.count c ((a.set i a[i]).set i a[i]) = List.count c a
    rw [List.set_set, List.count_set _ _ _ _ hi]
    by_cases e1 : a[i] = c
    · have hc : 0 < a.count c := List.count_pos_iff.mpr (e1 ▸ List.getElem_mem hi)
      simp only [beq_iff_eq, if_pos e1]
      omega
    · simp only [beq_iff_eq, if_neg e1]
      omega
  · have h1 : j < (a.set i a[j]).length := by simpa using hj
    rw [List.count_set _ _ _ _ h1, List.count_set _ _ _ _ hi]
    have hgj : (a.set i a[j])[j] = a[j] := by
      rw [List.getElem_set]
      simp [hij]
    rw [hgj]
    simp only [beq_iff_eq]
    by_cases e1 : a[i] = c
    · by_cases e2 : a[j] = c
      · have hc : 0 < a.count c := List.count_pos_iff.mpr (e1 ▸ List.getElem_mem hi)
        rw [if_pos e1, if_pos e2]
        omega
      · have hc : 0 < a.count c := List.count_pos_iff.mpr (e1 ▸ List.getElem_mem hi)
        rw [if_pos e1, if_neg e2]
        omega
    · by_cases e2 : a[j] = c
      · have hc : 0 < a.count c := List.count_pos_iff.mpr (e2 ▸ List.getElem_mem hj)
        rw [if_neg e1, if_pos e2]
        omega
      · rw [if_neg e1, if_neg e2]
        omega

theorem lswap_perm (a : List SelEntry) (i j : Nat) (hi : i < a.length)
    (hj : j < a.length) : (lswap a i j).Perm a := by
  rw [List.perm_iff_count]
  exact fun c => lswap_count a i j hi hj c

theorem lswap_length (a : List SelEntry) (i j : Nat) :
    (lswap a i j).length = a.length := by
  unfold lswap
  cases a[i]? <;> cases a[j]? <;> simp

/-! ## `sort_entries`: the restartable comb sort

The C code (`sort_entries`) runs comb-sort passes with gaps
`entrynum/2 - 1, gap/1.3, ..., 1`; a gap-1 pass with zero swaps ends the
sort, any other gap-1 pass restarts the sweep from the initial gap (the
`restart` counter only chooses between `break` and the natural exit of the
inner `for`, both of which return to the outer loop, so it has no semantic
effect).  The unbounded outer loop is given fuel below; `sortFuel` is proven
sufficient, so `sort_entries` equals the C loop's final array. -/

/-- One comparison/swap step chain of a pass: `for(i=0,j=gap; j<entrynum; i++,j++)`.
`fuel` dominates the remaining iterations (`gapPass` supplies `a.length`). -/
def passAux (gap : Nat) : Nat → Nat → List SelEntry → Nat → List SelEntry × Nat
  | 0, _, a, swaps => (a, swaps)
  | fuel+1, j, a, swaps =>
    match a[j]?, a[j - gap]? with
    | some ej, some ei =>
      if scmp ej.key ei.key = Ordering.lt then
        passAux gap fuel (j+1) (lswap a (j - gap) j) (swaps + 1)
      else
        passAux gap fuel (j+1) a swaps
    | _, _ => (a, swaps)

/-- One full pass (`gapPass`) at a given gap, returning the array and its swap count. -/
def gapPass (gap : Nat) (a : List SelEntry) : List SelEntry × Nat :=
  passAux gap a.length gap a 0

/-- `gap /= shrink` with `shrink = 1.3`: exact `gap*10/13`.  (C divides by the
double `1.3`, which exceeds 13/10 by 4.5e-17; the two can differ only at
multiples of 13.  No theorem below depends on the exact gap sequence — only
on every sweep ending with a gap-1 pass — and the concrete lists evaluated
here never reach gap 13.) -/
def shrinkGap (gap : Nat) : Nat := gap * 10 / 13

/-- The initial gap of each sweep: `gap = (entrynum/2) - 1; if(gap<1)gap=1;`. -/
def gap0 (n : Nat) : Nat := max (n / 2 - 1) 1

/-- The inner `for(;gap>=1;gap/=shrink)` loop: passes at the shrinking gap
chain, ending with the gap-1 pass, whose swap count decides termination.
Fuel exhaustion (unreachable: the chain from `g` has at most `g` steps and
the caller supplies `g+1`) reports one swap so that it can never fake the
`swaps==0` exit condition. -/
def sweepAux : Nat → Nat → List SelEntry → List SelEntry × Nat
  | 0, _, a => (a, 1)
  | fuel+1, gap, a =>
    let p := gapPass gap a
    if gap ≤ 1 then p
    else sweepAux fuel (shrinkGap gap) p.1

/-- The outer `for(done=0; !done; )` loop: sweeps until a sweep's final
(gap-1) pass performs no swap. -/
def combSweeps : Nat → List SelEntry → List SelEntry
  | 0, a => a
  | fuel+1, a =>
    let p := sweepAux (gap0 a.length + 1) (gap0 a.length) a
    if p.2 = 0 then p.1 else combSweeps fuel p.1

/-- Rank of a key inside a fixed reference multiset of keys: the number of
reference keys strictly below it (the termination measure's value map). -/
def keyRank (m : List Str) (k : Str) : Nat :=
  m.countP (fun x => scmp x k = Ordering.lt)

/-- Positional termination measure: position `i` (0-based) weighs `w - i`
where `w` starts at the list length; swapping an out-of-order pair at
distance `d` strictly decreases it by `d * (rank difference)`. -/
def weightAux (m : List Str) : List SelEntry → Nat → Nat
  | [], _ => 0
  | e :: rest, w => w * keyRank m e.key + weightAux m rest (w - 1)

def weight (m : List Str) (a : List SelEntry) : Nat := weightAux m a a.length

/-- Sufficient fuel for the outer loop: each sweep that does not end the
sort strictly decreases `weight`. -/
def sortFuel (a : List SelEntry) : Nat := weight (a.map SelEntry.key) a + 1

/-- `sort_entries`: the comb sort of the C code, run to completion. -/
def sort_entries (a : List SelEntry) : List SelEntry :=
  combSweeps (sortFuel a) a

/-! ### Correctness of the comb sort -/

theorem passAux_swaps_le (gap : Nat) :
    ∀ (fuel j : Nat) (a : List SelEntry) (s : Nat), s ≤ (passAux gap fuel j a s).2 := by
  intro fuel
  induction fuel with
  | zero => intro j a s; simp [passAux]
  | succ fuel ih =>
    intro j a s
    simp only [passAux]
    split
    · split
      · exact le_trans (Nat.le_succ s) (ih (j+1) _ (s+1))
      · exact ih (j+1) a s
    · exact le_rfl

theorem getElem?_some_lt {α : Type} {l : List α} {i : Nat} {x : α}
    (h : l[i]? = some x) : i < l.length := by
  by_contra hc
  rw [List.getElem?_eq_none (by omega)] at h
  cases h

theorem passAux_perm (gap : Nat) :
    ∀ (fuel j : Nat) (a : List SelEntry) (s : Nat),
      (passAux gap fuel j a s).1.Perm a := by
  intro fuel
  induction fuel with
  | zero => intro j a s; simp [passAux]
  | succ fuel ih =>
    intro j a s
    simp only [passAux]
    split
    · rename_i ej ei hj hi
      split
      · have hjl : j < a.length := getElem?_some_lt hj
        have hil : j - gap < a.length := by omega
        exact List.Perm.trans (ih (j+1) _ (s+1)) (lswap_perm a (j - gap) j hil hjl)
      · exact ih (j+1) a s
    · exact List.Perm.refl a

theorem passAux_length (gap : Nat) :
    ∀ (fuel j : Nat) (a : List SelEntry) (s : Nat),
      (passAux gap fuel j a s).1.length = a.length :=
  fun fuel j a s => (passAux_perm gap fuel j a s).length_eq

theorem keyRank_le_of_lt (m : List Str) {x y : Str}
    (hlt : scmp y x = Ordering.lt) : keyRank m y ≤ keyRank m x := by
  apply List.countP_mono_left
  intro z _ hz
  simp only [decide_eq_true_eq] at hz ⊢
  exact scmp_lt_trans z y x hz hlt

theorem keyRank_lt_of_lt (m : List Str) {x y : Str} (hy : y ∈ m)
    (hlt : scmp y x = Ordering.lt) : keyRank m y < keyRank m x := by
  induction m with
  | nil => cases hy
  | cons z rest ih =>
    unfold keyRank at ih ⊢
    rw [List.countP_cons, List.countP_cons]
    rcases List.mem_cons.mp hy with hz | hz
    · subst hz
      have h1 : ¬ (scmp y y = Ordering.lt) := by rw [scmp_refl]; intro h; cases h
      have hle := keyRank_le_of_lt rest hlt
      unfold keyRank at hle
      have hdy : decide (scmp y y = Ordering.lt) = false := by
        simp [scmp_refl]
      have hdx : decide (scmp y x = Ordering.lt) = true := by
        simp [hlt]
      rw [hdy, hdx]
      simp only [Bool.false_eq_true, if_false, if_pos rfl]
      simp only [ite_true]
      omega
    · have := ih hz
      have hmono : (if decide (scmp z y = Ordering.lt) = true then 1 else 0) ≤
          (if decide (scmp z x = Ordering.lt) = true then 1 else 0) := by
        by_cases hc : scmp z y = Ordering.lt
        · simp [hc, scmp_lt_trans z y x hc hlt]
        · simp [hc]
      omega

/-- Effect of a single `set` on the positional measure. -/
theorem weightAux_set (m : List Str) :
    ∀ (l : List SelEntry) (t w : Nat) (e x0 : SelEntry),
      l[t]? = some x0 → l.length ≤ w →
      weightAux m (l.set t e) w + (w - t) * keyRank m x0.key
        = weightAux m l w + (w - t) * keyRank m e.key := by
  intro l
  induction l with
  | nil => intro t w e x0 ht _; simp at ht
  | cons x rest ih =>
    intro t w e x0 ht hw
    cases t with
    | zero =>
      simp only [List.getElem?_cons_zero, Option.some.injEq] at ht
      subst ht
      simp only [List.set, weightAux, Nat.sub_zero]
      omega
    | succ t =>
      simp only [List.getElem?_cons_succ] at ht
      have hlen : rest.length ≤ w - 1 := by
        simp only [List.length_cons] at hw; omega
      have ih2 := ih t (w - 1) e x0 ht hlen
      have hco : w - (t + 1) = (w - 1) - t := by omega
      simp only [List.set, weightAux]
      rw [hco]
      omega

/-- A swap of an out-of-order pair at distance `j - i` shifts the measure by
`(j - i)` rank units. -/
theorem weight_lswap (m : List Str) (a : List SelEntry) (i j : Nat)
    (x y : SelEntry) (hij : i < j) (hxi : a[i]? = some x) (hyj : a[j]? = some y) :
    weight m (lswap a i j) + (j - i) * keyRank m x.key
      = weight m a + (j - i) * keyRank m y.key := by
  have hjl : j < a.length := getElem?_some_lt hyj
  have hil : i < a.length := getElem?_some_lt hxi
  have hswap : lswap a i j = (a.set i y).set j x := by
    unfold lswap
    rw [hxi, hyj]
  have hw : weight m (lswap a i j) = weightAux m ((a.set i y).set j x) a.length := by
    rw [hswap]
    unfold weight
    simp
  have step1 := weightAux_set m a i a.length y x hxi (le_refl _)
  have hyj2 : (a.set i y)[j]? = some y := by
    rw [List.getElem?_set_ne (by omega)]
    exact hyj
  have hlen2 : (a.set i y).length ≤ a.length := by simp
  have step2 := weightAux_set m (a.set i y) j a.length x y hyj2 (by simp)
  have hco : a.length - i = (a.length - j) + (j - i) := by omega
  rw [hco, Nat.add_mul, Nat.add_mul] at step1
  have hw0 : weight m a = weightAux m a a.length := rfl
  rw [hw, hw0]
  omega

/-- Each pass can only decrease the measure, by at least its swap count. -/
theorem passAux_weight (m : List Str) (gap : Nat) (hg : 1 ≤ gap) :
    ∀ (fuel j : Nat) (a : List SelEntry) (s : Nat),
      (∀ e ∈ a, e.key ∈ m) →
      weight m (passAux gap fuel j a s).1 + (passAux gap fuel j a s).2
        ≤ weight m a + s := by
  intro fuel
  induction fuel with
  | zero => intro j a s _; simp [passAux]
  | succ fuel ih =>
    intro j a s hmem
    simp only [passAux]
    split
    · rename_i ej ei hj hi
      split
      · rename_i hlt
        have hjl : j < a.length := getElem?_some_lt hj
        by_cases hj0 : j - gap < j
        · have hd : 1 ≤ j - (j - gap) := by omega
          have hswap := weight_lswap m a (j - gap) j ei ej hj0 hi hj
          have hejm : ej.key ∈ m := by
            refine hmem ej ?_
            have := List.getElem?_eq_getElem hjl
            rw [this] at hj
            exact (Option.some.inj hj) ▸ List.getElem_mem hjl
          have hrk : keyRank m ej.key < keyRank m ei.key :=
            keyRank_lt_of_lt m hejm hlt
          have hmul : (j - (j - gap)) * keyRank m ej.key + (j - (j - gap))
              ≤ (j - (j - gap)) * keyRank m ei.key := by
            have h2 := Nat.mul_le_mul_left (j - (j - gap)) (Nat.succ_le_of_lt hrk)
            rw [Nat.mul_succ] at h2
            omega
          have hmem2 : ∀ e ∈ lswap a (j - gap) j, e.key ∈ m := by
            intro e he
            exact hmem e ((lswap_perm a (j - gap) j (by omega) hjl).mem_iff.mp he)
          have hrec := ih (j+1) (lswap a (j - gap) j) (s+1) hmem2
          omega
        · have hjj : j - gap = j := by omega
          rw [hjj] at hi
          rw [hj] at hi
          have : ej = ei := Option.some.inj hi
          rw [this, scmp_refl] at hlt
          cases hlt
      · exact ih (j+1) a s hmem
    · simp

/-- A gap-1 pass with zero swaps leaves the array unchanged and certifies
that it is adjacently sorted from index `j` on. -/
theorem passAux_noswap1 :
    ∀ (fuel j : Nat) (a : List SelEntry) (s : Nat),
      a.length ≤ j + fuel →
      (passAux 1 fuel j a s).2 = s →
      (passAux 1 fuel j a s).1 = a ∧
      ∀ (t : Nat) (x y : SelEntry), j ≤ t → a[t]? = some x →
        a[t - 1]? = some y → scmp x.key y.key ≠ Ordering.lt := by
  intro fuel
  induction fuel with
  | zero =>
    intro j a s hlen hs
    refine ⟨rfl, ?_⟩
    intro t x y hjt hx _
    have := getElem?_some_lt hx
    omega
  | succ fuel ih =>
    intro j a s hlen hs
    simp only [passAux] at hs ⊢
    split at hs
    · rename_i ej ei hj hi
      split at hs
      · rename_i hlt
        exfalso
        have := passAux_swaps_le 1 fuel (j+1) (lswap a (j - 1) j) (s+1)
        omega
      · rename_i hnlt
        have hrec := ih (j+1) a s (by omega) hs
        rw [if_neg hnlt]
        refine ⟨hrec.1, ?_⟩
        intro t x y hjt hx hy
        by_cases hteq : t = j
        · subst hteq
          rw [hx] at hj
          rw [hy] at hi
          rw [← Option.some.inj hj, ← Option.some.inj hi] at hnlt
          exact hnlt
        · exact hrec.2 t x y (by omega) hx hy
    · rename_i hfall
      refine ⟨rfl, ?_⟩
      intro t x y hjt hx hy
      exfalso
      have htl := getElem?_some_lt hx
      have hjl : j < a.length := by omega
      have h1 : j - 1 < a.length := by omega
      exact hfall a[j] a[j-1] (List.getElem?_eq_getElem hjl) (List.getElem?_eq_getElem h1)

theorem shrinkGap_le (g : Nat) (hg : 2 ≤ g) : shrinkGap g ≤ g - 1 := by
  unfold shrinkGap
  omega

theorem shrinkGap_pos (g : Nat) (hg : 2 ≤ g) : 1 ≤ shrinkGap g := by
  unfold shrinkGap
  omega

/-- Every sweep with enough inner fuel ends in a genuine gap-1 pass over an
array that is a permutation of (and no heavier than) its input. -/
theorem sweepAux_spec (m : List Str) :
    ∀ (fuel g : Nat) (a : List SelEntry), 1 ≤ g → g ≤ fuel →
      (∀ e ∈ a, e.key ∈ m) →
      ∃ b : List SelEntry, sweepAux fuel g a = gapPass 1 b ∧ b.Perm a ∧
        weight m b ≤ weight m a := by
  intro fuel
  induction fuel with
  | zero => intro g a hg hgf _; omega
  | succ fuel ih =>
    intro g a hg hgf hmem
    by_cases hg1 : g ≤ 1
    · have : g = 1 := by omega
      subst this
      refine ⟨a, ?_, List.Perm.refl a, le_refl _⟩
      simp [sweepAux]
    · have hg2 : 2 ≤ g := by omega
      have hperm : (gapPass g a).1.Perm a := passAux_perm g a.length g a 0
      have hw : weight m (gapPass g a).1 ≤ weight m a := by
        have := passAux_weight m g (by omega) a.length g a 0 hmem
        unfold gapPass
        omega
      have hmem2 : ∀ e ∈ (gapPass g a).1, e.key ∈ m :=
        fun e he => hmem e (hperm.mem_iff.mp he)
      obtain ⟨b, hb1, hb2, hb3⟩ := ih (shrinkGap g) (gapPass g a).1
        (shrinkGap_pos g hg2) (le_trans (shrinkGap_le g hg2) (by omega)) hmem2
      refine ⟨b, ?_, hb2.trans hperm, le_trans hb3 hw⟩
      simp only [sweepAux, if_neg hg1]
      exact hb1

/-- Adjacent sortedness, as certified by a swap-free gap-1 pass. -/
def sortedAdj (a : List SelEntry) : Prop :=
  ∀ (t : Nat) (x y : SelEntry), 1 ≤ t → a[t]? = some x → a[t - 1]? = some y →
    scmp x.key y.key ≠ Ordering.lt

/-- The outer loop, with fuel exceeding the measure, sorts. -/
theorem combSweeps_spec (m : List Str) :
    ∀ (fuel : Nat) (a : List SelEntry), (∀ e ∈ a, e.key ∈ m) →
      weight m a < fuel →
      (combSweeps fuel a).Perm a ∧ sortedAdj (combSweeps fuel a) := by
  intro fuel
  induction fuel with
  | zero => intro a _ hw; omega
  | succ fuel ih =>
    intro a hmem hw
    obtain ⟨b, hb1, hb2, hb3⟩ := sweepAux_spec m (gap0 a.length + 1) (gap0 a.length) a
      (le_max_right _ 1) (by omega) hmem
    have hmemb : ∀ e ∈ b, e.key ∈ m := fun e he => hmem e (hb2.mem_iff.mp he)
    simp only [combSweeps, hb1]
    by_cases hz : (gapPass 1 b).2 = 0
    · rw [if_pos hz]
      have hlen : b.length ≤ 1 + b.length := by omega
      have hpd : gapPass 1 b = passAux 1 b.length 1 b 0 := rfl
      rw [hpd] at hz ⊢
      have hns := passAux_noswap1 b.length 1 b 0 hlen hz
      rw [hns.1]
      refine ⟨hb2, ?_⟩
      intro t x y ht hx hy
      exact hns.2 t x y ht hx hy
    · rw [if_neg hz]
      have hwp : weight m (gapPass 1 b).1 + (gapPass 1 b).2 ≤ weight m b := by
        have := passAux_weight m 1 (le_refl 1) b.length 1 b 0 hmemb
        unfold gapPass
        omega
      have hpb : (gapPass 1 b).1.Perm b := passAux_perm 1 b.length 1 b 0
      have hmemp : ∀ e ∈ (gapPass 1 b).1, e.key ∈ m :=
        fun e he => hmemb e (hpb.mem_iff.mp he)
      have hrec := ih (gapPass 1 b).1 hmemp (by omega)
      exact ⟨hrec.1.trans (hpb.trans hb2), hrec.2⟩

theorem sort_entries_perm (a : List SelEntry) : (sort_entries a).Perm a := by
  unfold sort_entries sortFuel
  exact (combSweeps_spec (a.map SelEntry.key) (weight (a.map SelEntry.key) a + 1) a
    (fun e he => List.mem_map.mpr ⟨e, he, rfl⟩) (by omega)).1

theorem sort_entries_sortedAdj (a : List SelEntry) : sortedAdj (sort_entries a) := by
  unfold sort_entries sortFuel
  exact (combSweeps_spec (a.map SelEntry.key) (weight (a.map SelEntry.key) a + 1) a
    (fun e he => List.mem_map.mpr ⟨e, he, rfl⟩) (by omega)).2

/-- Non-strict key order between entries (ascending `strcmp`). -/
def keyLE (x y : SelEntry) : Prop := scmp x.key y.key ≠ Ordering.gt

instance : IsTrans SelEntry keyLE := ⟨fun _ _ _ => scmp_le_trans⟩

theorem sortedAdj_pairwise {a : List SelEntry} (h : sortedAdj a) :
    a.Pairwise keyLE := by
  rw [← List.chain'_iff_pairwise]
  rw [List.chain'_iff_get]
  intro i hi
  have h1 : a[i+1]? = some (a.get ⟨i+1, by omega⟩) := by
    rw [List.getElem?_eq_getElem (by omega)]
    rfl
  have h2 : a[(i+1) - 1]? = some (a.get ⟨i, by omega⟩) := by
    rw [show (i+1) - 1 = i from rfl, List.getElem?_eq_getElem (by omega)]
    rfl
  have := h (i+1) _ _ (by omega) h1 h2
  exact fun hgt => this ((scmp_lt_gt _ _).mpr hgt)

theorem sort_entries_pairwise (a : List SelEntry) :
    (sort_entries a).Pairwise keyLE :=
  sortedAdj_pairwise (sort_entries_sortedAdj a)

/-! ## `remove_dups`

The C loop walks the sorted arrays with a read index `i` and a write index
`didx`, discarding entries equal to the last kept one (`dst`).  Under `-cod`
(`gbl_cod`, our `cod = true`) each duplicate is a warning (we count them),
otherwise the first duplicate aborts (`Except.error`). -/

def removeDupsAux (cod : Bool) : SelEntry → List SelEntry →
    Except Unit (List SelEntry × Nat)
  | _, [] => Except.ok ([], 0)
  | dst, e :: rest =>
    if scmp dst.key e.key = Ordering.eq then
      if cod then
        match removeDupsAux cod dst rest with
        | Except.ok (l, w) => Except.ok (l, w + 1)
        | Except.error u => Except.error u
      else Except.error ()
    else
      match removeDupsAux cod e rest with
      | Except.ok (l, w) => Except.ok (e :: l, w)
      | Except.error u => Except.error u

def remove_dups (cod : Bool) : List SelEntry → Except Unit (List SelEntry × Nat)
  | [] => Except.ok ([], 0)
  | d :: rest =>
    match removeDupsAux cod d rest with
    | Except.ok (l, w) => Except.ok (d :: l, w)
    | Except.error u => Except.error u

/-- On a list whose adjacent keys all differ, `remove_dups` keeps everything
(whatever the duplicate policy). -/
theorem removeDupsAux_distinct (cod : Bool) :
    ∀ (rest : List SelEntry) (dst : SelEntry),
      (dst :: rest).Chain' (fun x y => x.key ≠ y.key) →
      removeDupsAux cod dst rest = Except.ok (rest, 0) := by
  intro rest
  induction rest with
  | nil => intro dst _; rfl
  | cons e rest ih =>
    intro dst hch
    have hne : dst.key ≠ e.key := (List.chain'_cons.mp hch).1
    have hcn : ¬ (scmp dst.key e.key = Ordering.eq) := by
      intro hc
      exact hne ((scmp_eq_iff _ _).mp hc)
    unfold removeDupsAux
    rw [if_neg hcn, ih e (List.chain'_cons.mp hch).2]

theorem remove_dups_distinct (cod : Bool) (a : List SelEntry)
    (h : a.Chain' (fun x y => x.key ≠ y.key)) :
    remove_dups cod a = Except.ok (a, 0) := by
  cases a with
  | nil => rfl
  | cons d rest =>
    show (match removeDupsAux cod d rest with
      | Except.ok (l, w) => Except.ok (d :: l, w)
      | Except.error u => Except.error u) = Except.ok (d :: rest, 0)
    rw [removeDupsAux_distinct cod rest d h]

theorem scmp_le_antisymm {a b : Str} (h1 : scmp a b ≠ Ordering.gt)
    (h2 : scmp b a ≠ Ordering.gt) : a = b := by
  refine scmp_not_lt_not_gt a b ?_ h1
  intro hlt
  exact h2 ((scmp_lt_gt a b).mp hlt)

/-- Full specification of the `-cod` duplicate removal on a sorted list:
it succeeds, keeps a sublist, counts one warning per discarded entry, the
kept keys are pairwise distinct and cover the input keys, and each kept
entry is the *first* entry of the (sorted) input carrying its key. -/
theorem removeDupsAux_sorted (rest : List SelEntry) :
    ∀ (dst : SelEntry), (dst :: rest).Pairwise keyLE →
    ∃ (l : List SelEntry) (w : Nat),
      removeDupsAux true dst rest = Except.ok (l, w) ∧
      l.Sublist rest ∧
      l.length + w = rest.length ∧
      (dst :: l).Pairwise keyLE ∧
      (∀ e ∈ l, e.key ≠ dst.key) ∧
      (∀ e ∈ l, rest.find? (fun x => decide (x.key = e.key)) = some e) ∧
      (∀ k, k ∈ rest.map SelEntry.key → k = dst.key ∨ k ∈ l.map SelEntry.key) ∧
      ((dst :: l).map SelEntry.key).Nodup := by
  induction rest with
  | nil =>
    intro dst _
    refine ⟨[], 0, rfl, List.Sublist.refl _, rfl, ?_, ?_, ?_, ?_, ?_⟩
    · exact List.pairwise_singleton _ _
    · intro e he; cases he
    · intro e he; cases he
    · intro k hk; cases hk
    · simp
  | cons e rest ih =>
    intro dst hp
    have hpe : (e :: rest).Pairwise keyLE := hp.sublist (List.sublist_cons_self _ _)
    have hdst_e : keyLE dst e := (List.pairwise_cons.mp hp).1 e (by simp)
    by_cases hdup : scmp dst.key e.key = Ordering.eq
    · have hkeq : dst.key = e.key := (scmp_eq_iff _ _).mp hdup
      have hpd : (dst :: rest).Pairwise keyLE := by
        refine List.pairwise_cons.mpr ⟨?_, (List.pairwise_cons.mp hpe).2⟩
        intro x hx
        exact (List.pairwise_cons.mp hp).1 x (by simp [hx])
      obtain ⟨l, w, h1, h2, h3, h4, h5, h6, h7, h8⟩ := ih dst hpd
      refine ⟨l, w + 1, ?_, h2.trans (List.sublist_cons_self _ _), by simp; omega,
        h4, h5, ?_, ?_, h8⟩
      · unfold removeDupsAux
        rw [if_pos hdup, if_pos rfl, h1]
      · intro x hx
        have hne : ¬ (decide (e.key = x.key) = true) := by
          simp only [decide_eq_true_eq]
          rw [← hkeq]
          exact fun hc => (h5 x hx) hc.symm
        rw [List.find?_cons_of_neg _ (by simpa using hne)]
        exact h6 x hx
      · intro k hk
        rcases List.mem_cons.mp (by simpa using hk : k ∈ e.key :: rest.map SelEntry.key) with hk1 | hk2
        · left; rw [hk1, hkeq]
        · exact h7 k hk2
    · obtain ⟨l, w, h1, h2, h3, h4, h5, h6, h7, h8⟩ := ih e hpe
      have hdste : dst.key ≠ e.key := fun hc => hdup ((scmp_eq_iff _ _).mpr hc)
      refine ⟨e :: l, w, ?_, h2.cons₂ e, by simp; omega, ?_, ?_, ?_, ?_, ?_⟩
      · unfold removeDupsAux
        rw [if_neg hdup, h1]
      · -- (dst :: e :: l) pairwise
        refine List.pairwise_cons.mpr ⟨?_, h4⟩
        intro x hx
        rcases List.mem_cons.mp hx with hx1 | hx2
        · rw [hx1]; exact hdst_e
        · exact IsTrans.trans dst e x hdst_e ((List.pairwise_cons.mp h4).1 x hx2)
      · -- keys differ from dst
        intro x hx
        rcases List.mem_cons.mp hx with hx1 | hx2
        · rw [hx1]; exact fun hc => hdste hc.symm
        · intro hc
          have hex : keyLE e x := (List.pairwise_cons.mp h4).1 x hx2
          have hxd : keyLE x dst := by
            unfold keyLE
            rw [hc, scmp_refl]
            intro hfalse; cases hfalse
          have hed : keyLE e dst := IsTrans.trans e x dst hex hxd
          exact hdste (scmp_le_antisymm hdst_e hed)
      · -- first-occurrence property
        intro x hx
        rcases List.mem_cons.mp hx with hx1 | hx2
        · rw [hx1]
          rw [List.find?_cons_of_pos _ (by simp)]
        · have hne : e.key ≠ x.key := fun hc => (h5 x hx2) hc.symm
          rw [List.find?_cons_of_neg _ (by simpa using hne)]
          exact h6 x hx2
      · intro k hk
        rcases List.mem_cons.mp (by simpa using hk : k ∈ e.key :: rest.map SelEntry.key) with hk1 | hk2
        · right; rw [hk1]; simp
        · rcases h7 k hk2 with h | h
          · right; rw [h]; simp
          · right; simp [h]
      · -- Nodup of (dst :: e :: l) keys
        have h8' : ((e :: l).map SelEntry.key).Nodup := h8
        refine List.nodup_cons.mpr ⟨?_, h8'⟩
        intro hc
        rcases List.mem_cons.mp (by simpa using hc : dst.key ∈ e.key :: l.map SelEntry.key) with hk1 | hk2
        · exact hdste hk1
        · obtain ⟨x, hx, hxk⟩ := List.mem_map.mp hk2
          have hex : keyLE e x := (List.pairwise_cons.mp h4).1 x hx
          have hxd : keyLE x dst := by
            unfold keyLE
            rw [hxk, scmp_refl]
            intro hfalse; cases hfalse
          have hed : keyLE e dst := IsTrans.trans e x dst hex hxd
          exact hdste (scmp_le_antisymm hdst_e hed)

theorem remove_dups_sorted (a : List SelEntry) (ha : a.Pairwise keyLE) :
    ∃ (l : List SelEntry) (w : Nat),
      remove_dups true a = Except.ok (l, w) ∧
      l.Sublist a ∧
      l.length + w = a.length ∧
      l.Pairwise keyLE ∧
      ((l.map SelEntry.key).Nodup) ∧
      (∀ k, k ∈ a.map SelEntry.key ↔ k ∈ l.map SelEntry.key) ∧
      (∀ e ∈ l, a.find? (fun x => decide (x.key = e.key)) = some e) ∧
      l.length ≤ a.length ∧ (a ≠ [] → l ≠ []) := by
  cases a with
  | nil =>
    refine ⟨[], 0, rfl, List.Sublist.refl _, rfl, List.Pairwise.nil, by simp,
      by simp, ?_, ?_, ?_⟩
    · intro e he; cases he
    · exact le_refl _
    · intro h; exact absurd rfl h
  | cons d rest =>
    obtain ⟨l, w, h1, h2, h3, h4, h5, h6, h7, h8⟩ := removeDupsAux_sorted rest d ha
    refine ⟨d :: l, w, ?_, h2.cons₂ d, by simp; omega, h4, h8, ?_, ?_, ?_, ?_⟩
    · show (match removeDupsAux true d rest with
        | Except.ok (l, w) => Except.ok (d :: l, w)
        | Except.error u => Except.error u) = Except.ok (d :: l, w)
      rw [h1]
    · intro k
      constructor
      · intro hk
        rcases List.mem_cons.mp (by simpa using hk : k ∈ d.key :: rest.map SelEntry.key) with hk1 | hk2
        · rw [hk1]; simp
        · rcases h7 k hk2 with h | h
          · rw [h]; simp
          · simp [h]
      · intro hk
        have : (d :: l).Sublist (d :: rest) := h2.cons₂ d
        exact (this.map SelEntry.key).mem hk
    · intro x hx
      rcases List.mem_cons.mp hx with hx1 | hx2
      · rw [hx1]
        rw [List.find?_cons_of_pos _ (by simp)]
      · have hne : d.key ≠ x.key := fun hc => (h5 x hx2) hc.symm
        rw [List.find?_cons_of_neg _ (by simpa using hne)]
        exact h6 x hx2
    · have := h2.length_le
      simp
      omega
    · intro _
      simp

/-! ## `get_entries`: parsing the selection list

The reading loop of `get_entries` takes each line (the `\n` already removed
by the line split), strips one trailing `\r`, takes the leading span of
non-delimiter bytes as the key (`strcspn(bigstring, gbl_hs)`), skips lines
with an empty key, and in `-frag` mode parses a group name from the bytes
after the key: skip one byte (the delimiter overwritten by `NUL`), skip any
further delimiters (`strspn`), then take the next non-delimiter span
(`strcspn`); an empty span leaves the group absent.  (In C an absent group
leaves the `group_name_list` slot uninitialised; reading it later is
undefined behaviour, modelled below as the missing-group fatal error that
the corresponding check raises.) -/

def chomp (l : Str) : Str :=
  if l.getLast? = some 13 then l.dropLast else l

def keySpan (hs : List Nat) (line : Str) : Str :=
  line.takeWhile (fun c => decide (¬ c ∈ hs))

def groupSpan (hs : List Nat) (line : Str) : Option Str :=
  let spanned := (keySpan hs line).length
  let rest := line.drop (spanned + 1)
  let rest2 := rest.dropWhile (fun c => decide (c ∈ hs))
  let g := rest2.takeWhile (fun c => decide (¬ c ∈ hs))
  if 0 < g.length then some g else none

def get_entries (frag : Bool) (hs : List Nat) (lines : List Str) :
    List (Str × Option Str) :=
  lines.filterMap (fun line0 =>
    let line := chomp line0
    let k := keySpan hs line
    if 0 < k.length then some (k, if frag then groupSpan hs line else none)
    else none)

/-- `for(i=0;i<entrynum;i++){emitorder[i]=i;}` applied to the parsed raw
entries: the entry's `pos` is its index in the raw (pre-sort) list. -/
def mkEntries (raw : List (Str × Option Str)) : List SelEntry :=
  raw.enum.map (fun p => ⟨p.2.1, p.2.2, p.1⟩)

/-! ## `bin_search` -/


/-- The loop body of `bin_search`.  `bot`/`top` are C `int`s; whenever `mid`
is computed both are nonnegative (`0 ≤ bot ≤ top`), so computing it with a
`Nat` division after `toNat` matches C's truncating `int` division.  The
C `if/else if/else if` chain on `strcmp` is kept as an `if` chain.  Fuel
(`size + 1`, supplied by `bin_search`) dominates the iteration count, since
the window shrinks strictly. -/
def bsAux (find : Str) (l : List Str) : Nat → Int → Int → Int
  | 0, _, _ => -1
  | fuel+1, bot, top =>
    if bot ≤ top then
      match l[((bot + top).toNat / 2 : Nat)]? with
      | some s =>
        if scmp s find = Ordering.eq then (((bot + top).toNat / 2 : Nat) : Int)
        else if scmp s find = Ordering.gt then
          bsAux find l fuel bot ((((bot + top).toNat / 2 : Nat) : Int) - 1)
        else
          bsAux find l fuel ((((bot + top).toNat / 2 : Nat) : Int) + 1) top
      | none => -1
    else -1

/-- `bin_search(find, list, size)`: position of `find` or `-1`. -/
def bin_search (find : Str) (l : List Str) (size : Nat) : Int :=
  bsAux find l (size + 1) 0 ((size : Int) - 1)

/-- The sorted-table invariant used by the binary search. -/
def strSorted (l : List Str) : Prop :=
  l.Pairwise (fun x y => scmp x y ≠ Ordering.gt)

theorem strSorted_le (l : List Str) (h : strSorted l) (i j : Nat) (x y : Str)
    (hij : i ≤ j) (hx : l[i]? = some x) (hy : l[j]? = some y) :
    scmp x y ≠ Ordering.gt := by
  have hjl : j < l.length := getElem?_some_lt hy
  have hil : i < l.length := getElem?_some_lt hx
  have hx2 : l[i] = x := by
    rw [List.getElem?_eq_getElem hil] at hx
    exact Option.some.inj hx
  have hy2 : l[j] = y := by
    rw [List.getElem?_eq_getElem hjl] at hy
    exact Option.some.inj hy
  by_cases he : i = j
  · subst he
    have hxy : x = y := by rw [← hx2, ← hy2]
    rw [hxy, (scmp_eq_iff y y).mpr rfl]
    intro hc
    cases hc
  · have hp := List.pairwise_iff_getElem.mp h i j hil hjl (by omega)
    rw [hx2, hy2] at hp
    exact hp

/-- Main invariant proof for the binary search: with a window containing all
occurrences of `find` (below `size`) and enough fuel, the search returns
either `-1` (and `find` is absent) or a valid index holding `find`. -/
theorem bsAux_spec (find : Str) (l : List Str) (size : Nat)
    (hsz : size ≤ l.length) (hsorted : strSorted l) :
    ∀ (fuel : Nat) (bot top : Int), 0 ≤ bot → top < (size : Int) →
      (top + 1 - bot).toNat ≤ fuel →
      (∀ i : Nat, i < size → l[i]? = some find →
        bot ≤ (i : Int) ∧ (i : Int) ≤ top) →
      (bsAux find l fuel bot top = -1 →
        ∀ i : Nat, i < size → l[i]? ≠ some find) ∧
      (bsAux find l fuel bot top ≠ -1 →
        ∃ i : Nat, bsAux find l fuel bot top = (i : Int) ∧ i < size ∧
          l[i]? = some find) := by
  intro fuel
  induction fuel with
  | zero =>
    intro bot top hbot htop hfuel hinv
    constructor
    · intro _ i hi hfind
      have := hinv i hi hfind
      omega
    · intro hne
      exact absurd rfl hne
  | succ fuel ih =>
    intro bot top hbot htop hfuel hinv
    by_cases hbt : bot ≤ top
    · have hmb : bot ≤ (((bot + top).toNat / 2 : Nat) : Int) ∧
          (((bot + top).toNat / 2 : Nat) : Int) ≤ top := by
        constructor <;> omega
      have hmsz : ((bot + top).toNat / 2 : Nat) < size := by omega
      have hml : ((bot + top).toNat / 2 : Nat) < l.length := by omega
      have hms : l[((bot + top).toNat / 2 : Nat)]? =
          some (l[((bot + top).toNat / 2 : Nat)]) := List.getElem?_eq_getElem hml
      have hstep : bsAux find l (fuel+1) bot top =
          (if scmp (l[((bot + top).toNat / 2 : Nat)]) find = Ordering.eq then
            (((bot + top).toNat / 2 : Nat) : Int)
          else if scmp (l[((bot + top).toNat / 2 : Nat)]) find = Ordering.gt then
            bsAux find l fuel bot ((((bot + top).toNat / 2 : Nat) : Int) - 1)
          else
            bsAux find l fuel ((((bot + top).toNat / 2 : Nat) : Int) + 1) top) := by
        show (if bot ≤ top then
            match l[((bot + top).toNat / 2 : Nat)]? with
            | some s =>
              if scmp s find = Ordering.eq then (((bot + top).toNat / 2 : Nat) : Int)
              else if scmp s find = Ordering.gt then
                bsAux find l fuel bot ((((bot + top).toNat / 2 : Nat) : Int) - 1)
              else
                bsAux find l fuel ((((bot + top).toNat / 2 : Nat) : Int) + 1) top
            | none => -1
          else -1) = _
        rw [if_pos hbt, hms]
      by_cases hceq : scmp (l[((bot + top).toNat / 2 : Nat)]) find = Ordering.eq
      · rw [hstep, if_pos hceq]
        constructor
        · intro hm1
          exact absurd hm1 (by omega)
        · intro _
          refine ⟨((bot + top).toNat / 2 : Nat), rfl, hmsz, ?_⟩
          rw [hms, (scmp_eq_iff _ _).mp hceq]
      · by_cases hcgt : scmp (l[((bot + top).toNat / 2 : Nat)]) find = Ordering.gt
        · rw [hstep, if_neg hceq, if_pos hcgt]
          have hinv2 : ∀ i : Nat, i < size → l[i]? = some find →
              bot ≤ (i : Int) ∧
              (i : Int) ≤ (((bot + top).toNat / 2 : Nat) : Int) - 1 := by
            intro i hi hfind
            have hold := hinv i hi hfind
            refine ⟨hold.1, ?_⟩
            by_contra hc
            have hmi : ((bot + top).toNat / 2 : Nat) ≤ i := by omega
            have hle := strSorted_le l hsorted ((bot + top).toNat / 2 : Nat) i
              (l[((bot + top).toNat / 2 : Nat)]) find hmi hms hfind
            have h2 : scmp find (l[((bot + top).toNat / 2 : Nat)]) = Ordering.lt :=
              (scmp_lt_gt _ _).mpr hcgt
            have h3 : scmp find find = Ordering.lt := scmp_lt_of_lt_of_le h2 hle
            rw [scmp_refl] at h3
            cases h3
          exact ih bot ((((bot + top).toNat / 2 : Nat) : Int) - 1) hbot (by omega)
            (by omega) hinv2
        · rw [hstep, if_neg hceq, if_neg hcgt]
          have hclt : scmp (l[((bot + top).toNat / 2 : Nat)]) find = Ordering.lt := by
            cases hc : scmp (l[((bot + top).toNat / 2 : Nat)]) find
            · rfl
            · exact absurd hc hceq
            · exact absurd hc hcgt
          have hinv2 : ∀ i : Nat, i < size → l[i]? = some find →
              (((bot + top).toNat / 2 : Nat) : Int) + 1 ≤ (i : Int) ∧
              (i : Int) ≤ top := by
            intro i hi hfind
            have hold := hinv i hi hfind
            refine ⟨?_, hold.2⟩
            by_contra hc
            have him : i ≤ ((bot + top).toNat / 2 : Nat) := by omega
            have hle := strSorted_le l hsorted i ((bot + top).toNat / 2 : Nat)
              find (l[((bot + top).toNat / 2 : Nat)]) him hfind hms
            have h3 : scmp (l[((bot + top).toNat / 2 : Nat)])
                (l[((bot + top).toNat / 2 : Nat)]) = Ordering.lt := by
              have hgf : scmp (l[((bot + top).toNat / 2 : Nat)]) find = Ordering.lt := hclt
              exact scmp_lt_of_lt_of_le hgf (by
                intro hg
                exact hle ((scmp_lt_gt _ _).mp ((scmp_lt_gt _ _).mpr hg)))
            rw [scmp_refl] at h3
            cases h3
          exact ih ((((bot + top).toNat / 2 : Nat) : Int) + 1) top (by omega) htop
            (by omega) hinv2
    · have hstep : bsAux find l (fuel+1) bot top = -1 := by
        show (if bot ≤ top then _ else (-1 : Int)) = -1
        rw [if_neg hbt]
      rw [hstep]
      constructor
      · intro _ i hi hfind
        have := hinv i hi hfind
        omega
      · intro hne
        exact absurd rfl hne

theorem bin_search_neg (find : Str) (l : List Str) (size : Nat)
    (hsz : size ≤ l.length) (hsorted : strSorted l)
    (h : bin_search find l size = -1) :
    ∀ i : Nat, i < size → l[i]? ≠ some find := by
  have := bsAux_spec find l size hsz hsorted (size + 1) 0 ((size : Int) - 1)
    (by omega) (by omega) (by omega) (by intro i hi _; omega)
  exact this.1 h

theorem bin_search_pos (find : Str) (l : List Str) (size : Nat)
    (hsz : size ≤ l.length) (hsorted : strSorted l)
    (h : bin_search find l size ≠ -1) :
    ∃ i : Nat, bin_search find l size = (i : Int) ∧ i < size ∧
      l[i]? = some find := by
  have := bsAux_spec find l size hsz hsorted (size + 1) 0 ((size : Int) - 1)
    (by omega) (by omega) (by omega) (by intro i hi _; omega)
  exact this.2 h

/-! ## The `main` scanning loop

The C loop reads the fasta stream line by line; a line starting with `>`
(byte 62) begins a new record, closes the previous record (whose
accumulated payload, if it was being collected, is stored into the reorder
buffer and eagerly drained), and is matched against the selector table.
Body lines are appended to the payload being accumulated.  The model below
steps over whole records (`Rec` = header line after the marker plus body
lines, with line terminators already split off and any `\r` stripped); the
payload handoff at the *next* header/EOF, and every counter/flag update, is
mirrored exactly. -/

def FRAG_NONE : Nat := 0
def FRAG_NEW : Nat := 1
def FRAG_APPEND : Nat := 2

/-- The already-validated configuration of one run (the `gbl_*` globals). -/
structure Config where
  hs : List Nat      -- gbl_hs: selection-list delimiters
  hi : List Nat      -- gbl_hi: stream header-key delimiters
  frag : Nat         -- gbl_frag: FRAG_NONE / FRAG_NEW / FRAG_APPEND
  com : Bool         -- gbl_com: continue on miss
  cod : Bool         -- gbl_cod: continue on duplicate selectors
  reject : Bool      -- gbl_reject
deriving DecidableEq

/-- One stream record: the header line with the leading `>` removed, plus
its body lines (none of which starts with `>` in a well-formed stream). -/
structure Rec where
  name : Str
  body : List Str
deriving DecidableEq

/-- Key extraction from a header: `strcspn(bptr, gbl_hi)`, truncating there;
when the span is empty (`b_num_chars == 0`) the C code skips the truncation
and searches for the whole remainder. -/
def keyOfRec (hi : List Nat) (r : Rec) : Str :=
  let s := r.name.takeWhile (fun c => decide (¬ c ∈ hi))
  if 0 < s.length then s else r.name

/-- The payload accumulated for a record: each line followed by `\n`
(`sprintf(&accumstring[tail], "%s\n", bigstring)`), header line included
(with its `>`). -/
def renderRec (r : Rec) : Str :=
  (((62 :: r.name) :: r.body).map (fun l => l ++ [10])).flatten

inductive Err where
  | noSelectors      -- "nothing was read from -sel"
  | dupSelector      -- duplicate entry names in list (no -cod)
  | dupMatch         -- "duplicate entry name in FASTA file"
  | missingSelector  -- "did not find selector" without -com
  | missingGroup     -- "-frag[ac] used but one or more selectors lack second field"
  | fragExists       -- "-fragc mode output file already exists or noncontiguous group records"
  | progError        -- "fatal programming error: nonNULL storage" / undefined reads (unreachable)
deriving DecidableEq

/-- The mutable scanning state of `main`.  `next` is C's `lastemitted + 1`
(`lastemitted` starts at `-1`); output is a list of `(sink, bytes)` pairs,
the sink being `none` for the plain `-out` stream and `some g` for the
group file of tag `g` in fragment mode.  `created` is the set of files this
run created under `-fragc` (the output directory is assumed fresh, so the
existence probe `fopen(temp_name, "r")` succeeds exactly on them). -/
structure St where
  slots : List (Option Str)
  egroups : List (Option Str)
  emitlist : List Bool
  next : Nat
  emitting : Nat
  accum : Option Str
  lastGroup : Str
  created : List Str
  out : List (Option Str × Str)
  records : Nat
  emitted : Nat
deriving DecidableEq

/-- `emitstrings = calloc(entrynum, ...)` etc., with the pre-dedup entry
count `n`, plus the zero-initialised scalars. -/
def initSt (n : Nat) : St :=
  ⟨List.replicate n none, List.replicate n none, List.replicate n false,
   0, 0, none, [], [], [], 0, 0⟩

/-- The sink currently open: the group file of `last_group` in fragment
mode, the single output stream otherwise. -/
def sinkOf (cfg : Config) (st : St) : Option Str :=
  if cfg.frag ≠ 0 then some st.lastGroup else none

/-- The sink handoff on flushing position `p`:
`if(gbl_frag && strcmp(last_group, emitgroups[lastemitted])) { ... }`.
`-fraga` opens for append; `-fragc` probes for an existing target and is
fatal when it exists.  (A missing group tag at a flushed position would be
a `NULL`/uninitialised read in C; it cannot happen, and is mapped to
`progError`.) -/
def fragSwitch (cfg : Config) (st : St) (p : Nat) : Except Err St :=
  if cfg.frag ≠ 0 then
    match st.egroups[p]? with
    | some (some g) =>
      if g ≠ st.lastGroup then
        if cfg.frag = FRAG_APPEND then
          Except.ok {st with lastGroup := g}
        else if cfg.frag = FRAG_NEW then
          if g ∈ st.created then Except.error Err.fragExists
          else Except.ok {st with lastGroup := g, created := g :: st.created}
        else Except.ok {st with lastGroup := g}
      else Except.ok st
    | _ => Except.error Err.progError
  else Except.ok st

/-- Result of the eager flush loop. -/
inductive DrainOut where
  | cont (st : St)
  | bye (st : St)
  | fatal (e : Err) (st : St)
deriving DecidableEq

/-- The eager flush loop at a new header:
`while(1){ if(emitstrings[lastemitted+1]!=NULL){ lastemitted++; <sink
handoff>; fprintf; free; } else break; if(lastemitted==entrynum-1) goto
bye; }`.  The freed slot is modelled as `none` (it is never read again).
The caller supplies `entrynum - next` fuel, which exactly dominates the
iteration count. -/
def drain (cfg : Config) (entrynum : Nat) : Nat → St → DrainOut
  | 0, st => DrainOut.cont st
  | fuel+1, st =>
    match st.slots[st.next]? with
    | some (some s) =>
      match fragSwitch cfg st st.next with
      | Except.error e => DrainOut.fatal e st
      | Except.ok st1 =>
        let st2 : St := {st1 with
          out := st1.out ++ [(sinkOf cfg st1, s)]
          slots := st1.slots.set st1.next none
          next := st1.next + 1}
        if st2.next = entrynum then DrainOut.bye st2
        else drain cfg entrynum fuel st2
    | _ => DrainOut.cont st

/-- Storing a finished payload:
`if(emitstrings[emitorder[emitting]]!=NULL) insane(...);`
`emitstrings[emitorder[emitting]]=accumstring; accumstring=NULL;
emitting=0; ...` followed by the eager drain.  `emitorder[emitting]` is
`(tab[emitting]).pos` in the joint representation. -/
def storeAccum (cfg : Config) (tab : List SelEntry) (entrynum : Nat)
    (st : St) (a : Str) : DrainOut :=
  let p := ((tab[st.emitting]?).map SelEntry.pos).getD 0
  match st.slots[p]? with
  | some none =>
    let st1 : St := {st with
      slots := st.slots.set p (some a)
      accum := none
      emitting := 0}
    drain cfg entrynum (entrynum - st1.next) st1
  | _ => DrainOut.fatal Err.progError st

/-- `if(gbl_frag){ if(!group_name_list[emitting] || !strlen(...)) insane;
emitgroups[emitorder[emitting]] = group_name_list[emitting]; }` -/
def fragAssign (cfg : Config) (tab : List SelEntry) (st : St) (m : Nat) :
    Except Err St :=
  if cfg.frag ≠ 0 then
    match (tab[m]?).bind SelEntry.group with
    | some g =>
      if 0 < g.length then
        Except.ok {st with
          egroups := st.egroups.set (((tab[m]?).map SelEntry.pos).getD 0) (some g)}
      else Except.error Err.missingGroup
    | none => Except.error Err.missingGroup
  else Except.ok st

/-- Outcome of processing one record header. -/
inductive StepOut where
  | cont (st : St)
  | bye (st : St)
  | fatal (e : Err) (st : St)
deriving DecidableEq

/-- The lookup half of one record step: `bin_search`; the
`(matched != -1) ^ gbl_reject` emission test; duplicate-match check,
`emitlist` flag, fragment group assignment, and payload
(re)initialisation. -/
def lookupPhase (cfg : Config) (tab : List SelEntry) (entrynum : Nat)
    (r : Rec) (st1 : St) : StepOut :=
  let matched : Int := bin_search (keyOfRec cfg.hi r) (tab.map SelEntry.key) entrynum
  if Bool.xor (decide (matched ≠ -1)) cfg.reject then
    if cfg.reject = false then
      let m : Nat := matched.toNat
      let st2 : St := {st1 with emitting := m}
      match st2.emitlist[m]? with
      | some true => StepOut.fatal Err.dupMatch st2
      | some false =>
        let st3 : St := {st2 with emitlist := st2.emitlist.set m true}
        match fragAssign cfg tab st3 m with
        | Except.error e => StepOut.fatal e st3
        | Except.ok st4 =>
          StepOut.cont {st4 with
            accum := some (renderRec r)
            emitted := st4.emitted + 1}
      | none => StepOut.fatal Err.progError st2
    else
      StepOut.cont {st1 with
        out := st1.out ++ [(none, renderRec r)]
        emitted := st1.emitted + 1}
  else
    StepOut.cont st1

/-- Processing one record: `records++`; store-and-drain of the previous
payload; then the lookup half. -/
def scanRecord (cfg : Config) (tab : List SelEntry) (entrynum : Nat)
    (st0 : St) (r : Rec) : StepOut :=
  let st : St := {st0 with records := st0.records + 1}
  match cfg.reject, st.accum with
  | false, some a =>
    (match storeAccum cfg tab entrynum st a with
    | DrainOut.fatal e st1 => StepOut.fatal e st1
    | DrainOut.bye st1 => StepOut.bye st1
    | DrainOut.cont st1 => lookupPhase cfg tab entrynum r st1)
  | _, _ => lookupPhase cfg tab entrynum r st

/-- Result of the reading loop over the remaining records. -/
inductive ScanRes where
  | fatal (e : Err) (st : St)
  | bye (st : St) (rest : List Rec)
  | eof (st : St)
deriving DecidableEq

/-- The reading loop (`while(fgets(...))`), at record granularity.  A
`goto bye` stops it immediately; the unread suffix is carried in the
result. -/
def runRecs (cfg : Config) (tab : List SelEntry) (entrynum : Nat) :
    St → List Rec → ScanRes
  | st, [] => ScanRes.eof st
  | st, r :: rs =>
    match scanRecord cfg tab entrynum st r with
    | StepOut.fatal e st1 => ScanRes.fatal e st1
    | StepOut.bye st1 => ScanRes.bye st1 rs
    | StepOut.cont st1 => runRecs cfg tab entrynum st1 rs

/-- The keys reported by the completeness check, in table (sorted) order:
`for(i=0;i<entrynum;i++) if(!emitlist[i]) fprintf(..., header_name_list[i])`. -/
def missingKeys (tab : List SelEntry) (emitlist : List Bool) : List Str :=
  ((tab.zip emitlist).filter (fun pe => pe.2 = false)).map (fun pe => pe.1.key)

/-- The final forced drain:
`for(lastemitted++; lastemitted < entrynum; lastemitted++) if(emitstrings[lastemitted]!=NULL){ <sink handoff>; fprintf; free; }` —
ascending positions, skipping empty slots, no early stop.  Fuel
`entrynum - next` exactly covers the remaining positions.  A fatal sink
handoff aborts with the output written so far. -/
def finalDrain (cfg : Config) (entrynum : Nat) : Nat → St → St × Option Err
  | 0, st => (st, none)
  | fuel+1, st =>
    if st.next < entrynum then
      match st.slots[st.next]? with
      | some (some s) =>
        match fragSwitch cfg st st.next with
        | Except.error e => (st, some e)
        | Except.ok st1 =>
          finalDrain cfg entrynum fuel {st1 with
            out := st1.out ++ [(sinkOf cfg st1, s)]
            next := st1.next + 1}
      | _ => finalDrain cfg entrynum fuel {st with next := st.next + 1}
    else (st, none)

/-- `if(accumstring!=NULL){ emitstrings[emitorder[emitting]]=accumstring; }`
(the unchecked pending store before the final drain). -/
def pendingStore (tab : List SelEntry) (st : St) : St :=
  match st.accum with
  | some a =>
    {st with
      slots := st.slots.set (((tab[st.emitting]?).map SelEntry.pos).getD 0) (some a)
      accum := none}
  | none => st

/-- The observable outcome of a whole run. -/
structure Result where
  err : Option Err
  out : List (Option Str × Str)
  missReported : List Str
  dupWarns : Nat
  records : Nat
  emitted : Nat
  byeExit : Bool
deriving DecidableEq

/-- End-of-stream handling: the completeness check (report misses; fail
without `-com`), the pending store, and the final drain. -/
def finishRun (cfg : Config) (tab : List SelEntry) (entrynum : Nat)
    (dupW : Nat) (st : St) : Result :=
  let miss := missingKeys tab st.emitlist
  if cfg.reject = false ∧ st.emitted ≤ entrynum - 1 then
    if cfg.com = false then
      ⟨some Err.missingSelector, st.out, miss, dupW, st.records, st.emitted, false⟩
    else
      let st2 := pendingStore tab st
      match finalDrain cfg entrynum (entrynum - st2.next) st2 with
      | (st3, some e) => ⟨some e, st3.out, miss, dupW, st3.records, st3.emitted, false⟩
      | (st3, none) => ⟨none, st3.out, miss, dupW, st3.records, st3.emitted, false⟩
  else
    let st2 := pendingStore tab st
    match finalDrain cfg entrynum (entrynum - st2.next) st2 with
    | (st3, some e) => ⟨some e, st3.out, [], dupW, st3.records, st3.emitted, false⟩
    | (st3, none) => ⟨none, st3.out, [], dupW, st3.records, st3.emitted, false⟩

/-- The whole program on an already-split selection list and record stream:
parse the selectors (fatal if none), sort, deduplicate (fatal or warn),
scan the stream, and finish (or stop early at `goto bye` / a fatal error). -/
def fastaselecth (cfg : Config) (selLines : List Str) (stream : List Rec) :
    Result :=
  let raw := get_entries (cfg.frag ≠ 0) cfg.hs selLines
  if raw.length = 0 then
    ⟨some Err.noSelectors, [], [], 0, 0, 0, false⟩
  else
    let entries := mkEntries raw
    match remove_dups cfg.cod (sort_entries entries) with
    | Except.error _ => ⟨some Err.dupSelector, [], [], 0, 0, 0, false⟩
    | Except.ok (tab, dupW) =>
      match runRecs cfg tab tab.length (initSt entries.length) stream with
      | ScanRes.fatal e st => ⟨some e, st.out, [], dupW, st.records, st.emitted, false⟩
      | ScanRes.bye st _ => ⟨none, st.out, [], dupW, st.records, st.emitted, true⟩
      | ScanRes.eof st => finishRun cfg tab tab.length dupW st

/-! ## Facts about the raw entry table -/

theorem mkEntries_length (raw : List (Str × Option Str)) :
    (mkEntries raw).length = raw.length := by
  simp [mkEntries]

theorem mkEntries_map_pos (raw : List (Str × Option Str)) :
    (mkEntries raw).map SelEntry.pos = List.range raw.length := by
  unfold mkEntries
  rw [List.map_map]
  have : (SelEntry.pos ∘ fun p : Nat × (Str × Option Str) => SelEntry.mk p.2.1 p.2.2 p.1)
      = Prod.fst := rfl
  rw [this, List.enum_map_fst]

theorem mkEntries_map_key (raw : List (Str × Option Str)) :
    (mkEntries raw).map SelEntry.key = raw.map Prod.fst := by
  unfold mkEntries
  rw [List.map_map]
  have h1 : (SelEntry.key ∘ fun p : Nat × (Str × Option Str) => SelEntry.mk p.2.1 p.2.2 p.1)
      = (Prod.fst ∘ Prod.snd) := rfl
  rw [h1, ← List.map_map, List.enum_map_snd]

theorem mkEntries_mem (raw : List (Str × Option Str)) (e : SelEntry)
    (he : e ∈ mkEntries raw) : raw[e.pos]? = some (e.key, e.group) := by
  unfold mkEntries at he
  obtain ⟨⟨i, x⟩, hmem, heq⟩ := List.mem_map.mp he
  have hx : raw[i]? = some x := List.mk_mem_enum_iff_getElem?.mp hmem
  rw [← heq]
  exact hx

/-! ## Concrete run fixtures (shared by several scenario theorems) -/

/-- The default `-ht` delimiters `"|\t :"`. -/
def defHS : List Nat := [124, 9, 32, 58]

/-- The default `-hi` delimiters `"\1\t "`. -/
def defHI : List Nat := [1, 9, 32]

/-- Plain select mode, all options off. -/
def cfgPlain : Config := ⟨defHS, defHI, 0, false, false, false⟩

/-- Select mode with `-cod`. -/
def cfgCod : Config := ⟨defHS, defHI, 0, false, true, false⟩

/-- Select mode with `-cod -com`. -/
def cfgCodCom : Config := ⟨defHS, defHI, 0, true, true, false⟩

/-- `-fragc` (create-exclusive fragment mode). -/
def cfgFragC : Config := ⟨defHS, defHI, 1, false, false, false⟩

def recA : Rec := ⟨[65], []⟩
def recB : Rec := ⟨[66], []⟩
def recC : Rec := ⟨[67], []⟩
def recD : Rec := ⟨[68], []⟩

/-! ## Claim theorems -/

/-- Freezing of the reading loop after `goto bye` (used by C2): once the
scan has left via `bye`, appending any further records to the stream
changes nothing — they are never consumed. -/
theorem runRecs_bye_append (cfg : Config) (tab : List SelEntry) (entrynum : Nat) :
    ∀ (pre post : List Rec) (st st2 : St) (rest : List Rec),
      runRecs cfg tab entrynum st pre = ScanRes.bye st2 rest →
      runRecs cfg tab entrynum st (pre ++ post) = ScanRes.bye st2 (rest ++ post) := by
  intro pre
  induction pre with
  | nil =>
    intro post st st2 rest h
    exact ScanRes.noConfusion h
  | cons r rs ih =>
    intro post st st2 rest h
    simp only [runRecs, List.cons_append] at h ⊢
    cases hs : scanRecord cfg tab entrynum st r with
    | fatal e st1 =>
      rw [hs] at h
      exact ScanRes.noConfusion h
    | bye st1 =>
      rw [hs] at h
      injection h with h1 h2
      subst h1
      subst h2
      rfl
    | cont st1 =>
      rw [hs] at h
      exact ih post st1 st2 rest h

/-- C2 (early termination): once the flush cursor reaches `entrynum`
(`lastemitted == entrynum-1`), the scanner consumes nothing further: a run
that ended in `goto bye` is unchanged by any records appended to the
stream.  In Scenario A (selectors `B,A,C`, stream `A,B,C,D`) the run stops
while reading record `D`'s header (the 4th `records` tick, needed to close
record `C`): `D` is never matched — replacing `D` by a record that
*duplicates* the already-matched `B`, which would be fatal if it were ever
looked up, leaves the run successful — and the output is `B,A,C`. -/
theorem C2_early_termination :
    (∀ (cfg : Config) (tab : List SelEntry) (entrynum : Nat)
       (pre post : List Rec) (st st2 : St) (rest : List Rec),
       runRecs cfg tab entrynum st pre = ScanRes.bye st2 rest →
       runRecs cfg tab entrynum st (pre ++ post) = ScanRes.bye st2 (rest ++ post)) ∧
    fastaselecth cfgPlain [[66],[65],[67]] [recA, recB, recC, recD] =
      ⟨none, [(none, renderRec recB), (none, renderRec recA), (none, renderRec recC)],
        [], 0, 4, 3, true⟩ ∧
    fastaselecth cfgPlain [[66],[65],[67]] [recA, recB, recC, ⟨[66], []⟩] =
      ⟨none, [(none, renderRec recB), (none, renderRec recA), (none, renderRec recC)],
        [], 0, 4, 3, true⟩ := by
  refine ⟨runRecs_bye_append, ?_, ?_⟩ <;> rfl

/-- Witness for C2: the general conjunct applied to a concrete `bye` run
(selector `A`, stream `A,A`; the second record closes the first and
triggers the early exit, so an appended record is not consumed). -/
theorem C2_early_termination_witness :
    runRecs cfgPlain [⟨[65], none, 0⟩] 1 (initSt 1) ([recA, recA] ++ [recB]) =
      ScanRes.bye ⟨[none], [none], [true], 1, 0, none, [], [],
        [(none, renderRec recA)], 2, 1⟩ ([] ++ [recB]) :=
  C2_early_termination.1 cfgPlain [⟨[65], none, 0⟩] 1 [recA, recA] [recB]
    (initSt 1) _ [] (by rfl)

/-- C3 counterexample: with `-cod` and the raw selection list `A, A, B`
(keys at original positions 0, 1, 2), the surviving output positions are
`[0, 2]` — not the dense `0..M-1 = [0, 1]` the claim asserts.  The
discarded duplicate's position 1 simply disappears and position 2 is never
renumbered. -/
theorem C3_positions_counterexample :
    (remove_dups true (sort_entries (mkEntries [([65], none), ([65], none), ([66], none)])) =
      Except.ok ([⟨[65], none, 0⟩, ⟨[66], none, 2⟩], 1)) ∧
    ¬ ([0, 2] : List Nat).Perm (List.range 2) := by
  constructor
  · rfl
  · decide

/-- C3 (amended): after sorting and duplicate removal under `-cod`, the
surviving selectors keep their *original raw-list indices* as output
positions: they are pairwise distinct and below the raw count, with one
warning per discarded entry, but they form the dense sequence `0..M-1`
exactly when no duplicate was discarded (in particular whenever the raw
keys are pairwise distinct).  These position values are what the reorder
buffer keys payloads by (`emitstrings[emitorder[emitting]]`). -/
theorem C3_positions_amended (raw : List (Str × Option Str)) :
    ∃ (tab : List SelEntry) (w : Nat),
      remove_dups true (sort_entries (mkEntries raw)) = Except.ok (tab, w) ∧
      (tab.map SelEntry.pos).Nodup ∧
      (∀ e ∈ tab, e.pos < raw.length) ∧
      tab.length + w = raw.length ∧
      (w = 0 ↔ (raw.map Prod.fst).Nodup) ∧
      (w = 0 → (tab.map SelEntry.pos).Perm (List.range raw.length)) := by
  have hperm := sort_entries_perm (mkEntries raw)
  have hsorted := sort_entries_pairwise (mkEntries raw)
  obtain ⟨tab, w, h1, h2, h3, h4, h5, h6, h7, h8, h9⟩ :=
    remove_dups_sorted (sort_entries (mkEntries raw)) hsorted
  have hposes : ((sort_entries (mkEntries raw)).map SelEntry.pos).Perm
      (List.range raw.length) := by
    rw [← mkEntries_map_pos raw]
    exact hperm.map SelEntry.pos
  have hkeys : ((sort_entries (mkEntries raw)).map SelEntry.key).Perm
      (raw.map Prod.fst) := by
    rw [← mkEntries_map_key raw]
    exact hperm.map SelEntry.key
  have hlen0 : (sort_entries (mkEntries raw)).length = raw.length := by
    rw [hperm.length_eq, mkEntries_length]
  refine ⟨tab, w, h1, ?_, ?_, ?_, ?_, ?_⟩
  · -- distinct positions: a sublist of a list whose positions are nodup
    have hnd : ((sort_entries (mkEntries raw)).map SelEntry.pos).Nodup :=
      hposes.nodup_iff.mpr (List.nodup_range _)
    exact (h2.map SelEntry.pos).nodup hnd
  · intro e he
    have hmem : e ∈ sort_entries (mkEntries raw) := h2.mem he
    have : e.pos ∈ List.range raw.length :=
      hposes.mem_iff.mp (List.mem_map.mpr ⟨e, hmem, rfl⟩)
    exact List.mem_range.mp this
  · rw [← hlen0]
    exact h3
  · constructor
    · intro hw0
      have hlen1 : tab.length = (sort_entries (mkEntries raw)).length := by omega
      have htab : tab = sort_entries (mkEntries raw) := h2.eq_of_length hlen1
      have : (tab.map SelEntry.key).Nodup := h5
      rw [htab] at this
      exact (hkeys.nodup_iff).mp this
    · intro hnd
      have hndk : ((sort_entries (mkEntries raw)).map SelEntry.key).Nodup :=
        hkeys.nodup_iff.mpr hnd
      have hchain : (sort_entries (mkEntries raw)).Chain'
          (fun x y => x.key ≠ y.key) := by
        have hpw : (sort_entries (mkEntries raw)).Pairwise
            (fun x y => x.key ≠ y.key) := by
          rw [List.Nodup, List.pairwise_map] at hndk
          exact hndk
        exact hpw.chain'
      have := remove_dups_distinct true (sort_entries (mkEntries raw)) hchain
      rw [this] at h1
      injection h1 with h1a
      injection h1a with _ h1c
      omega
  · intro hw0
    have hlen1 : tab.length = (sort_entries (mkEntries raw)).length := by omega
    have htab : tab = sort_entries (mkEntries raw) := h2.eq_of_length hlen1
    rw [htab]
    exact hposes

/-- Witness for C3 at a concrete duplicated list (`A, A, B` under `-cod`). -/
theorem C3_positions_witness :
    ∃ (tab : List SelEntry) (w : Nat),
      remove_dups true (sort_entries (mkEntries [([65], none), ([65], none), ([66], none)])) =
        Except.ok (tab, w) ∧
      (tab.map SelEntry.pos).Nodup ∧
      (∀ e ∈ tab, e.pos < ([([65], none), ([65], none), ([66], none)] :
        List (Str × Option Str)).length) ∧
      tab.length + w = ([([65], none), ([65], none), ([66], none)] :
        List (Str × Option Str)).length ∧
      (w = 0 ↔ (([([65], none), ([65], none), ([66], none)] :
        List (Str × Option Str)).map Prod.fst).Nodup) ∧
      (w = 0 → (tab.map SelEntry.pos).Perm (List.range ([([65], none), ([65], none),
        ([66], none)] : List (Str × Option Str)).length)) :=
  C3_positions_amended [([65], none), ([65], none), ([66], none)]

/-- C4 counterexample: the raw list `B, A, A, C, D, E` has the key `A` at
original positions 1 and 2.  The comb sort is not stable: its first pass
(gap 2) swaps the `A` at position 2 in front of the `A` at position 1, so
`remove_dups` under `-cod` retains the `A` with original `outputPosition`
2 — not the one with the smaller position 1 that the claim requires. -/
theorem C4_tiebreak_counterexample :
    ((mkEntries [([66], none), ([65], none), ([65], none), ([67], none),
        ([68], none), ([69], none)]).map (fun e => (e.key, e.pos)) =
      [([66], 0), ([65], 1), ([65], 2), ([67], 3), ([68], 4), ([69], 5)]) ∧
    remove_dups true (sort_entries (mkEntries [([66], none), ([65], none),
        ([65], none), ([67], none), ([68], none), ([69], none)])) =
      Except.ok ([⟨[65], none, 2⟩, ⟨[66], none, 0⟩, ⟨[67], none, 3⟩,
        ⟨[68], none, 4⟩, ⟨[69], none, 5⟩], 1) := by
  constructor
  · rfl
  · rfl

/-- C4 (amended): under `-cod` exactly one selector per distinct key is
retained, with one warning per discarded duplicate (`w = N - M`), and the
retained selector for each key is the *first entry of the comb-sorted
array* with that key — which, the sort being unstable, need not be the one
with the smallest original `outputPosition`. -/
theorem C4_tiebreak_amended (raw : List (Str × Option Str)) :
    ∃ (tab : List SelEntry) (w : Nat),
      remove_dups true (sort_entries (mkEntries raw)) = Except.ok (tab, w) ∧
      (tab.map SelEntry.key).Nodup ∧
      (∀ k, k ∈ raw.map Prod.fst ↔ k ∈ tab.map SelEntry.key) ∧
      tab.length + w = raw.length ∧
      (∀ e ∈ tab, (sort_entries (mkEntries raw)).find?
        (fun x => decide (x.key = e.key)) = some e) := by
  have hperm := sort_entries_perm (mkEntries raw)
  have hsorted := sort_entries_pairwise (mkEntries raw)
  obtain ⟨tab, w, h1, h2, h3, h4, h5, h6, h7, h8, h9⟩ :=
    remove_dups_sorted (sort_entries (mkEntries raw)) hsorted
  have hkeys : ((sort_entries (mkEntries raw)).map SelEntry.key).Perm
      (raw.map Prod.fst) := by
    rw [← mkEntries_map_key raw]
    exact hperm.map SelEntry.key
  have hlen0 : (sort_entries (mkEntries raw)).length = raw.length := by
    rw [hperm.length_eq, mkEntries_length]
  refine ⟨tab, w, h1, h5, ?_, by omega, h7⟩
  intro k
  rw [← h6 k]
  exact ⟨fun h => hkeys.mem_iff.mpr h, fun h => hkeys.mem_iff.mp h⟩

/-- Witness for C4 at the concrete unstable instance. -/
theorem C4_tiebreak_witness :
    ∃ (tab : List SelEntry) (w : Nat),
      remove_dups true (sort_entries (mkEntries [([66], none), ([65], none),
        ([65], none), ([67], none), ([68], none), ([69], none)])) =
        Except.ok (tab, w) ∧
      (tab.map SelEntry.key).Nodup ∧
      (∀ k, k ∈ ([([66], none), ([65], none), ([65], none), ([67], none),
        ([68], none), ([69], none)] : List (Str × Option Str)).map Prod.fst ↔
        k ∈ tab.map SelEntry.key) ∧
      tab.length + w = ([([66], none), ([65], none), ([65], none), ([67], none),
        ([68], none), ([69], none)] : List (Str × Option Str)).length ∧
      (∀ e ∈ tab, (sort_entries (mkEntries [([66], none), ([65], none),
        ([65], none), ([67], none), ([68], none), ([69], none)])).find?
        (fun x => decide (x.key = e.key)) = some e) :=
  C4_tiebreak_amended [([66], none), ([65], none), ([65], none), ([67], none),
    ([68], none), ([69], none)]

/-- C5 (code bug): with `-cod`, selectors `A, A, B` and stream `A, B`, the
stream ends with the flush cursor at 1 < M = 2; record `B` was matched
(`emitted = 2`) and its payload sits in the buffer at its original
position 2, but the final drain only walks positions `next..entrynum-1 =
1..1`, so `B` is silently never written: the run exits successfully with
only `A` in the output, contradicting the claim (and the program's own
description) that every buffered matched payload is written. -/
theorem C5_finalization_code_bug :
    fastaselecth cfgCod [[65], [65], [66]] [recA, recB] =
      ⟨none, [(none, renderRec recA)], [], 1, 2, 2, false⟩ := by
  rfl

/-- C7 counterexample: selector list `A`, stream `A, A`.  The second
record's key matches the selector whose `matched` flag is already set, yet
the run does **not** terminate with a fatal duplicate-match error: closing
the first record fills position `M-1 = 0`, the eager drain reaches `M` and
the program exits successfully (`goto bye`) before the second record is
ever looked up (exactly the caveat documented in the program's own `-cod`
help text). -/
theorem C7_dup_match_counterexample :
    fastaselecth cfgPlain [[65]] [recA, recA] =
      ⟨none, [(none, renderRec recA)], [], 0, 2, 1, true⟩ := by
  rfl

/-- C7 (amended): whenever the scanner actually *processes* a record whose
key hits a selector with the `matched` flag already set — i.e. the lookup
happens, which the all-positions-satisfied early exit can pre-empt — the
run terminates immediately with the fatal duplicate-match error, whatever
the `-com`/`-cod`/`-frag` configuration (in `-reject` mode `matched` flags
are never set, so the situation cannot arise). -/
theorem C7_dup_match_amended (cfg : Config) (tab : List SelEntry)
    (entrynum : Nat) (st0 : St) (r : Rec) (m : Nat)
    (hrej : cfg.reject = false)
    (hacc : st0.accum = none)
    (hbs : bin_search (keyOfRec cfg.hi r) (tab.map SelEntry.key) entrynum = (m : Int))
    (hflag : st0.emitlist[m]? = some true) :
    scanRecord cfg tab entrynum st0 r =
      StepOut.fatal Err.dupMatch
        {st0 with records := st0.records + 1, emitting := m} := by
  have hdm : decide (((m : Nat) : Int) ≠ -1) = true := decide_eq_true (by omega)
  simp only [scanRecord, lookupPhase, hrej, hacc, hbs, hdm, Bool.xor_false, if_true]
  have htn : ((m : Nat) : Int).toNat = m := Int.toNat_natCast m
  simp only [htn, hflag]

/-- Witness for C7: selectors `A, B`; the second stream record duplicates
the already-matched `A` and the step is fatal. -/
theorem C7_dup_match_witness :
    scanRecord cfgPlain [⟨[65], none, 0⟩, ⟨[66], none, 1⟩] 2
      ⟨[none, none], [none, none], [true, false], 0, 0, none, [], [],
        [], 1, 1⟩ recA =
      StepOut.fatal Err.dupMatch
        ⟨[none, none], [none, none], [true, false], 0, 0, none, [], [],
          [], 2, 1⟩ := by
  have h := C7_dup_match_amended cfgPlain [⟨[65], none, 0⟩, ⟨[66], none, 1⟩] 2
    ⟨[none, none], [none, none], [true, false], 0, 0, none, [], [], [], 1, 1⟩
    recA 0 (by rfl) (by rfl) (by rfl) (by rfl)
  exact h

/-- The group tag and name of the fragment fixtures for Scenario B:
selection lines `A g`, `B h`, `C g` (space-delimited). -/
def selFrag : List Str := [[65, 32, 103], [66, 32, 104], [67, 32, 103]]

/-- C9 (CreateExclusive routing): on every flush whose position carries a
group tag different from the currently open sink's tag, the current sink
is closed and the new tag's sink opened; under `-fragc` the open fails
fatally when the target already exists (here: was already created by this
run).  In Scenario B — selectors `(A,g), (B,h), (C,g)` matched in stream
order `A, B, C` — flushing `A` opens `g`, flushing `B` switches to `h`,
and flushing `C` tries to reopen `g`, which collides with the file created
earlier: a fatal error, with only `A` (to `g`) and `B` (to `h`) written. -/
theorem C9_create_exclusive :
    (∀ (cfg : Config) (st : St) (p : Nat) (g : Str),
      cfg.frag = FRAG_NEW → st.egroups[p]? = some (some g) → g ≠ st.lastGroup →
      (g ∈ st.created → fragSwitch cfg st p = Except.error Err.fragExists) ∧
      (g ∉ st.created → fragSwitch cfg st p =
        Except.ok {st with lastGroup := g, created := g :: st.created})) ∧
    fastaselecth cfgFragC selFrag [recA, recB, recC] =
      ⟨some Err.fragExists,
        [(some [103], renderRec recA), (some [104], renderRec recB)],
        [], 0, 3, 3, false⟩ := by
  constructor
  · intro cfg st p g hfrag hgrp hne
    have hfne : cfg.frag ≠ 0 := by rw [hfrag]; decide
    have hfnapp : cfg.frag ≠ FRAG_APPEND := by rw [hfrag]; decide
    constructor
    · intro hmem
      unfold fragSwitch
      rw [if_pos hfne, hgrp]
      dsimp only
      rw [if_pos hne, if_neg hfnapp, if_pos hfrag, if_pos hmem]
    · intro hmem
      unfold fragSwitch
      rw [if_pos hfne, hgrp]
      dsimp only
      rw [if_pos hne, if_neg hfnapp, if_pos hfrag, if_neg hmem]
  · rfl

/-- Witness for C9's general conjunct at a concrete state. -/
theorem C9_create_exclusive_witness :
    fragSwitch cfgFragC
      ⟨[], [some [103]], [], 0, 0, none, [104], [[103]], [], 0, 0⟩ 0 =
      Except.error Err.fragExists :=
  ((C9_create_exclusive.1 cfgFragC
      ⟨[], [some [103]], [], 0, 0, none, [104], [[103]], [], 0, 0⟩ 0 [103]
      (by rfl) (by rfl) (by decide)).1 (by decide))

/-- C10: if the selection list yields no retained selector (the file is
empty, or every line's key is empty after delimiter truncation — the
parenthesised equivalence), the program dies with the fatal
"nothing was read from -sel" error before the record stream is opened:
whatever the stream, nothing is written, no record is read, and no
counter moves. -/
theorem C10_empty_selectors (cfg : Config) (selLines : List Str)
    (stream : List Rec) :
    (get_entries (cfg.frag ≠ 0) cfg.hs selLines = [] ↔
      ∀ l ∈ selLines, keySpan cfg.hs (chomp l) = []) ∧
    (get_entries (cfg.frag ≠ 0) cfg.hs selLines = [] →
      fastaselecth cfg selLines stream =
        ⟨some Err.noSelectors, [], [], 0, 0, 0, false⟩) := by
  constructor
  · unfold get_entries
    rw [List.filterMap_eq_nil_iff]
    constructor
    · intro h l hl
      have h2 := h l hl
      by_cases hk : 0 < (keySpan cfg.hs (chomp l)).length
      · rw [if_pos hk] at h2
        cases h2
      · have h0 : (keySpan cfg.hs (chomp l)).length = 0 := by omega
        exact List.length_eq_zero.mp h0
    · intro h l hl
      have h2 := h l hl
      dsimp only
      rw [h2]
      rfl
  · intro h
    unfold fastaselecth
    rw [h]
    rfl

/-- Witness for C10: a selection file whose two lines are all-delimiter or
empty, with a nonempty stream. -/
theorem C10_empty_selectors_witness :
    get_entries (cfgPlain.frag ≠ 0) cfgPlain.hs [[32, 32], []] = [] ∧
    fastaselecth cfgPlain [[32, 32], []] [recA] =
      ⟨some Err.noSelectors, [], [], 0, 0, 0, false⟩ :=
  ⟨by rfl, (C10_empty_selectors cfgPlain [[32, 32], []] [recA]).2 (by rfl)⟩

/-! ## The buffer invariant (C6) -/

theorem fragSwitch_fields (cfg : Config) (st : St) (p : Nat) (st1 : St)
    (h : fragSwitch cfg st p = Except.ok st1) :
    st1.slots = st.slots ∧ st1.egroups = st.egroups ∧
    st1.emitlist = st.emitlist ∧ st1.next = st.next ∧
    st1.emitting = st.emitting ∧ st1.accum = st.accum ∧
    st1.out = st.out ∧ st1.records = st.records ∧ st1.emitted = st.emitted := by
  unfold fragSwitch at h
  split at h
  · split at h
    · split at h
      · split at h
        · injection h with h1
          subst h1
          exact ⟨rfl, rfl, rfl, rfl, rfl, rfl, rfl, rfl, rfl⟩
        · split at h
          · split at h
            · cases h
            · injection h with h1
              subst h1
              exact ⟨rfl, rfl, rfl, rfl, rfl, rfl, rfl, rfl, rfl⟩
          · injection h with h1
            subst h1
            exact ⟨rfl, rfl, rfl, rfl, rfl, rfl, rfl, rfl, rfl⟩
      · injection h with h1
        subst h1
        exact ⟨rfl, rfl, rfl, rfl, rfl, rfl, rfl, rfl, rfl⟩
    · cases h
  · injection h with h1
    subst h1
    exact ⟨rfl, rfl, rfl, rfl, rfl, rfl, rfl, rfl, rfl⟩

theorem fragAssign_fields (cfg : Config) (tab : List SelEntry) (st : St)
    (m : Nat) (st1 : St) (h : fragAssign cfg tab st m = Except.ok st1) :
    st1.slots = st.slots ∧ st1.emitlist = st.emitlist ∧ st1.next = st.next ∧
    st1.emitting = st.emitting ∧ st1.accum = st.accum ∧ st1.out = st.out ∧
    st1.records = st.records ∧ st1.emitted = st.emitted := by
  unfold fragAssign at h
  split at h
  · split at h
    · split at h
      · injection h with h1
        subst h1
        exact ⟨rfl, rfl, rfl, rfl, rfl, rfl, rfl, rfl⟩
      · cases h
    · cases h
  · injection h with h1
    subst h1
    exact ⟨rfl, rfl, rfl, rfl, rfl, rfl, rfl, rfl⟩

/-- Distinct mapped values make index recovery unique. -/
theorem nodup_map_getElem?_inj {f : SelEntry → Nat} {l : List SelEntry}
    (hnd : (l.map f).Nodup) {i j : Nat} {x y : SelEntry}
    (hi : l[i]? = some x) (hj : l[j]? = some y) (hxy : f x = f y) : i = j := by
  have hil : i < l.length := getElem?_some_lt hi
  have hjl : j < l.length := getElem?_some_lt hj
  by_contra hne
  have hpair := List.pairwise_iff_getElem.mp hnd
  rw [List.getElem?_eq_getElem hil] at hi
  rw [List.getElem?_eq_getElem hjl] at hj
  have hxv : l[i] = x := Option.some.inj hi
  have hyv : l[j] = y := Option.some.inj hj
  by_cases hij : i < j
  · have := hpair i j (by simpa using hil) (by simpa using hjl) hij
    rw [List.getElem_map, List.getElem_map] at this
    rw [hxv, hyv] at this
    exact this hxy
  · have hji : j < i := by omega
    have := hpair j i (by simpa using hjl) (by simpa using hil) hji
    rw [List.getElem_map, List.getElem_map] at this
    rw [hxv, hyv] at this
    exact this hxy.symm

/-- Bounds of the binary search result, independent of sortedness. -/
theorem bsAux_bound (find : Str) (l : List Str) :
    ∀ (fuel : Nat) (bot top : Int), 0 ≤ bot →
      bsAux find l fuel bot top ≠ -1 →
      0 ≤ bsAux find l fuel bot top ∧ bsAux find l fuel bot top ≤ top := by
  intro fuel
  induction fuel with
  | zero =>
    intro bot top hbot hne
    exact absurd rfl hne
  | succ fuel ih =>
    intro bot top hbot hne
    by_cases hbt : bot ≤ top
    · have hstep : bsAux find l (fuel+1) bot top =
          (match l[((bot + top).toNat / 2 : Nat)]? with
          | some s =>
            if scmp s find = Ordering.eq then (((bot + top).toNat / 2 : Nat) : Int)
            else if scmp s find = Ordering.gt then
              bsAux find l fuel bot ((((bot + top).toNat / 2 : Nat) : Int) - 1)
            else
              bsAux find l fuel ((((bot + top).toNat / 2 : Nat) : Int) + 1) top
          | none => -1) := by
        show (if bot ≤ top then _ else (-1 : Int)) = _
        rw [if_pos hbt]
      rw [hstep] at hne ⊢
      cases hm : l[((bot + top).toNat / 2 : Nat)]? with
      | none =>
        rw [hm] at hne
        exact absurd rfl hne
      | some s =>
        rw [hm] at hne
        dsimp only at hne ⊢
        by_cases hceq : scmp s find = Ordering.eq
        · rw [if_pos hceq] at hne ⊢
          constructor
          · omega
          · omega
        · by_cases hcgt : scmp s find = Ordering.gt
          · rw [if_neg hceq, if_pos hcgt] at hne ⊢
            have := ih bot ((((bot + top).toNat / 2 : Nat) : Int) - 1) hbot hne
            exact ⟨this.1, by omega⟩
          · rw [if_neg hceq, if_neg hcgt] at hne ⊢
            have := ih ((((bot + top).toNat / 2 : Nat) : Int) + 1) top (by omega) hne
            exact ⟨by omega, this.2⟩
    · have hstep : bsAux find l (fuel+1) bot top = -1 := by
        show (if bot ≤ top then _ else (-1 : Int)) = -1
        rw [if_neg hbt]
      exact absurd hstep hne

theorem bin_search_bound (find : Str) (l : List Str) (size : Nat)
    (h : bin_search find l size ≠ -1) :
    0 ≤ bin_search find l size ∧ (bin_search find l size).toNat < size := by
  have := bsAux_bound find l (size + 1) 0 ((size : Int) - 1) (by omega) h
  unfold bin_search
  constructor
  · exact this.1
  · omega

/-- Counting occupied option slots against an index window. -/
theorem slots_count_bound :
    ∀ (l : List (Option Str)) (a b : Nat),
      (∀ (p : Nat) (x : Str), l[p]? = some (some x) → a ≤ p ∧ p ≤ b) →
      l.countP (fun o => o.isSome) ≤ b + 1 - a := by
  intro l
  induction l with
  | nil => intro a b _; simp
  | cons o rest ih =>
    intro a b h
    cases o with
    | some x =>
      have h0 := h 0 x (by simp)
      have hcnt : ((some x : Option Str) :: rest).countP (fun o => o.isSome)
          = rest.countP (fun o => o.isSome) + 1 := by
        rw [List.countP_cons]
        simp
      by_cases hb : b = 0
      · subst hb
        have hrest : ∀ (q : Nat) (y : Str), rest[q]? = some (some y) →
            1 ≤ q ∧ q ≤ 0 := by
          intro q y hq
          have := h (q+1) y (by simpa using hq)
          omega
        have hIH := ih 1 0 hrest
        omega
      · have hrest : ∀ (q : Nat) (y : Str), rest[q]? = some (some y) →
            0 ≤ q ∧ q ≤ b - 1 := by
          intro q y hq
          have := h (q+1) y (by simpa using hq)
          omega
        have hIH := ih 0 (b - 1) hrest
        omega
    | none =>
      have hcnt : ((none : Option Str) :: rest).countP (fun o => o.isSome)
          = rest.countP (fun o => o.isSome) := by
        rw [List.countP_cons]
        simp
      by_cases hb : b = 0
      · subst hb
        have hrest : ∀ (q : Nat) (y : Str), rest[q]? = some (some y) →
            1 ≤ q ∧ q ≤ 0 := by
          intro q y hq
          have := h (q+1) y (by simpa using hq)
          omega
        have hIH := ih 1 0 hrest
        omega
      · have hrest : ∀ (q : Nat) (y : Str), rest[q]? = some (some y) →
            a - 1 ≤ q ∧ q ≤ b - 1 := by
          intro q y hq
          have := h (q+1) y (by simpa using hq)
          omega
        have hIH := ih (a - 1) (b - 1) hrest
        omega

/-- C6's key property: every slot below the flush cursor has been released. -/
def slotsBelowFree (st : St) : Prop :=
  ∀ p : Nat, p < st.next → st.slots[p]? = some none

/-- Standing facts about the selector table handed to the scan: the scan is
run with `entrynum = tab.length`, the buffers were allocated with the
pre-dedup count `n ≥ entrynum`, and the output positions are pairwise
distinct and in range (which `sort_entries`/`remove_dups` guarantee). -/
structure TabInv (tab : List SelEntry) (entrynum n : Nat) : Prop where
  hlen : entrynum = tab.length
  hn : tab.length ≤ n
  hM : 1 ≤ entrynum
  hpos : (tab.map SelEntry.pos).Nodup
  hbound : ∀ e ∈ tab, e.pos < n

/-- The state invariant of the Select-mode scan, between record steps. -/
structure ScanInv (tab : List SelEntry) (entrynum n : Nat) (st : St) : Prop where
  hslots : st.slots.length = n
  hflags : st.emitlist.length = n
  hnext : st.next < entrynum
  hbelow : slotsBelowFree st
  hcover : ∀ (i : Nat) (x : SelEntry), tab[i]? = some x →
    (st.slots[x.pos]? ≠ some none ∨ x.pos < st.next) → st.emitlist[i]? = some true
  haccum : ∀ a : Str, st.accum = some a → ∃ x : SelEntry,
    tab[st.emitting]? = some x ∧ st.emitlist[st.emitting]? = some true ∧
    st.slots[x.pos]? = some none ∧ st.next ≤ x.pos

/-- What survives of the invariant in a `goto bye` state. -/
structure ByeInv (entrynum n : Nat) (st : St) : Prop where
  hslots : st.slots.length = n
  hflags : st.emitlist.length = n
  hnext : st.next = entrynum
  hbelow : slotsBelowFree st

/-- The eager drain preserves the invariant (it is entered with no payload
pending). -/
theorem drain_inv (cfg : Config) (tab : List SelEntry) (entrynum n : Nat)
    (ht : TabInv tab entrynum n) :
    ∀ (fuel : Nat) (st : St), ScanInv tab entrynum n st → st.accum = none →
      (∀ st1, drain cfg entrynum fuel st = DrainOut.cont st1 →
        ScanInv tab entrynum n st1 ∧ st1.accum = none) ∧
      (∀ st1, drain cfg entrynum fuel st = DrainOut.bye st1 →
        ByeInv entrynum n st1 ∧ st1.accum = none) ∧
      (∀ e st1, drain cfg entrynum fuel st = DrainOut.fatal e st1 →
        ScanInv tab entrynum n st1 ∧ st1.accum = none) := by
  intro fuel
  induction fuel with
  | zero =>
    intro st hinv hacc
    refine ⟨?_, ?_, ?_⟩
    · intro st1 h
      injection h with h1
      subst h1
      exact ⟨hinv, hacc⟩
    · intro st1 h
      cases h
    · intro e st1 h
      cases h
  | succ fuel ih =>
    intro st hinv hacc
    have hstep : drain cfg entrynum (fuel+1) st =
        (match st.slots[st.next]? with
        | some (some s) =>
          match fragSwitch cfg st st.next with
          | Except.error e => DrainOut.fatal e st
          | Except.ok st1 =>
            let st2 : St := {st1 with
              out := st1.out ++ [(sinkOf cfg st1, s)]
              slots := st1.slots.set st1.next none
              next := st1.next + 1}
            if st2.next = entrynum then DrainOut.bye st2
            else drain cfg entrynum fuel st2
        | _ => DrainOut.cont st) := rfl
    rw [hstep]
    cases hsl : st.slots[st.next]? with
    | none =>
      refine ⟨?_, ?_, ?_⟩
      · intro st1 h
        injection h with h1
        subst h1
        exact ⟨hinv, hacc⟩
      · intro st1 h
        cases h
      · intro e st1 h
        cases h
    | some o =>
      cases o with
      | none =>
        refine ⟨?_, ?_, ?_⟩
        · intro st1 h
          injection h with h1
          subst h1
          exact ⟨hinv, hacc⟩
        · intro st1 h
          cases h
        · intro e st1 h
          cases h
      | some s =>
        cases hfs : fragSwitch cfg st st.next with
        | error e =>
          refine ⟨?_, ?_, ?_⟩
          · intro st1 h
            cases h
          · intro st1 h
            cases h
          · intro e2 st1 h
            injection h with h1 h2
            subst h1
            subst h2
            exact ⟨hinv, hacc⟩
        | ok st1 =>
          obtain ⟨hf1, hf2, hf3, hf4, hf5, hf6, hf7, hf8, hf9⟩ :=
            fragSwitch_fields cfg st st.next st1 hfs
          have hS := hinv.hslots
          have hF := hinv.hflags
          have hN := hinv.hnext
          have hn2 := ht.hn
          have hl2 := ht.hlen
          have hnlt : st.next < n := by omega
          have hset : ∀ p : Nat, p < st.next + 1 →
              (st1.slots.set st1.next none)[p]? = some none := by
            intro p hp
            rw [hf1, hf4]
            by_cases hpe : p = st.next
            · subst hpe
              rw [List.getElem?_set_self (by omega)]
            · rw [List.getElem?_set_ne (by omega)]
              exact hinv.hbelow p (by omega)
          by_cases hbye : st1.next + 1 = entrynum
          · refine ⟨?_, ?_, ?_⟩
            · intro stx h
              dsimp only at h
              rw [if_pos hbye] at h
              cases h
            · intro stx h
              dsimp only at h
              rw [if_pos hbye] at h
              injection h with h1
              subst h1
              refine ⟨⟨?_, ?_, ?_, ?_⟩, ?_⟩
              · simp [hf1, hinv.hslots]
              · simp [hf3, hinv.hflags]
              · simpa using hbye
              · intro p hp
                simp only at hp
                exact hset p (by rw [hf4] at hp; omega)
              · simpa using hf6.trans hacc
            · intro e stx h
              dsimp only at h
              rw [if_pos hbye] at h
              cases h
          · have hrest := ih ({st1 with
                out := st1.out ++ [(sinkOf cfg st1, s)]
                slots := st1.slots.set st1.next none
                next := st1.next + 1}) ?hinv2 ?hacc2
            case hacc2 => simpa using hf6.trans hacc
            case hinv2 =>
              refine ⟨?_, ?_, ?_, ?_, ?_, ?_⟩
              · simp [hf1, hinv.hslots]
              · simp [hf3, hinv.hflags]
              · simp only
                rw [hf4]
                have := hinv.hnext
                omega
              · intro p hp
                simp only at hp ⊢
                exact hset p (by rw [hf4] at hp; omega)
              · intro i x hx hpre
                simp only at hpre ⊢
                rw [hf3]
                refine hinv.hcover i x hx ?_
                rcases hpre with hpre | hpre
                · rw [hf1, hf4] at hpre
                  by_cases hpe : x.pos = st.next
                  · left
                    rw [hpe, hsl]
                    intro hc
                    cases hc
                  · left
                    rw [List.getElem?_set_ne (by omega)] at hpre
                    exact hpre
                · rw [hf4] at hpre
                  by_cases hpe : x.pos = st.next
                  · left
                    rw [hpe, hsl]
                    intro hc
                    cases hc
                  · right
                    omega
              · intro a ha
                simp only at ha
                rw [hf6] at ha
                rw [hacc] at ha
                cases ha
            refine ⟨?_, ?_, ?_⟩
            · intro stx h
              dsimp only at h
              rw [if_neg hbye] at h
              exact hrest.1 stx h
            · intro stx h
              dsimp only at h
              rw [if_neg hbye] at h
              exact hrest.2.1 stx h
            · intro e stx h
              dsimp only at h
              rw [if_neg hbye] at h
              exact hrest.2.2 e stx h

theorem storeAccum_inv (cfg : Config) (tab : List SelEntry) (entrynum n : Nat)
    (ht : TabInv tab entrynum n) (st : St) (a : Str)
    (hinv : ScanInv tab entrynum n st) (hacc : st.accum = some a) :
    (∀ st1, storeAccum cfg tab entrynum st a = DrainOut.cont st1 →
      ScanInv tab entrynum n st1 ∧ st1.accum = none) ∧
    (∀ st1, storeAccum cfg tab entrynum st a = DrainOut.bye st1 →
      ByeInv entrynum n st1) ∧
    (∀ e st1, storeAccum cfg tab entrynum st a = DrainOut.fatal e st1 →
      ScanInv tab entrynum n st1) := by
  obtain ⟨x, hx1, hx2, hx3, hx4⟩ := hinv.haccum a hacc
  have hS := hinv.hslots
  have hF := hinv.hflags
  have hN := hinv.hnext
  have hn2 := ht.hn
  have hl2 := ht.hlen
  have hxb : x.pos < n := ht.hbound x (by
    have := getElem?_some_lt hx1
    exact List.getElem?_mem hx1)
  have hp : ((tab[st.emitting]?).map SelEntry.pos).getD 0 = x.pos := by
    rw [hx1]
    rfl
  have hstep : storeAccum cfg tab entrynum st a =
      (match st.slots[x.pos]? with
      | some none =>
        drain cfg entrynum (entrynum - st.next)
          {st with slots := st.slots.set x.pos (some a), accum := none, emitting := 0}
      | _ => DrainOut.fatal Err.progError st) := by
    unfold storeAccum
    rw [hp]
  rw [hstep, hx3]
  have hinv1 : ScanInv tab entrynum n
      {st with slots := st.slots.set x.pos (some a), accum := none, emitting := 0} := by
    refine ⟨?_, ?_, ?_, ?_, ?_, ?_⟩
    · simpa using hS
    · exact hF
    · exact hN
    · intro p hp2
      simp only at hp2 ⊢
      rw [List.getElem?_set_ne (by omega)]
      exact hinv.hbelow p hp2
    · intro i y hy hpre
      simp only at hpre ⊢
      by_cases hpe : y.pos = x.pos
      · have hieq : i = st.emitting :=
          nodup_map_getElem?_inj ht.hpos hy hx1 hpe
        rw [hieq]
        exact hx2
      · refine hinv.hcover i y hy ?_
        rcases hpre with hpre | hpre
        · left
          rw [List.getElem?_set_ne (by omega)] at hpre
          exact hpre
        · right
          exact hpre
    · intro b hb
      simp only at hb
      cases hb
  have hdr := drain_inv cfg tab entrynum n ht (entrynum - st.next)
    {st with slots := st.slots.set x.pos (some a), accum := none, emitting := 0}
    hinv1 rfl
  refine ⟨?_, ?_, ?_⟩
  · intro st1 h
    exact hdr.1 st1 h
  · intro st1 h
    exact (hdr.2.1 st1 h).1
  · intro e st1 h
    exact (hdr.2.2 e st1 h).1

theorem lookupPhase_inv (cfg : Config) (tab : List SelEntry) (entrynum n : Nat)
    (ht : TabInv tab entrynum n) (hrej : cfg.reject = false)
    (r : Rec) (st1 : St) (hinv1 : ScanInv tab entrynum n st1)
    (hacc1 : st1.accum = none) :
    (∀ st2, lookupPhase cfg tab entrynum r st1 = StepOut.cont st2 →
      ScanInv tab entrynum n st2) ∧
    (∀ st2, lookupPhase cfg tab entrynum r st1 = StepOut.bye st2 → False) ∧
    (∀ e st2, lookupPhase cfg tab entrynum r st1 = StepOut.fatal e st2 →
      ScanInv tab entrynum n st2) := by
  by_cases hm : bin_search (keyOfRec cfg.hi r) (tab.map SelEntry.key) entrynum = -1
  · have hd : decide (bin_search (keyOfRec cfg.hi r) (tab.map SelEntry.key) entrynum ≠ -1)
        = false := decide_eq_false (fun hne => hne hm)
    have hred : lookupPhase cfg tab entrynum r st1 = StepOut.cont st1 := by
      simp [lookupPhase, hrej, hd]
    refine ⟨?_, ?_, ?_⟩
    · intro st2 h
      rw [hred] at h
      injection h with h1
      subst h1
      exact hinv1
    · intro st2 h
      rw [hred] at h
      cases h
    · intro e st2 h
      rw [hred] at h
      cases h
  · obtain ⟨hge, hlt0⟩ :=
      bin_search_bound (keyOfRec cfg.hi r) (tab.map SelEntry.key) entrynum hm
    obtain ⟨M, hMdef⟩ : ∃ M : Nat,
        (bin_search (keyOfRec cfg.hi r) (tab.map SelEntry.key) entrynum).toNat = M :=
      ⟨_, rfl⟩
    have hbs : bin_search (keyOfRec cfg.hi r) (tab.map SelEntry.key) entrynum
        = ((M : Nat) : Int) := by
      rw [← hMdef]
      exact (Int.toNat_of_nonneg hge).symm
    have hlt : M < entrynum := by
      rw [← hMdef]
      exact hlt0
    have hMt : M < tab.length := by
      have h1 := ht.hlen
      omega
    have htx : tab[M]? = some tab[M] := List.getElem?_eq_getElem hMt
    have hdm : decide (((M : Nat) : Int) ≠ -1) = true := decide_eq_true (by omega)
    have htn : ((M : Nat) : Int).toNat = M := Int.toNat_natCast M
    have hMl : M < st1.emitlist.length := by
      have h1 := hinv1.hflags
      have h2 := ht.hn
      have h3 := ht.hlen
      omega
    have hinv2 : ScanInv tab entrynum n {st1 with emitting := M} := by
      refine ⟨hinv1.hslots, hinv1.hflags, hinv1.hnext, hinv1.hbelow, hinv1.hcover, ?_⟩
      intro a ha
      dsimp only at ha
      rw [hacc1] at ha
      cases ha
    have hcov3 : ∀ (i : Nat) (x : SelEntry), tab[i]? = some x →
        (st1.slots[x.pos]? ≠ some none ∨ x.pos < st1.next) →
        (st1.emitlist.set M true)[i]? = some true := by
      intro i x hx hpre
      by_cases hiM : i = M
      · subst hiM
        rw [List.getElem?_set_self (by omega)]
      · rw [List.getElem?_set_ne (by omega)]
        exact hinv1.hcover i x hx hpre
    have hinv3 : ScanInv tab entrynum n
        {st1 with emitting := M, emitlist := st1.emitlist.set M true} := by
      refine ⟨hinv1.hslots, ?_, hinv1.hnext, hinv1.hbelow, ?_, ?_⟩
      · dsimp only
        rw [List.length_set]
        exact hinv1.hflags
      · intro i x hx hpre
        dsimp only at hpre ⊢
        exact hcov3 i x hx hpre
      · intro a ha
        dsimp only at ha
        rw [hacc1] at ha
        cases ha
    cases hml : st1.emitlist[M]? with
    | none =>
      have hred : lookupPhase cfg tab entrynum r st1 =
          StepOut.fatal Err.progError {st1 with emitting := M} := by
        simp only [lookupPhase, hrej, hbs, hdm, Bool.xor_false, if_true, htn, hml]
      refine ⟨?_, ?_, ?_⟩
      · intro st2 h
        rw [hred] at h
        cases h
      · intro st2 h
        rw [hred] at h
        cases h
      · intro e st2 h
        rw [hred] at h
        injection h with h1 h2
        subst h2
        exact hinv2
    | some b =>
      cases b with
      | true =>
        have hred : lookupPhase cfg tab entrynum r st1 =
            StepOut.fatal Err.dupMatch {st1 with emitting := M} := by
          simp only [lookupPhase, hrej, hbs, hdm, Bool.xor_false, if_true, htn, hml]
        refine ⟨?_, ?_, ?_⟩
        · intro st2 h
          rw [hred] at h
          cases h
        · intro st2 h
          rw [hred] at h
          cases h
        · intro e st2 h
          rw [hred] at h
          injection h with h1 h2
          subst h2
          exact hinv2
      | false =>
        have hncov : ¬ (st1.slots[(tab[M]).pos]? ≠ some none ∨
            (tab[M]).pos < st1.next) := by
          intro hc
          have h2 := hinv1.hcover M (tab[M]) htx hc
          rw [hml] at h2
          injection h2 with h3
          cases h3
        have hslotM : st1.slots[(tab[M]).pos]? = some none := by
          by_contra hc
          exact hncov (Or.inl hc)
        have hnextM : st1.next ≤ (tab[M]).pos := by
          by_contra hc
          exact hncov (Or.inr (by omega))
        cases hfa : fragAssign cfg tab
            {st1 with emitting := M, emitlist := st1.emitlist.set M true} M with
        | error e0 =>
          have hred : lookupPhase cfg tab entrynum r st1 =
              StepOut.fatal e0
                {st1 with emitting := M, emitlist := st1.emitlist.set M true} := by
            simp only [lookupPhase, hrej, hbs, hdm, Bool.xor_false, if_true, htn, hml, hfa]
          refine ⟨?_, ?_, ?_⟩
          · intro st2 h
            rw [hred] at h
            cases h
          · intro st2 h
            rw [hred] at h
            cases h
          · intro e st2 h
            rw [hred] at h
            injection h with h1 h2
            subst h2
            exact hinv3
        | ok st4 =>
          obtain ⟨hfs, hfe, hfn, hfm, hfa2, hfo, hfr, hfem⟩ :=
            fragAssign_fields cfg tab _ M st4 hfa
          have hfs2 : st4.slots = st1.slots := hfs
          have hfe2 : st4.emitlist = st1.emitlist.set M true := hfe
          have hfn2 : st4.next = st1.next := hfn
          have hfm2 : st4.emitting = M := hfm
          have hred : lookupPhase cfg tab entrynum r st1 =
              StepOut.cont {st4 with
                accum := some (renderRec r)
                emitted := st4.emitted + 1} := by
            simp only [lookupPhase, hrej, hbs, hdm, Bool.xor_false, if_true, htn, hml, hfa]
          have hinv5 : ScanInv tab entrynum n
              {st4 with accum := some (renderRec r), emitted := st4.emitted + 1} := by
            refine ⟨?_, ?_, ?_, ?_, ?_, ?_⟩
            · dsimp only
              rw [hfs2]
              exact hinv1.hslots
            · dsimp only
              rw [hfe2, List.length_set]
              exact hinv1.hflags
            · dsimp only
              rw [hfn2]
              exact hinv1.hnext
            · intro p hp
              dsimp only at hp ⊢
              rw [hfn2] at hp
              rw [hfs2]
              exact hinv1.hbelow p hp
            · intro i x hx hpre
              dsimp only at hpre ⊢
              rw [hfs2, hfn2] at hpre
              rw [hfe2]
              exact hcov3 i x hx hpre
            · intro a ha
              refine ⟨tab[M], ?_, ?_, ?_, ?_⟩
              · dsimp only
                rw [hfm2]
                exact htx
              · dsimp only
                rw [hfm2, hfe2]
                rw [List.getElem?_set_self (by omega)]
              · dsimp only
                rw [hfs2]
                exact hslotM
              · dsimp only
                rw [hfn2]
                exact hnextM
          refine ⟨?_, ?_, ?_⟩
          · intro st2 h
            rw [hred] at h
            injection h with h1
            subst h1
            exact hinv5
          · intro st2 h
            rw [hred] at h
            cases h
          · intro e st2 h
            rw [hred] at h
            cases h

theorem scanRecord_inv (cfg : Config) (tab : List SelEntry) (entrynum n : Nat)
    (ht : TabInv tab entrynum n) (hrej : cfg.reject = false)
    (st0 : St) (r : Rec) (hinv : ScanInv tab entrynum n st0) :
    (∀ st1, scanRecord cfg tab entrynum st0 r = StepOut.cont st1 →
      ScanInv tab entrynum n st1) ∧
    (∀ st1, scanRecord cfg tab entrynum st0 r = StepOut.bye st1 →
      ByeInv entrynum n st1) ∧
    (∀ e st1, scanRecord cfg tab entrynum st0 r = StepOut.fatal e st1 →
      ScanInv tab entrynum n st1) := by
  have hinvR : ScanInv tab entrynum n {st0 with records := st0.records + 1} :=
    ⟨hinv.hslots, hinv.hflags, hinv.hnext, hinv.hbelow, hinv.hcover, hinv.haccum⟩
  cases hac : st0.accum with
  | none =>
    have hred : scanRecord cfg tab entrynum st0 r =
        lookupPhase cfg tab entrynum r {st0 with records := st0.records + 1} := by
      unfold scanRecord
      dsimp only
      rw [hrej, hac]
    have hl := lookupPhase_inv cfg tab entrynum n ht hrej r
      {st0 with records := st0.records + 1} hinvR hac
    refine ⟨?_, ?_, ?_⟩
    · intro st1 h
      rw [hred] at h
      exact hl.1 st1 h
    · intro st1 h
      rw [hred] at h
      exact (hl.2.1 st1 h).elim
    · intro e st1 h
      rw [hred] at h
      exact hl.2.2 e st1 h
  | some a =>
    have hred : scanRecord cfg tab entrynum st0 r =
        (match storeAccum cfg tab entrynum {st0 with records := st0.records + 1} a with
        | DrainOut.fatal e st1 => StepOut.fatal e st1
        | DrainOut.bye st1 => StepOut.bye st1
        | DrainOut.cont st1 => lookupPhase cfg tab entrynum r st1) := by
      unfold scanRecord
      dsimp only
      rw [hrej, hac]
    have hsa := storeAccum_inv cfg tab entrynum n ht
      {st0 with records := st0.records + 1} a hinvR hac
    cases hSO : storeAccum cfg tab entrynum {st0 with records := st0.records + 1} a with
    | cont stm =>
      obtain ⟨hinvm, haccm⟩ := hsa.1 stm hSO
      have hl := lookupPhase_inv cfg tab entrynum n ht hrej r stm hinvm haccm
      refine ⟨?_, ?_, ?_⟩
      · intro st1 h
        rw [hred, hSO] at h
        dsimp only at h
        exact hl.1 st1 h
      · intro st1 h
        rw [hred, hSO] at h
        dsimp only at h
        exact (hl.2.1 st1 h).elim
      · intro e st1 h
        rw [hred, hSO] at h
        dsimp only at h
        exact hl.2.2 e st1 h
    | bye stm =>
      refine ⟨?_, ?_, ?_⟩
      · intro st1 h
        rw [hred, hSO] at h
        dsimp only at h
        cases h
      · intro st1 h
        rw [hred, hSO] at h
        dsimp only at h
        injection h with h1
        subst h1
        exact hsa.2.1 stm hSO
      · intro e st1 h
        rw [hred, hSO] at h
        dsimp only at h
        cases h
    | fatal e0 stm =>
      refine ⟨?_, ?_, ?_⟩
      · intro st1 h
        rw [hred, hSO] at h
        dsimp only at h
        cases h
      · intro st1 h
        rw [hred, hSO] at h
        dsimp only at h
        cases h
      · intro e st1 h
        rw [hred, hSO] at h
        dsimp only at h
        injection h with h1 h2
        subst h2
        exact hsa.2.2 e0 stm hSO

theorem runRecs_inv (cfg : Config) (tab : List SelEntry) (entrynum n : Nat)
    (ht : TabInv tab entrynum n) (hrej : cfg.reject = false) :
    ∀ (rs : List Rec) (st : St), ScanInv tab entrynum n st →
      (∀ st1, runRecs cfg tab entrynum st rs = ScanRes.eof st1 →
        ScanInv tab entrynum n st1) ∧
      (∀ st1 rest, runRecs cfg tab entrynum st rs = ScanRes.bye st1 rest →
        ByeInv entrynum n st1) ∧
      (∀ e st1, runRecs cfg tab entrynum st rs = ScanRes.fatal e st1 →
        ScanInv tab entrynum n st1) := by
  intro rs
  induction rs with
  | nil =>
    intro st hinv
    refine ⟨?_, ?_, ?_⟩
    · intro st1 h
      injection h with h1
      subst h1
      exact hinv
    · intro st1 rest h
      cases h
    · intro e st1 h
      cases h
  | cons r rs ih =>
    intro st hinv
    have hsc := scanRecord_inv cfg tab entrynum n ht hrej st r hinv
    have hred : runRecs cfg tab entrynum st (r :: rs) =
        (match scanRecord cfg tab entrynum st r with
        | StepOut.fatal e st1 => ScanRes.fatal e st1
        | StepOut.bye st1 => ScanRes.bye st1 rs
        | StepOut.cont st1 => runRecs cfg tab entrynum st1 rs) := rfl
    cases hso : scanRecord cfg tab entrynum st r with
    | cont stm =>
      have hinv1 := hsc.1 stm hso
      have hl := ih stm hinv1
      refine ⟨?_, ?_, ?_⟩
      · intro st1 h
        rw [hred, hso] at h
        dsimp only at h
        exact hl.1 st1 h
      · intro st1 rest h
        rw [hred, hso] at h
        dsimp only at h
        exact hl.2.1 st1 rest h
      · intro e st1 h
        rw [hred, hso] at h
        dsimp only at h
        exact hl.2.2 e st1 h
    | bye stm =>
      refine ⟨?_, ?_, ?_⟩
      · intro st1 h
        rw [hred, hso] at h
        dsimp only at h
        cases h
      · intro st1 rest h
        rw [hred, hso] at h
        dsimp only at h
        injection h with h1 h2
        subst h1
        exact hsc.2.1 stm hso
      · intro e st1 h
        rw [hred, hso] at h
        dsimp only at h
        cases h
    | fatal e0 stm =>
      refine ⟨?_, ?_, ?_⟩
      · intro st1 h
        rw [hred, hso] at h
        dsimp only at h
        cases h
      · intro st1 rest h
        rw [hred, hso] at h
        dsimp only at h
        cases h
      · intro e st1 h
        rw [hred, hso] at h
        dsimp only at h
        injection h with h1 h2
        subst h2
        exact hsc.2.2 e0 stm hso

theorem removeDupsAux_sublist (cod : Bool) :
    ∀ (rest : List SelEntry) (dst : SelEntry) (l : List SelEntry) (w : Nat),
      removeDupsAux cod dst rest = Except.ok (l, w) →
      l.Sublist rest ∧ l.length + w = rest.length := by
  intro rest
  induction rest with
  | nil =>
    intro dst l w h
    injection h with h1
    injection h1 with h2 h3
    subst h2
    subst h3
    exact ⟨List.Sublist.refl _, rfl⟩
  | cons e rest ih =>
    intro dst l w h
    rw [show removeDupsAux cod dst (e :: rest) =
        (if scmp dst.key e.key = Ordering.eq then
          if cod then
            match removeDupsAux cod dst rest with
            | Except.ok (l, w) => Except.ok (l, w + 1)
            | Except.error u => Except.error u
          else Except.error ()
        else
          match removeDupsAux cod e rest with
          | Except.ok (l, w) => Except.ok (e :: l, w)
          | Except.error u => Except.error u) from rfl] at h
    by_cases heq : scmp dst.key e.key = Ordering.eq
    · rw [if_pos heq] at h
      cases hcod : cod with
      | false =>
        rw [hcod] at h
        cases h
      | true =>
        rw [hcod] at h
        cases haux : removeDupsAux true dst rest with
        | error u =>
          rw [haux] at h
          cases h
        | ok p =>
          rw [haux] at h
          obtain ⟨l0, w0⟩ := p
          dsimp only at h
          injection h with h1
          injection h1 with h2 h3
          subst h2
          have hIH := ih dst l0 w0 (by rw [hcod]; exact haux)
          refine ⟨hIH.1.cons e, ?_⟩
          have h4 := hIH.2
          simp
          omega
    · rw [if_neg heq] at h
      cases haux : removeDupsAux cod e rest with
      | error u =>
        rw [haux] at h
        cases h
      | ok p =>
        rw [haux] at h
        obtain ⟨l0, w0⟩ := p
        dsimp only at h
        injection h with h1
        injection h1 with h2 h3
        subst h2
        subst h3
        have hIH := ih e l0 w0 haux
        refine ⟨hIH.1.cons₂ e, ?_⟩
        have := hIH.2
        simp
        omega

theorem remove_dups_sublist (cod : Bool) (a l : List SelEntry) (w : Nat)
    (h : remove_dups cod a = Except.ok (l, w)) :
    l.Sublist a ∧ l.length + w = a.length ∧ (a ≠ [] → l ≠ []) := by
  cases a with
  | nil =>
    injection h with h1
    injection h1 with h2 h3
    subst h2
    subst h3
    exact ⟨List.Sublist.refl _, rfl, fun hc => absurd rfl hc⟩
  | cons d rest =>
    rw [show remove_dups cod (d :: rest) =
        (match removeDupsAux cod d rest with
        | Except.ok (l, w) => Except.ok (d :: l, w)
        | Except.error u => Except.error u) from rfl] at h
    cases haux : removeDupsAux cod d rest with
    | error u =>
      rw [haux] at h
      cases h
    | ok p =>
      rw [haux] at h
      obtain ⟨l0, w0⟩ := p
      dsimp only at h
      injection h with h1
      injection h1 with h2 h3
      subst h2
      subst h3
      have hIH := removeDupsAux_sublist cod rest d l0 w0 haux
      refine ⟨hIH.1.cons₂ d, ?_, ?_⟩
      · have := hIH.2
        simp
        omega
      · intro _ hc
        cases hc

/-- The table handed to the scan by the real pipeline satisfies the standing
table facts: it is a sublist of a permutation of the parsed entries, whose
positions are exactly `0..raw.length-1`. -/
theorem tabInv_pipeline (cod : Bool) (raw : List (Str × Option Str))
    (tab : List SelEntry) (w : Nat) (hraw : raw ≠ [])
    (hdd : remove_dups cod (sort_entries (mkEntries raw)) = Except.ok (tab, w)) :
    TabInv tab tab.length raw.length := by
  obtain ⟨hsub, hlen, hne⟩ := remove_dups_sublist cod _ tab w hdd
  have hperm : (sort_entries (mkEntries raw)).Perm (mkEntries raw) :=
    sort_entries_perm _
  have hslen : (sort_entries (mkEntries raw)).length = raw.length := by
    rw [hperm.length_eq, mkEntries_length]
  refine ⟨rfl, ?_, ?_, ?_, ?_⟩
  · have h1 := hsub.length_le
    omega
  · have hs : sort_entries (mkEntries raw) ≠ [] := by
      intro h0
      rw [h0] at hslen
      exact hraw (List.length_eq_zero.mp hslen.symm)
    have h2 := hne hs
    cases tab with
    | nil => exact absurd rfl h2
    | cons x xs => simp
  · have h1 : ((mkEntries raw).map SelEntry.pos).Nodup := by
      rw [mkEntries_map_pos]
      exact List.nodup_range _
    have h2 : ((sort_entries (mkEntries raw)).map SelEntry.pos).Nodup :=
      ((hperm.map SelEntry.pos).nodup_iff).mpr h1
    exact (hsub.map SelEntry.pos).nodup h2
  · intro e he
    have h1 : e ∈ sort_entries (mkEntries raw) := hsub.subset he
    have h2 : e ∈ mkEntries raw := hperm.subset h1
    have h3 : e.pos ∈ (mkEntries raw).map SelEntry.pos :=
      List.mem_map_of_mem _ h2
    rw [mkEntries_map_pos] at h3
    exact List.mem_range.mp h3

/-- The initial scan state satisfies the invariant. -/
theorem scanInv_init (tab : List SelEntry) (entrynum n : Nat)
    (ht : TabInv tab entrynum n) : ScanInv tab entrynum n (initSt n) := by
  refine ⟨?_, ?_, ?_, ?_, ?_, ?_⟩
  · exact List.length_replicate n none
  · exact List.length_replicate n false
  · exact ht.hM
  · intro p hp
    exact absurd hp (Nat.not_lt_zero p)
  · intro i x hx hpre
    have hb : x.pos < n := ht.hbound x (List.getElem?_mem hx)
    rcases hpre with hc | hc
    · exact absurd (List.getElem?_replicate_of_lt hb) hc
    · exact absurd hc (Nat.not_lt_zero _)
  · intro a ha
    cases ha

/-- C6 (memory bound invariant): in every Select-mode scan state reachable
by the real pipeline's scan — after any prefix of the stream, including a
`goto bye` or fatal stop — every reorder-buffer slot at a position below
the flush cursor has been released, and consequently the number of
buffered payloads is at most `H + 1 - nextToFlush` for any bound `H` on
the filled positions (i.e. at most highest filled position −
nextToFlush + 1). -/
theorem C6_memory_bound (cfg : Config) (raw : List (Str × Option Str))
    (tab : List SelEntry) (w : Nat) (stream : List Rec) (st1 : St)
    (hraw : raw ≠ [])
    (hdd : remove_dups cfg.cod (sort_entries (mkEntries raw)) = Except.ok (tab, w))
    (hrej : cfg.reject = false)
    (hreach : runRecs cfg tab tab.length (initSt raw.length) stream = ScanRes.eof st1 ∨
      (∃ rest, runRecs cfg tab tab.length (initSt raw.length) stream
        = ScanRes.bye st1 rest) ∨
      (∃ e, runRecs cfg tab tab.length (initSt raw.length) stream
        = ScanRes.fatal e st1)) :
    slotsBelowFree st1 ∧
    ∀ H : Nat, (∀ (p : Nat) (s : Str), st1.slots[p]? = some (some s) → p ≤ H) →
      st1.slots.countP (fun o => o.isSome) ≤ H + 1 - st1.next := by
  have ht : TabInv tab tab.length raw.length :=
    tabInv_pipeline cfg.cod raw tab w hraw hdd
  have hinit := scanInv_init tab tab.length raw.length ht
  have hrun := runRecs_inv cfg tab tab.length raw.length ht hrej stream
    (initSt raw.length) hinit
  have hbelow : slotsBelowFree st1 := by
    rcases hreach with h | ⟨rest, h⟩ | ⟨e, h⟩
    · exact (hrun.1 st1 h).hbelow
    · exact (hrun.2.1 st1 rest h).hbelow
    · exact (hrun.2.2 e st1 h).hbelow
  refine ⟨hbelow, ?_⟩
  intro H hH
  apply slots_count_bound st1.slots st1.next H
  intro p x hp
  refine ⟨?_, hH p x hp⟩
  by_contra hc
  have hfree := hbelow p (by omega)
  rw [hfree] at hp
  injection hp with h2
  cases h2

/-- Witness for C6 at a concrete run: one selector `A`, empty stream. -/
theorem C6_memory_bound_witness :
    slotsBelowFree (initSt 1) ∧
    ∀ H : Nat, (∀ (p : Nat) (s : Str), (initSt 1).slots[p]? = some (some s) → p ≤ H) →
      (initSt 1).slots.countP (fun o => o.isSome) ≤ H + 1 - (initSt 1).next :=
  C6_memory_bound cfgPlain [([65], none)] [⟨[65], none, 0⟩] 0 [] (initSt 1)
    (by decide) rfl (by decide) (Or.inl rfl)

/-! ## The Select-mode order law

The following development characterises the full scan state of a plain
Select run (`gbl_frag = 0`, `gbl_reject = 0`) over a table whose keys are
pairwise distinct, against the prefix of the stream processed so far. -/

/-- Does this record's key hit the selector table?  (`matched != -1`.) -/
def hitsTab (cfg : Config) (tab : List SelEntry) (M : Nat) (r : Rec) : Bool :=
  decide (bin_search (keyOfRec cfg.hi r) (tab.map SelEntry.key) M ≠ -1)

/-- The record whose payload is still being accumulated after the prefix
`done`: the last record, if it matched. -/
def pendingOf (cfg : Config) (tab : List SelEntry) (M : Nat)
    (done : List Rec) : Option Rec :=
  match done.getLast? with
  | some r => if hitsTab cfg tab M r then some r else none
  | none => none

/-- The records whose payloads have been handed to the reorder buffer after
the prefix `done` (all matched ones except the pending one). -/
def storedOf (cfg : Config) (tab : List SelEntry) (M : Nat)
    (done : List Rec) : List Rec :=
  match pendingOf cfg tab M done with
  | some _ => done.dropLast
  | none => done

/-- The selector occupying output position `p` (unique when the positions
are pairwise distinct). -/
def entryAtPos (tab : List SelEntry) (p : Nat) : Option SelEntry :=
  tab.find? (fun x => decide (x.pos = p))

/-- The first record of `l` keyed `k`. -/
def recFor (hi : Str) (l : List Rec) (k : Str) : Option Rec :=
  l.find? (fun r => decide (keyOfRec hi r = k))

/-- The output element contributed by position `p` given stored records `S`. -/
def outElem (cfg : Config) (tab : List SelEntry) (S : List Rec) (p : Nat) :
    Option (Option Str × Str) :=
  ((entryAtPos tab p).bind (fun x => recFor cfg.hi S x.key)).map
    (fun r => ((none : Option Str), renderRec r))

/-- The output after flushing positions `0..next-1` of stored records `S`. -/
def outSpec (cfg : Config) (tab : List SelEntry) (S : List Rec) (next : Nat) :
    List (Option Str × Str) :=
  (List.range next).filterMap (outElem cfg tab S)

theorem entryAtPos_mem {tab : List SelEntry} {p : Nat} {x : SelEntry}
    (h : entryAtPos tab p = some x) : x ∈ tab ∧ x.pos = p := by
  refine ⟨List.mem_of_find?_eq_some h, ?_⟩
  have := List.find?_some h
  exact of_decide_eq_true this

theorem entryAtPos_unique (tab : List SelEntry)
    (hnd : (tab.map SelEntry.pos).Nodup) (x : SelEntry) (hx : x ∈ tab) :
    entryAtPos tab x.pos = some x := by
  induction tab with
  | nil => cases hx
  | cons y rest ih =>
    rw [List.map_cons, List.nodup_cons] at hnd
    by_cases hyx : y.pos = x.pos
    · have hxy : x = y := by
        rcases List.mem_cons.mp hx with h | h
        · exact h
        · exfalso
          have : x.pos ∈ rest.map SelEntry.pos := List.mem_map_of_mem _ h
          rw [← hyx] at this
          exact hnd.1 this
      rw [hxy]
      unfold entryAtPos
      rw [List.find?_cons_of_pos _ (by rw [hyx]; exact decide_eq_true rfl)]
    · have hxr : x ∈ rest := by
        rcases List.mem_cons.mp hx with h | h
        · exact absurd (by rw [h]) hyx
        · exact h
      unfold entryAtPos
      rw [List.find?_cons_of_neg _ (by simpa using hyx)]
      exact ih hnd.2 hxr

theorem countP_set_true :
    ∀ (l : List Bool) (m : Nat), l[m]? = some false →
      (l.set m true).countP (fun b => b) = l.countP (fun b => b) + 1 := by
  intro l
  induction l with
  | nil =>
    intro m h
    cases h
  | cons b rest ih =>
    intro m h
    cases m with
    | zero =>
      rw [List.getElem?_cons_zero] at h
      injection h with h1
      subst h1
      rw [List.set_cons_zero, List.countP_cons, List.countP_cons]
      simp
    | succ m =>
      have h2 : rest[m]? = some false := by simpa using h
      rw [List.set_cons_succ, List.countP_cons, List.countP_cons, ih m h2]
      omega

theorem filterMap_index {α β : Type} :
    ∀ (l : List α) (f : α → Option β),
      (List.range l.length).filterMap (fun p => (l[p]?).bind f) = l.filterMap f := by
  intro l
  induction l with
  | nil =>
    intro f
    rfl
  | cons a rest ih =>
    intro f
    rw [List.length_cons, List.range_succ_eq_map, List.filterMap_cons]
    have h1 : ((a :: rest)[0]?).bind f = f a := by
      rw [List.getElem?_cons_zero]
      rfl
    rw [h1]
    have h2 : (List.map Nat.succ (List.range rest.length)).filterMap
        (fun p => ((a :: rest)[p]?).bind f)
        = (List.range rest.length).filterMap (fun p => (rest[p]?).bind f) := by
      rw [List.filterMap_map]
      refine List.filterMap_congr ?_
      intro p hp
      simp
    cases hfa : f a with
    | none =>
      rw [List.filterMap_cons]
      rw [hfa] at h1 ⊢
      rw [h2, ih f]
    | some b =>
      rw [List.filterMap_cons]
      rw [hfa] at h1 ⊢
      rw [h2, ih f]

/-- Standing facts about the table of a plain Select run with pairwise
distinct selector keys: sorted distinct keys, and output positions forming
a permutation of `0..M-1`. -/
structure OrdTab (tab : List SelEntry) (M : Nat) : Prop where
  hM : M = tab.length
  hM1 : 1 ≤ M
  hkeys : (tab.map SelEntry.key).Nodup
  hsorted : strSorted (tab.map SelEntry.key)
  hpos : (tab.map SelEntry.pos).Nodup
  hposlt : ∀ x ∈ tab, x.pos < M
  hsurj : ∀ p, p < M → ∃ x ∈ tab, x.pos = p

theorem mem_getElem? {α : Type} {l : List α} {x : α} (h : x ∈ l) :
    ∃ i : Nat, l[i]? = some x := by
  obtain ⟨i, hi, hx⟩ := List.getElem_of_mem h
  exact ⟨i, by rw [List.getElem?_eq_getElem hi, hx]⟩

theorem pos_inj {tab : List SelEntry} (hnd : (tab.map SelEntry.pos).Nodup)
    {x y : SelEntry} (hx : x ∈ tab) (hy : y ∈ tab) (hxy : x.pos = y.pos) :
    x = y := by
  obtain ⟨i, hi⟩ := mem_getElem? hx
  obtain ⟨j, hj⟩ := mem_getElem? hy
  have hij : i = j := nodup_map_getElem?_inj hnd hi hj hxy
  rw [hij] at hi
  rw [hi] at hj
  exact Option.some.inj hj

theorem nodup_map_getElem?_inj_str {f : SelEntry → Str} {l : List SelEntry}
    (hnd : (l.map f).Nodup) {i j : Nat} {x y : SelEntry}
    (hi : l[i]? = some x) (hj : l[j]? = some y) (hxy : f x = f y) : i = j := by
  have hil : i < l.length := getElem?_some_lt hi
  have hjl : j < l.length := getElem?_some_lt hj
  by_contra hne
  have hpair := List.pairwise_iff_getElem.mp hnd
  rw [List.getElem?_eq_getElem hil] at hi
  rw [List.getElem?_eq_getElem hjl] at hj
  have hxv : l[i] = x := Option.some.inj hi
  have hyv : l[j] = y := Option.some.inj hj
  by_cases hij : i < j
  · have := hpair i j (by simpa using hil) (by simpa using hjl) hij
    rw [List.getElem_map, List.getElem_map] at this
    rw [hxv, hyv] at this
    exact this hxy
  · have hji : j < i := by omega
    have := hpair j i (by simpa using hjl) (by simpa using hil) hji
    rw [List.getElem_map, List.getElem_map] at this
    rw [hxv, hyv] at this
    exact this hxy.symm

theorem key_inj {tab : List SelEntry} (hnd : (tab.map SelEntry.key).Nodup)
    {x y : SelEntry} (hx : x ∈ tab) (hy : y ∈ tab) (hxy : x.key = y.key) :
    x = y := by
  obtain ⟨i, hi⟩ := mem_getElem? hx
  obtain ⟨j, hj⟩ := mem_getElem? hy
  have hij : i = j := nodup_map_getElem?_inj_str hnd hi hj hxy
  rw [hij] at hi
  rw [hi] at hj
  exact Option.some.inj hj

/-- One flush appended to the position-ordered output. -/
theorem outSpec_succ (cfg : Config) (tab : List SelEntry) (S : List Rec)
    (next : Nat) :
    outSpec cfg tab S (next + 1)
      = outSpec cfg tab S next ++ (outElem cfg tab S next).toList := by
  unfold outSpec
  rw [List.range_succ, List.filterMap_append]
  congr 1

/-- The eager drain of a plain Select run, described against the stored
record list `S`: it flushes filled positions in ascending order until the
first unfilled one (or exits via `goto bye` at position `M-1`), never
fails, and touches nothing but the buffer, the cursor and the output. -/
theorem drain_desc (cfg : Config) (tab : List SelEntry) (M : Nat)
    (hfr : cfg.frag = 0) (htab : OrdTab tab M) (S : List Rec) :
    ∀ (fuel : Nat) (st : St), st.next < M → fuel = M - st.next →
      st.slots.length = M →
      (∀ x ∈ tab, st.slots[x.pos]? = some (if x.pos < st.next then none
        else (recFor cfg.hi S x.key).map renderRec)) →
      st.out = outSpec cfg tab S st.next →
      (∀ x ∈ tab, x.pos < st.next → (recFor cfg.hi S x.key).isSome = true) →
      (∀ st1, drain cfg M fuel st = DrainOut.cont st1 →
        st1.next < M ∧ st1.slots.length = M ∧
        (∀ x ∈ tab, st1.slots[x.pos]? = some (if x.pos < st1.next then none
          else (recFor cfg.hi S x.key).map renderRec)) ∧
        st1.out = outSpec cfg tab S st1.next ∧
        (∀ x ∈ tab, x.pos < st1.next → (recFor cfg.hi S x.key).isSome = true) ∧
        st1.emitlist = st.emitlist ∧ st1.emitting = st.emitting ∧
        st1.accum = st.accum ∧ st1.records = st.records ∧
        st1.emitted = st.emitted) ∧
      (∀ st1, drain cfg M fuel st = DrainOut.bye st1 →
        st1.next = M ∧ st1.out = outSpec cfg tab S M ∧
        (∀ x ∈ tab, (recFor cfg.hi S x.key).isSome = true) ∧
        st1.emitlist = st.emitlist ∧ st1.accum = st.accum ∧
        st1.records = st.records ∧ st1.emitted = st.emitted) ∧
      (∀ e st1, drain cfg M fuel st = DrainOut.fatal e st1 → False) := by
  intro fuel
  induction fuel with
  | zero =>
    intro st hlt hfuel _ _ _ _
    omega
  | succ fuel ih =>
    intro st hlt hfuel hsl hslot hout hfull
    obtain ⟨xn, hxn, hxp⟩ := htab.hsurj st.next hlt
    have hsl2 : st.slots[st.next]? =
        some ((recFor cfg.hi S xn.key).map renderRec) := by
      have h := hslot xn hxn
      rw [hxp] at h
      rw [if_neg (lt_irrefl st.next)] at h
      exact h
    have hfs : fragSwitch cfg st st.next = Except.ok st := by
      unfold fragSwitch
      rw [if_neg (fun hc => hc hfr)]
    have hsink : sinkOf cfg st = none := by
      unfold sinkOf
      rw [if_neg (fun hc => hc hfr)]
    have hstep : drain cfg M (fuel+1) st =
        (match st.slots[st.next]? with
        | some (some s) =>
          match fragSwitch cfg st st.next with
          | Except.error e => DrainOut.fatal e st
          | Except.ok st1 =>
            let st2 : St := {st1 with
              out := st1.out ++ [(sinkOf cfg st1, s)]
              slots := st1.slots.set st1.next none
              next := st1.next + 1}
            if st2.next = M then DrainOut.bye st2
            else drain cfg M fuel st2
        | _ => DrainOut.cont st) := rfl
    have hposxn : st.next < st.slots.length := by omega
    cases hrf : recFor cfg.hi S xn.key with
    | none =>
      rw [hrf] at hsl2
      refine ⟨?_, ?_, ?_⟩
      · intro st1 h
        rw [hstep, hsl2] at h
        dsimp only at h
        injection h with h1
        subst h1
        exact ⟨hlt, hsl, hslot, hout, hfull, rfl, rfl, rfl, rfl, rfl⟩
      · intro st1 h
        rw [hstep, hsl2] at h
        dsimp only at h
        cases h
      · intro e st1 h
        rw [hstep, hsl2] at h
        dsimp only at h
        cases h
    | some r =>
      rw [hrf] at hsl2
      have hea : entryAtPos tab st.next = some xn := by
        have := entryAtPos_unique tab htab.hpos xn hxn
        rw [hxp] at this
        exact this
      have helem : outElem cfg tab S st.next = some (none, renderRec r) := by
        unfold outElem
        rw [hea]
        dsimp only [Option.bind]
        rw [hrf]
        rfl
      have hout2 : st.out ++ [((none : Option Str), renderRec r)]
          = outSpec cfg tab S (st.next + 1) := by
        rw [outSpec_succ, helem, hout]
        rfl
      have hslot2 : ∀ x ∈ tab,
          (st.slots.set st.next none)[x.pos]? =
            some (if x.pos < st.next + 1 then none
              else (recFor cfg.hi S x.key).map renderRec) := by
        intro x hx
        by_cases hxe : x.pos = st.next
        · rw [hxe, List.getElem?_set_self hposxn, if_pos (by omega)]
        · rw [List.getElem?_set_ne (fun hc => hxe hc.symm)]
          have h := hslot x hx
          by_cases hxlt : x.pos < st.next
          · rw [if_pos hxlt] at h
            rw [if_pos (by omega)]
            exact h
          · rw [if_neg hxlt] at h
            rw [if_neg (by omega)]
            exact h
      have hfull2 : ∀ x ∈ tab, x.pos < st.next + 1 →
          (recFor cfg.hi S x.key).isSome = true := by
        intro x hx hxlt
        by_cases hxe : x.pos = st.next
        · have hxeq : x = xn := pos_inj htab.hpos hx hxn (by rw [hxe, hxp])
          rw [hxeq, hrf]
          rfl
        · exact hfull x hx (by omega)
      by_cases hbye : st.next + 1 = M
      · refine ⟨?_, ?_, ?_⟩
        · intro st1 h
          rw [hstep, hsl2] at h
          dsimp only at h
          rw [hfs] at h
          have h2 : (if st.next + 1 = M then
              DrainOut.bye {st with
                out := st.out ++ [(sinkOf cfg st, renderRec r)]
                slots := st.slots.set st.next none
                next := st.next + 1}
            else drain cfg M fuel {st with
                out := st.out ++ [(sinkOf cfg st, renderRec r)]
                slots := st.slots.set st.next none
                next := st.next + 1}) = DrainOut.cont st1 := h
          rw [if_pos hbye] at h2
          cases h2
        · intro st1 h
          rw [hstep, hsl2] at h
          dsimp only at h
          rw [hfs] at h
          have h2 : (if st.next + 1 = M then
              DrainOut.bye {st with
                out := st.out ++ [(sinkOf cfg st, renderRec r)]
                slots := st.slots.set st.next none
                next := st.next + 1}
            else drain cfg M fuel {st with
                out := st.out ++ [(sinkOf cfg st, renderRec r)]
                slots := st.slots.set st.next none
                next := st.next + 1}) = DrainOut.bye st1 := h
          rw [if_pos hbye] at h2
          injection h2 with h1
          subst h1
          refine ⟨hbye, ?_, ?_, rfl, rfl, rfl, rfl⟩
          · dsimp only
            rw [hsink, ← hbye]
            exact hout2
          · intro x hx
            exact hfull2 x hx (by
              have := htab.hposlt x hx
              omega)
        · intro e st1 h
          rw [hstep, hsl2] at h
          dsimp only at h
          rw [hfs] at h
          have h2 : (if st.next + 1 = M then
              DrainOut.bye {st with
                out := st.out ++ [(sinkOf cfg st, renderRec r)]
                slots := st.slots.set st.next none
                next := st.next + 1}
            else drain cfg M fuel {st with
                out := st.out ++ [(sinkOf cfg st, renderRec r)]
                slots := st.slots.set st.next none
                next := st.next + 1}) = DrainOut.fatal e st1 := h
          rw [if_pos hbye] at h2
          cases h2
      · have hrec := ih {st with
            out := st.out ++ [(sinkOf cfg st, renderRec r)]
            slots := st.slots.set st.next none
            next := st.next + 1}
          (by dsimp only; omega) (by dsimp only; omega)
          (by dsimp only; rw [List.length_set]; exact hsl)
          (by
            intro x hx
            dsimp only
            exact hslot2 x hx)
          (by
            dsimp only
            rw [hsink]
            exact hout2)
          (by
            intro x hx hxlt
            dsimp only at hxlt
            exact hfull2 x hx hxlt)
        refine ⟨?_, ?_, ?_⟩
        · intro st1 h
          rw [hstep, hsl2] at h
          dsimp only at h
          rw [hfs] at h
          have h2 : (if st.next + 1 = M then
              DrainOut.bye {st with
                out := st.out ++ [(sinkOf cfg st, renderRec r)]
                slots := st.slots.set st.next none
                next := st.next + 1}
            else drain cfg M fuel {st with
                out := st.out ++ [(sinkOf cfg st, renderRec r)]
                slots := st.slots.set st.next none
                next := st.next + 1}) = DrainOut.cont st1 := h
          rw [if_neg hbye] at h2
          have hc := hrec.1 st1 h2
          exact ⟨hc.1, hc.2.1, hc.2.2.1, hc.2.2.2.1, hc.2.2.2.2.1,
            hc.2.2.2.2.2.1, hc.2.2.2.2.2.2.1, hc.2.2.2.2.2.2.2.1,
            hc.2.2.2.2.2.2.2.2.1, hc.2.2.2.2.2.2.2.2.2⟩
        · intro st1 h
          rw [hstep, hsl2] at h
          dsimp only at h
          rw [hfs] at h
          have h2 : (if st.next + 1 = M then
              DrainOut.bye {st with
                out := st.out ++ [(sinkOf cfg st, renderRec r)]
                slots := st.slots.set st.next none
                next := st.next + 1}
            else drain cfg M fuel {st with
                out := st.out ++ [(sinkOf cfg st, renderRec r)]
                slots := st.slots.set st.next none
                next := st.next + 1}) = DrainOut.bye st1 := h
          rw [if_neg hbye] at h2
          have hc := hrec.2.1 st1 h2
          exact ⟨hc.1, hc.2.1, hc.2.2.1, hc.2.2.2.1, hc.2.2.2.2.1,
            hc.2.2.2.2.2.1, hc.2.2.2.2.2.2⟩
        · intro e st1 h
          rw [hstep, hsl2] at h
          dsimp only at h
          rw [hfs] at h
          have h2 : (if st.next + 1 = M then
              DrainOut.bye {st with
                out := st.out ++ [(sinkOf cfg st, renderRec r)]
                slots := st.slots.set st.next none
                next := st.next + 1}
            else drain cfg M fuel {st with
                out := st.out ++ [(sinkOf cfg st, renderRec r)]
                slots := st.slots.set st.next none
                next := st.next + 1}) = DrainOut.fatal e st1 := h
          rw [if_neg hbye] at h2
          exact hrec.2.2 e st1 h2

/-- The full-state characterisation of a plain Select scan after processing
the stream prefix `done`. -/
structure OrdInv (cfg : Config) (tab : List SelEntry) (M : Nat)
    (done : List Rec) (st : St) : Prop where
  hflag : ∀ (i : Nat) (x : SelEntry), tab[i]? = some x →
    st.emitlist[i]? = some ((recFor cfg.hi done x.key).isSome)
  haccum : st.accum = (pendingOf cfg tab M done).map renderRec
  hemitting : ∀ r, pendingOf cfg tab M done = some r →
    st.emitting = (bin_search (keyOfRec cfg.hi r) (tab.map SelEntry.key) M).toNat
  hslot : ∀ x ∈ tab, st.slots[x.pos]? = some (if x.pos < st.next then none
    else (recFor cfg.hi (storedOf cfg tab M done) x.key).map renderRec)
  hout : st.out = outSpec cfg tab (storedOf cfg tab M done) st.next
  hfull : ∀ x ∈ tab, x.pos < st.next →
    (recFor cfg.hi (storedOf cfg tab M done) x.key).isSome = true
  hemitted : st.emitted = st.emitlist.countP (fun b => b)

theorem pendingOf_some {cfg : Config} {tab : List SelEntry} {M : Nat}
    {done : List Rec} {rp : Rec} (h : pendingOf cfg tab M done = some rp) :
    done.getLast? = some rp ∧ hitsTab cfg tab M rp = true := by
  unfold pendingOf at h
  cases hgl : done.getLast? with
  | none =>
    rw [hgl] at h
    cases h
  | some r =>
    rw [hgl] at h
    dsimp only at h
    by_cases hh : hitsTab cfg tab M r = true
    · rw [if_pos hh] at h
      injection h with h1
      subst h1
      exact ⟨rfl, hh⟩
    · rw [if_neg hh] at h
      cases h

theorem getLast?_decomp {α : Type} {l : List α} {r : α}
    (h : l.getLast? = some r) : l = l.dropLast ++ [r] := by
  obtain ⟨ys, hys⟩ := List.getLast?_eq_some_iff.mp h
  subst hys
  simp

theorem recFor_append_ne (hi : Str) (l : List Rec) (r : Rec) (k : Str)
    (hne : ¬ (keyOfRec hi r = k)) :
    recFor hi (l ++ [r]) k = recFor hi l k := by
  unfold recFor
  rw [List.find?_append, List.find?_cons_of_neg _ (by simpa using hne)]
  cases l.find? (fun r0 => decide (keyOfRec hi r0 = k)) with
  | none => rfl
  | some v => rfl

theorem recFor_append_hit (hi : Str) (l : List Rec) (r : Rec) (k : Str)
    (hk : keyOfRec hi r = k) (hnone : recFor hi l k = none) :
    recFor hi (l ++ [r]) k = some r := by
  unfold recFor at hnone ⊢
  rw [List.find?_append, hnone, List.find?_cons_of_pos _ (by simpa using hk)]
  rfl

/-- Storing the pending payload: the designated slot is the (free) slot of
the matched selector, and afterwards the buffer is described by the full
prefix `done` as stored set. -/
theorem store_pending (cfg : Config) (tab : List SelEntry) (M : Nat)
    (htab : OrdTab tab M) (done : List Rec) (st : St) (rp : Rec)
    (hOrd : OrdInv cfg tab M done st) (hScan : ScanInv tab M M st)
    (hpend : pendingOf cfg tab M done = some rp) :
    ∃ xm : SelEntry, xm ∈ tab ∧ tab[st.emitting]? = some xm ∧
      ((tab[st.emitting]?).map SelEntry.pos).getD 0 = xm.pos ∧
      st.slots[xm.pos]? = some none ∧ st.next ≤ xm.pos ∧
      xm.key = keyOfRec cfg.hi rp ∧
      recFor cfg.hi done xm.key = some rp ∧
      st.accum = some (renderRec rp) ∧
      (∀ x ∈ tab, (st.slots.set xm.pos (some (renderRec rp)))[x.pos]? =
        some (if x.pos < st.next then none
          else (recFor cfg.hi done x.key).map renderRec)) ∧
      st.out = outSpec cfg tab done st.next ∧
      (∀ x ∈ tab, x.pos < st.next → (recFor cfg.hi done x.key).isSome = true) := by
  obtain ⟨hgl, hhit⟩ := pendingOf_some hpend
  have hacc : st.accum = some (renderRec rp) := by
    rw [hOrd.haccum, hpend]
    rfl
  obtain ⟨xm, hxm1, hxm2, hxm3, hxm4⟩ := hScan.haccum (renderRec rp) hacc
  have hxmem : xm ∈ tab := List.getElem?_mem hxm1
  have hbs0 : bin_search (keyOfRec cfg.hi rp) (tab.map SelEntry.key) M ≠ -1 := by
    have := of_decide_eq_true hhit
    exact this
  obtain ⟨i, hi1, hi2, hi3⟩ := bin_search_pos (keyOfRec cfg.hi rp)
    (tab.map SelEntry.key) M (by rw [List.length_map, htab.hM]) htab.hsorted hbs0
  have hemit : st.emitting = i := by
    rw [hOrd.hemitting rp hpend, hi1]
    exact Int.toNat_natCast i
  have hkey : xm.key = keyOfRec cfg.hi rp := by
    rw [hemit] at hxm1
    rw [List.getElem?_map, hxm1] at hi3
    dsimp only [Option.map] at hi3
    exact Option.some.inj hi3
  have hdecomp : done = done.dropLast ++ [rp] := getLast?_decomp hgl
  have hstored : storedOf cfg tab M done = done.dropLast := by
    unfold storedOf
    rw [hpend]
  have hnone : recFor cfg.hi (storedOf cfg tab M done) xm.key = none := by
    have h := hOrd.hslot xm hxmem
    rw [if_neg (by omega)] at h
    rw [hxm3] at h
    have h2 := Option.some.inj h
    exact Option.map_eq_none'.mp h2.symm
  have hrfm : recFor cfg.hi done xm.key = some rp := by
    rw [hdecomp]
    rw [hstored] at hnone
    exact recFor_append_hit cfg.hi done.dropLast rp xm.key hkey.symm hnone
  have hagree : ∀ x ∈ tab, ¬ (x = xm) →
      recFor cfg.hi done x.key = recFor cfg.hi (storedOf cfg tab M done) x.key := by
    intro x hx hne
    have hkne : ¬ (keyOfRec cfg.hi rp = x.key) := by
      intro hc
      exact hne (key_inj htab.hkeys hx hxmem (by rw [hkey, hc]))
    rw [hstored]
    nth_rewrite 1 [hdecomp]
    exact recFor_append_ne cfg.hi done.dropLast rp x.key hkne
  have hposm : xm.pos < st.slots.length := by
    have h1 := htab.hposlt xm hxmem
    have h2 := hScan.hslots
    omega
  refine ⟨xm, hxmem, hxm1, by rw [hxm1]; rfl, hxm3, hxm4, hkey, hrfm, hacc,
    ?_, ?_, ?_⟩
  · intro x hx
    by_cases hxe : x = xm
    · subst hxe
      rw [List.getElem?_set_self hposm, if_neg (by omega), hrfm]
      rfl
    · have hpne : ¬ (xm.pos = x.pos) := by
        intro hc
        exact hxe (pos_inj htab.hpos hx hxmem hc.symm)
      rw [List.getElem?_set_ne hpne]
      have h := hOrd.hslot x hx
      rw [hagree x hx hxe]
      exact h
  · rw [hOrd.hout]
    unfold outSpec
    refine List.filterMap_congr ?_
    intro p hp
    have hpM : p < M := by
      have h1 := List.mem_range.mp hp
      have h2 := hScan.hnext
      omega
    obtain ⟨y, hy, hyp⟩ := htab.hsurj p hpM
    have hea : entryAtPos tab p = some y := by
      have := entryAtPos_unique tab htab.hpos y hy
      rw [hyp] at this
      exact this
    unfold outElem
    rw [hea]
    have hyne : ¬ (y = xm) := by
      intro hc
      subst hc
      have h1 := List.mem_range.mp hp
      omega
    rw [show ((some y).bind fun x => recFor cfg.hi (storedOf cfg tab M done) x.key)
        = recFor cfg.hi (storedOf cfg tab M done) y.key from rfl]
    rw [show ((some y).bind fun x => recFor cfg.hi done x.key)
        = recFor cfg.hi done y.key from rfl]
    rw [hagree y hy hyne]
  · intro x hx hxlt
    have hxne : ¬ (x = xm) := by
      intro hc
      subst hc
      omega
    rw [hagree x hx hxne]
    exact hOrd.hfull x hx hxlt

/-- The lookup half of a record step in a plain Select run, described
against the stored prefix `L`: a miss changes nothing, a hit (necessarily
fresh, by the at-most-once hypothesis) sets the matched flag, opens the
payload accumulator and bumps the emission counter; the buffer, cursor and
output are untouched and the step cannot fail. -/
theorem lookupPhase_ord (cfg : Config) (tab : List SelEntry) (M : Nat)
    (htab : OrdTab tab M) (hrej : cfg.reject = false) (hfr : cfg.frag = 0)
    (r : Rec) (st : St) (L : List Rec)
    (hacc : st.accum = none)
    (hflagL : ∀ (i : Nat) (x : SelEntry), tab[i]? = some x →
      st.emitlist[i]? = some ((recFor cfg.hi L x.key).isSome))
    (hemittedL : st.emitted = st.emitlist.countP (fun b => b))
    (honce : ∀ x ∈ tab, keyOfRec cfg.hi r = x.key →
      recFor cfg.hi L x.key = none) :
    (∀ st1, lookupPhase cfg tab M r st = StepOut.cont st1 →
      st1.slots = st.slots ∧ st1.next = st.next ∧ st1.out = st.out ∧
      st1.records = st.records ∧
      st1.accum = (if hitsTab cfg tab M r then some (renderRec r) else none) ∧
      (hitsTab cfg tab M r = true →
        st1.emitting
          = (bin_search (keyOfRec cfg.hi r) (tab.map SelEntry.key) M).toNat) ∧
      (∀ (i : Nat) (x : SelEntry), tab[i]? = some x →
        st1.emitlist[i]? = some ((recFor cfg.hi (L ++ [r]) x.key).isSome)) ∧
      st1.emitted = st1.emitlist.countP (fun b => b)) ∧
    (∀ st1, lookupPhase cfg tab M r st = StepOut.bye st1 → False) ∧
    (∀ e st1, lookupPhase cfg tab M r st = StepOut.fatal e st1 → False) := by
  by_cases hm : bin_search (keyOfRec cfg.hi r) (tab.map SelEntry.key) M = -1
  · have hd : decide (bin_search (keyOfRec cfg.hi r) (tab.map SelEntry.key) M ≠ -1)
        = false := decide_eq_false (fun hne => hne hm)
    have hhit : hitsTab cfg tab M r = false := hd
    have hred : lookupPhase cfg tab M r st = StepOut.cont st := by
      simp [lookupPhase, hrej, hd]
    have hnr : ∀ x ∈ tab, ¬ (keyOfRec cfg.hi r = x.key) := by
      intro x hx hc
      obtain ⟨i, hi⟩ := mem_getElem? hx
      have hil : i < tab.length := getElem?_some_lt hi
      have hkm : (tab.map SelEntry.key)[i]? = some (keyOfRec cfg.hi r) := by
        rw [List.getElem?_map, hi]
        dsimp only [Option.map]
        rw [hc]
      exact bin_search_neg (keyOfRec cfg.hi r) (tab.map SelEntry.key) M
        (by rw [List.length_map, htab.hM]) htab.hsorted hm i
        (by rw [htab.hM]; exact hil) hkm
    refine ⟨?_, ?_, ?_⟩
    · intro st1 h
      rw [hred] at h
      injection h with h1
      subst h1
      refine ⟨rfl, rfl, rfl, rfl, ?_, ?_, ?_, hemittedL⟩
      · rw [hhit, if_neg (by intro hc; cases hc)]
        exact hacc
      · intro hc
        rw [hhit] at hc
        cases hc
      · intro i x hx
        rw [recFor_append_ne cfg.hi L r x.key (hnr x (List.getElem?_mem hx))]
        exact hflagL i x hx
    · intro st1 h
      rw [hred] at h
      cases h
    · intro e st1 h
      rw [hred] at h
      cases h
  · obtain ⟨hge, hlt0⟩ :=
      bin_search_bound (keyOfRec cfg.hi r) (tab.map SelEntry.key) M hm
    obtain ⟨i0, hi1, hi2, hi3⟩ := bin_search_pos (keyOfRec cfg.hi r)
      (tab.map SelEntry.key) M (by rw [List.length_map, htab.hM])
      htab.hsorted hm
    have hMdef : (bin_search (keyOfRec cfg.hi r) (tab.map SelEntry.key) M).toNat
        = i0 := by
      rw [hi1]
      exact Int.toNat_natCast i0
    have hbs : bin_search (keyOfRec cfg.hi r) (tab.map SelEntry.key) M
        = ((i0 : Nat) : Int) := hi1
    have hhit : hitsTab cfg tab M r = true := decide_eq_true hm
    have hMt : i0 < tab.length := by
      have h1 := htab.hM
      omega
    have hxm : tab[i0]? = some tab[i0] := List.getElem?_eq_getElem hMt
    have hkey : (tab[i0]).key = keyOfRec cfg.hi r := by
      rw [List.getElem?_map, hxm] at hi3
      dsimp only [Option.map] at hi3
      exact Option.some.inj hi3
    have hdm : decide (((i0 : Nat) : Int) ≠ -1) = true := decide_eq_true (by omega)
    have htn : ((i0 : Nat) : Int).toNat = i0 := Int.toNat_natCast i0
    have hml : st.emitlist[i0]? = some false := by
      have h := hflagL i0 (tab[i0]) hxm
      rw [honce (tab[i0]) (List.getElem?_mem hxm) hkey.symm] at h
      exact h
    have hMl : i0 < st.emitlist.length := getElem?_some_lt hml
    have hfa : fragAssign cfg tab
        {st with emitting := i0, emitlist := st.emitlist.set i0 true} i0
        = Except.ok {st with emitting := i0, emitlist := st.emitlist.set i0 true} := by
      unfold fragAssign
      rw [if_neg (fun hc => hc hfr)]
    have hred : lookupPhase cfg tab M r st =
        StepOut.cont {st with
          emitting := i0
          emitlist := st.emitlist.set i0 true
          accum := some (renderRec r)
          emitted := st.emitted + 1} := by
      simp only [lookupPhase, hrej, hbs, hdm, Bool.xor_false, if_true, htn, hml, hfa]
    refine ⟨?_, ?_, ?_⟩
    · intro st1 h
      rw [hred] at h
      injection h with h1
      subst h1
      refine ⟨rfl, rfl, rfl, rfl, ?_, ?_, ?_, ?_⟩
      · rw [hhit, if_pos rfl]
      · intro _
        dsimp only
        rw [hMdef]
      · intro i x hx
        dsimp only
        by_cases hii : i = i0
        · rw [hii] at hx ⊢
          have hxx : x = tab[i0] := by
            have h2 := hx
            rw [hxm] at h2
            exact (Option.some.inj h2).symm
          rw [List.getElem?_set_self hMl]
          rw [hxx, recFor_append_hit cfg.hi L r (tab[i0]).key hkey.symm
            (honce (tab[i0]) (List.getElem?_mem hxm) hkey.symm)]
          rfl
        · rw [List.getElem?_set_ne (fun hc => hii hc.symm)]
          have hkne : ¬ (keyOfRec cfg.hi r = x.key) := by
            intro hc
            exact hii (nodup_map_getElem?_inj_str htab.hkeys hx hxm
              (by rw [← hc, hkey]))
          rw [recFor_append_ne cfg.hi L r x.key hkne]
          exact hflagL i x hx
      · dsimp only
        rw [countP_set_true st.emitlist i0 hml, hemittedL]
    · intro st1 h
      rw [hred] at h
      cases h
    · intro e st1 h
      rw [hred] at h
      cases h

theorem pendingOf_concat (cfg : Config) (tab : List SelEntry) (M : Nat)
    (done : List Rec) (r : Rec) :
    pendingOf cfg tab M (done ++ [r])
      = (if hitsTab cfg tab M r then some r else none) := by
  unfold pendingOf
  rw [List.getLast?_concat]

theorem storedOf_concat (cfg : Config) (tab : List SelEntry) (M : Nat)
    (done : List Rec) (r : Rec) :
    storedOf cfg tab M (done ++ [r])
      = (if hitsTab cfg tab M r then done else done ++ [r]) := by
  unfold storedOf
  rw [pendingOf_concat]
  cases hhit : hitsTab cfg tab M r
  · rw [if_neg (by intro hc; cases hc), if_neg (by intro hc; cases hc)]
  · rw [if_pos rfl, if_pos rfl]
    simp

theorem ordTab_toTabInv (tab : List SelEntry) (M : Nat) (htab : OrdTab tab M) :
    TabInv tab M M :=
  ⟨htab.hM, by rw [← htab.hM], htab.hM1, htab.hpos, htab.hposlt⟩

/-- A record's key that misses the table (by binary search) differs from
every selector key. -/
theorem miss_no_key (cfg : Config) (tab : List SelEntry) (M : Nat)
    (htab : OrdTab tab M) (r : Rec) (hhit : hitsTab cfg tab M r = false) :
    ∀ x ∈ tab, ¬ (keyOfRec cfg.hi r = x.key) := by
  have hm : bin_search (keyOfRec cfg.hi r) (tab.map SelEntry.key) M = -1 := by
    have := of_decide_eq_false hhit
    by_contra hc
    exact this hc
  intro x hx hc
  obtain ⟨i, hi⟩ := mem_getElem? hx
  have hil : i < tab.length := getElem?_some_lt hi
  have hkm : (tab.map SelEntry.key)[i]? = some (keyOfRec cfg.hi r) := by
    rw [List.getElem?_map, hi]
    dsimp only [Option.map]
    rw [hc]
  exact bin_search_neg (keyOfRec cfg.hi r) (tab.map SelEntry.key) M
    (by rw [List.length_map, htab.hM]) htab.hsorted hm i
    (by rw [htab.hM]; exact hil) hkm

/-- The stored set after one more record agrees with the current prefix on
every selector key. -/
theorem storedOf_concat_recFor (cfg : Config) (tab : List SelEntry) (M : Nat)
    (htab : OrdTab tab M) (done : List Rec) (r : Rec) :
    ∀ x ∈ tab, recFor cfg.hi (storedOf cfg tab M (done ++ [r])) x.key
      = recFor cfg.hi done x.key := by
  intro x hx
  rw [storedOf_concat]
  cases hhit : hitsTab cfg tab M r
  · rw [if_neg (by intro hc; cases hc)]
    exact recFor_append_ne cfg.hi done r x.key
      (miss_no_key cfg tab M htab r hhit x hx)
  · rw [if_pos rfl]

/-- Assembling the order invariant for the extended prefix from the
post-lookup facts. -/
theorem ordInv_assemble (cfg : Config) (tab : List SelEntry) (M : Nat)
    (htab : OrdTab tab M) (done : List Rec) (r : Rec) (stL st1 : St)
    (hslotL : ∀ x ∈ tab, stL.slots[x.pos]? = some (if x.pos < stL.next then none
      else (recFor cfg.hi done x.key).map renderRec))
    (houtL : stL.out = outSpec cfg tab done stL.next)
    (hfullL : ∀ x ∈ tab, x.pos < stL.next →
      (recFor cfg.hi done x.key).isSome = true)
    (h1 : st1.slots = stL.slots) (h2 : st1.next = stL.next)
    (h3 : st1.out = stL.out)
    (h5 : st1.accum = (if hitsTab cfg tab M r then some (renderRec r) else none))
    (h6 : hitsTab cfg tab M r = true → st1.emitting
      = (bin_search (keyOfRec cfg.hi r) (tab.map SelEntry.key) M).toNat)
    (h7 : ∀ (i : Nat) (x : SelEntry), tab[i]? = some x →
      st1.emitlist[i]? = some ((recFor cfg.hi (done ++ [r]) x.key).isSome))
    (h8 : st1.emitted = st1.emitlist.countP (fun b => b)) :
    OrdInv cfg tab M (done ++ [r]) st1 := by
  have hrec := storedOf_concat_recFor cfg tab M htab done r
  refine ⟨h7, ?_, ?_, ?_, ?_, ?_, h8⟩
  · rw [h5, pendingOf_concat]
    cases hhit : hitsTab cfg tab M r
    · rw [if_neg (by intro hc; cases hc), if_neg (by intro hc; cases hc)]
      rfl
    · rw [if_pos rfl, if_pos rfl]
      rfl
  · intro r0 hp0
    rw [pendingOf_concat] at hp0
    cases hhit : hitsTab cfg tab M r
    · rw [hhit] at hp0
      rw [if_neg (by intro hc; cases hc)] at hp0
      cases hp0
    · rw [hhit, if_pos rfl] at hp0
      injection hp0 with h0
      subst h0
      exact h6 hhit
  · intro x hx
    rw [h1, h2, hrec x hx]
    exact hslotL x hx
  · rw [h3, h2, houtL]
    unfold outSpec
    refine List.filterMap_congr ?_
    intro p hp
    unfold outElem
    cases hea : entryAtPos tab p with
    | none => rfl
    | some y =>
      have hy := entryAtPos_mem hea
      rw [show ((some y).bind fun x =>
          recFor cfg.hi (storedOf cfg tab M (done ++ [r])) x.key)
          = recFor cfg.hi (storedOf cfg tab M (done ++ [r])) y.key from rfl]
      rw [show ((some y).bind fun x => recFor cfg.hi done x.key)
          = recFor cfg.hi done y.key from rfl]
      rw [hrec y hy.1]
  · intro x hx hxlt
    rw [hrec x hx]
    rw [h2] at hxlt
    exact hfullL x hx hxlt

/-- One record step of a plain Select run preserves the order invariant
(the prefix grows by the record); a `goto bye` can only fire with the whole
position range flushed, and no fatal stop is possible. -/
theorem scanRecord_ord (cfg : Config) (tab : List SelEntry) (M : Nat)
    (htab : OrdTab tab M) (hrej : cfg.reject = false) (hfr : cfg.frag = 0)
    (done : List Rec) (r : Rec) (st : St)
    (hOrd : OrdInv cfg tab M done st) (hScan : ScanInv tab M M st)
    (honce : ∀ x ∈ tab, keyOfRec cfg.hi r = x.key →
      recFor cfg.hi done x.key = none) :
    (∀ st1, scanRecord cfg tab M st r = StepOut.cont st1 →
      OrdInv cfg tab M (done ++ [r]) st1) ∧
    (∀ st1, scanRecord cfg tab M st r = StepOut.bye st1 →
      st1.out = outSpec cfg tab done M ∧
      (∀ x ∈ tab, (recFor cfg.hi done x.key).isSome = true)) ∧
    (∀ e st1, scanRecord cfg tab M st r = StepOut.fatal e st1 → False) := by
  have hOrdR : OrdInv cfg tab M done {st with records := st.records + 1} :=
    ⟨hOrd.hflag, hOrd.haccum, hOrd.hemitting, hOrd.hslot, hOrd.hout,
      hOrd.hfull, hOrd.hemitted⟩
  cases hac : st.accum with
  | none =>
    have hpnone : pendingOf cfg tab M done = none := by
      have h := hOrd.haccum
      rw [hac] at h
      exact Option.map_eq_none'.mp h.symm
    have hstored0 : storedOf cfg tab M done = done := by
      unfold storedOf
      rw [hpnone]
    have hred : scanRecord cfg tab M st r =
        lookupPhase cfg tab M r {st with records := st.records + 1} := by
      unfold scanRecord
      dsimp only
      rw [hrej, hac]
    have hlp := lookupPhase_ord cfg tab M htab hrej hfr r
      {st with records := st.records + 1} done hac
      (by intro i x hx; exact hOrd.hflag i x hx)
      hOrd.hemitted honce
    refine ⟨?_, ?_, ?_⟩
    · intro st1 h
      rw [hred] at h
      obtain ⟨h1, h2, h3, h4, h5, h6, h7, h8⟩ := hlp.1 st1 h
      refine ordInv_assemble cfg tab M htab done r
        {st with records := st.records + 1} st1 ?_ ?_ ?_ h1 h2 h3 h5 h6 h7 h8
      · intro x hx
        have hss := hOrd.hslot x hx
        rw [hstored0] at hss
        exact hss
      · have hss := hOrd.hout
        rw [hstored0] at hss
        exact hss
      · intro x hx hxlt
        have hss := hOrd.hfull x hx hxlt
        rw [hstored0] at hss
        exact hss
    · intro st1 h
      rw [hred] at h
      exact (hlp.2.1 st1 h).elim
    · intro e st1 h
      rw [hred] at h
      exact (hlp.2.2 e st1 h).elim
  | some a =>
    cases hpend : pendingOf cfg tab M done with
    | none =>
      exfalso
      have h := hOrd.haccum
      rw [hac, hpend] at h
      cases h
    | some rp =>
      have hScanR : ScanInv tab M M {st with records := st.records + 1} :=
        ⟨hScan.hslots, hScan.hflags, hScan.hnext, hScan.hbelow, hScan.hcover,
          hScan.haccum⟩
      obtain ⟨xm, hxmem, hxm1, hgetd, hxm3, hxm4, hkey, hrfm, haccp, hslotD,
        houtD, hfullD⟩ :=
        store_pending cfg tab M htab done {st with records := st.records + 1}
          rp hOrdR hScanR hpend
      have haeq : a = renderRec rp := by
        have h2 : some a = some (renderRec rp) := by
          rw [← hac]
          exact haccp
        exact Option.some.inj h2
      subst haeq
      have hp3 : ((tab[st.emitting]?).map SelEntry.pos).getD 0 = xm.pos := hgetd
      have hsn : st.slots[xm.pos]? = some none := hxm3
      have hsteq : storeAccum cfg tab M {st with records := st.records + 1}
          (renderRec rp) =
          drain cfg M (M - st.next) {st with
            records := st.records + 1
            slots := st.slots.set xm.pos (some (renderRec rp))
            accum := none
            emitting := 0} := by
        unfold storeAccum
        dsimp only
        rw [hp3, hsn]
      have hdd := drain_desc cfg tab M hfr htab done (M - st.next)
        {st with
          records := st.records + 1
          slots := st.slots.set xm.pos (some (renderRec rp))
          accum := none
          emitting := 0}
        hScan.hnext rfl
        (by dsimp only; rw [List.length_set]; exact hScan.hslots)
        (by intro x hx; exact hslotD x hx)
        houtD
        (by intro x hx hxlt; exact hfullD x hx hxlt)
      have hred : scanRecord cfg tab M st r =
          (match storeAccum cfg tab M {st with records := st.records + 1}
              (renderRec rp) with
          | DrainOut.fatal e st1 => StepOut.fatal e st1
          | DrainOut.bye st1 => StepOut.bye st1
          | DrainOut.cont st1 => lookupPhase cfg tab M r st1) := by
        unfold scanRecord
        dsimp only
        rw [hrej, hac]
      cases hdo : drain cfg M (M - st.next) {st with
          records := st.records + 1
          slots := st.slots.set xm.pos (some (renderRec rp))
          accum := none
          emitting := 0} with
      | cont st2 =>
        obtain ⟨hn2, hsl2, hslot2, hout2, hfull2, hel2, hem2, hac2, hrc2, hed2⟩ :=
          hdd.1 st2 hdo
        have hel2s : st2.emitlist = st.emitlist := hel2
        have hac2s : st2.accum = none := hac2
        have hed2s : st2.emitted = st.emitted := hed2
        have hlp := lookupPhase_ord cfg tab M htab hrej hfr r st2 done hac2s
          (by
            intro i x hx
            rw [hel2s]
            exact hOrd.hflag i x hx)
          (by
            rw [hed2s, hel2s]
            exact hOrd.hemitted)
          honce
        refine ⟨?_, ?_, ?_⟩
        · intro st1 h
          rw [hred, hsteq, hdo] at h
          dsimp only at h
          obtain ⟨h1, h2, h3, h4, h5, h6, h7, h8⟩ := hlp.1 st1 h
          exact ordInv_assemble cfg tab M htab done r st2 st1
            hslot2 hout2 hfull2 h1 h2 h3 h5 h6 h7 h8
        · intro st1 h
          rw [hred, hsteq, hdo] at h
          dsimp only at h
          exact (hlp.2.1 st1 h).elim
        · intro e st1 h
          rw [hred, hsteq, hdo] at h
          dsimp only at h
          exact (hlp.2.2 e st1 h).elim
      | bye st2 =>
        obtain ⟨hn2, hout2, hfull2, hel2, hac2, hrc2, hed2⟩ := hdd.2.1 st2 hdo
        refine ⟨?_, ?_, ?_⟩
        · intro st1 h
          rw [hred, hsteq, hdo] at h
          dsimp only at h
          cases h
        · intro st1 h
          rw [hred, hsteq, hdo] at h
          dsimp only at h
          injection h with h1
          subst h1
          exact ⟨hout2, hfull2⟩
        · intro e st1 h
          rw [hred, hsteq, hdo] at h
          dsimp only at h
          cases h
      | fatal e0 st2 =>
        exact ((hdd.2.2 e0 st2 hdo).elim)

theorem recFor_extend (hi : Str) (l l2 : List Rec) (k : Str) (r0 : Rec)
    (h : recFor hi l k = some r0) : recFor hi (l ++ l2) k = some r0 := by
  unfold recFor at h ⊢
  rw [List.find?_append, h]
  rfl

theorem outSpec_congr (cfg : Config) (tab : List SelEntry)
    (S S2 : List Rec) (n : Nat)
    (h : ∀ x ∈ tab, recFor cfg.hi S2 x.key = recFor cfg.hi S x.key) :
    outSpec cfg tab S n = outSpec cfg tab S2 n := by
  unfold outSpec
  refine List.filterMap_congr ?_
  intro p hp
  unfold outElem
  cases hea : entryAtPos tab p with
  | none => rfl
  | some y =>
    have hy := entryAtPos_mem hea
    rw [show ((some y).bind fun x => recFor cfg.hi S x.key)
        = recFor cfg.hi S y.key from rfl]
    rw [show ((some y).bind fun x => recFor cfg.hi S2 x.key)
        = recFor cfg.hi S2 y.key from rfl]
    rw [h y hy.1]

/-- The reading loop of a plain Select run over a stream hitting each
selector key at most once: the order invariant holds at end of stream, a
`goto bye` exit carries the complete position-ordered output, and no fatal
stop is possible. -/
theorem runRecs_ord (cfg : Config) (tab : List SelEntry) (M : Nat)
    (htab : OrdTab tab M) (hrej : cfg.reject = false) (hfr : cfg.frag = 0) :
    ∀ (rest done : List Rec) (st : St),
      OrdInv cfg tab M done st → ScanInv tab M M st →
      (∀ x ∈ tab, ((done ++ rest).filter
        (fun r0 => decide (keyOfRec cfg.hi r0 = x.key))).length ≤ 1) →
      (∀ st1, runRecs cfg tab M st rest = ScanRes.eof st1 →
        OrdInv cfg tab M (done ++ rest) st1) ∧
      (∀ st1 rem, runRecs cfg tab M st rest = ScanRes.bye st1 rem →
        st1.out = outSpec cfg tab (done ++ rest) M ∧
        (∀ x ∈ tab, (recFor cfg.hi (done ++ rest) x.key).isSome = true)) ∧
      (∀ e st1, runRecs cfg tab M st rest = ScanRes.fatal e st1 → False) := by
  intro rest
  induction rest with
  | nil =>
    intro done st hOrd hScan hglob
    refine ⟨?_, ?_, ?_⟩
    · intro st1 h
      injection h with h1
      subst h1
      rw [List.append_nil]
      exact hOrd
    · intro st1 rem h
      cases h
    · intro e st1 h
      cases h
  | cons r rest ih =>
    intro done st hOrd hScan hglob
    have honce1 : ∀ x ∈ tab, keyOfRec cfg.hi r = x.key →
        recFor cfg.hi done x.key = none := by
      intro x hx hk
      have hg := hglob x hx
      rw [List.filter_append, List.length_append] at hg
      have hr1 : 0 < ((r :: rest).filter
          (fun r0 => decide (keyOfRec cfg.hi r0 = x.key))).length := by
        rw [List.filter_cons_of_pos (by simpa using hk)]
        simp
      have hz : (done.filter
          (fun r0 => decide (keyOfRec cfg.hi r0 = x.key))).length = 0 := by
        omega
      unfold recFor
      rw [List.find?_eq_none]
      intro a ha hpa
      rw [List.length_eq_zero] at hz
      have hmem : a ∈ done.filter (fun r0 => decide (keyOfRec cfg.hi r0 = x.key)) :=
        List.mem_filter.mpr ⟨ha, hpa⟩
      rw [hz] at hmem
      cases hmem
    have hsc := scanRecord_ord cfg tab M htab hrej hfr done r st hOrd hScan honce1
    have hsci := scanRecord_inv cfg tab M M (ordTab_toTabInv tab M htab) hrej
      st r hScan
    have hstep : runRecs cfg tab M st (r :: rest) =
        (match scanRecord cfg tab M st r with
        | StepOut.fatal e st1 => ScanRes.fatal e st1
        | StepOut.bye st1 => ScanRes.bye st1 rest
        | StepOut.cont st1 => runRecs cfg tab M st1 rest) := rfl
    cases hso : scanRecord cfg tab M st r with
    | cont st2 =>
      have hOrd2 := hsc.1 st2 hso
      have hScan2 := hsci.1 st2 hso
      have hglob2 : ∀ x ∈ tab, (((done ++ [r]) ++ rest).filter
          (fun r0 => decide (keyOfRec cfg.hi r0 = x.key))).length ≤ 1 := by
        intro x hx
        rw [List.append_assoc]
        exact hglob x hx
      have hrec := ih (done ++ [r]) st2 hOrd2 hScan2 hglob2
      have hassoc : (done ++ [r]) ++ rest = done ++ (r :: rest) := by
        rw [List.append_assoc]
        rfl
      refine ⟨?_, ?_, ?_⟩
      · intro st1 h
        rw [hstep, hso] at h
        dsimp only at h
        have := hrec.1 st1 h
        rw [hassoc] at this
        exact this
      · intro st1 rem h
        rw [hstep, hso] at h
        dsimp only at h
        have := hrec.2.1 st1 rem h
        rw [hassoc] at this
        exact this
      · intro e st1 h
        rw [hstep, hso] at h
        dsimp only at h
        exact hrec.2.2 e st1 h
    | bye st2 =>
      obtain ⟨hout2, hfull2⟩ := hsc.2.1 st2 hso
      have hagree2 : ∀ x ∈ tab,
          recFor cfg.hi (done ++ (r :: rest)) x.key
            = recFor cfg.hi done x.key := by
        intro x hx
        cases hrf : recFor cfg.hi done x.key with
        | some r0 => exact recFor_extend cfg.hi done (r :: rest) x.key r0 hrf
        | none =>
          exfalso
          have h1 := hfull2 x hx
          rw [hrf] at h1
          cases h1
      refine ⟨?_, ?_, ?_⟩
      · intro st1 h
        rw [hstep, hso] at h
        dsimp only at h
        cases h
      · intro st1 rem h
        rw [hstep, hso] at h
        dsimp only at h
        injection h with h1 h2
        subst h1
        constructor
        · rw [hout2]
          exact outSpec_congr cfg tab done (done ++ (r :: rest)) M hagree2
        · intro x hx
          rw [hagree2 x hx]
          exact hfull2 x hx
      · intro e st1 h
        rw [hstep, hso] at h
        dsimp only at h
        cases h
    | fatal e0 st2 =>
      exact ((hsc.2.2 e0 st2 hso).elim)

/-- The final forced drain of a plain Select run: it walks the remaining
positions in ascending order, emits every filled slot, skips the rest,
never fails, and touches only the cursor and the output. -/
theorem finalDrain_desc (cfg : Config) (tab : List SelEntry) (M : Nat)
    (hfr : cfg.frag = 0) (htab : OrdTab tab M) (S : List Rec) :
    ∀ (fuel : Nat) (st : St), fuel = M - st.next →
      (∀ x ∈ tab, st.next ≤ x.pos →
        st.slots[x.pos]? = some ((recFor cfg.hi S x.key).map renderRec)) →
      ∃ st1, finalDrain cfg M fuel st = (st1, none) ∧
        st1.out = st.out ++ (List.range' st.next (M - st.next)).filterMap
          (outElem cfg tab S) ∧
        st1.records = st.records ∧ st1.emitted = st.emitted ∧
        st1.emitlist = st.emitlist := by
  intro fuel
  induction fuel with
  | zero =>
    intro st hfuel _
    refine ⟨st, rfl, ?_, rfl, rfl, rfl⟩
    rw [← hfuel]
    simp
  | succ fuel ih =>
    intro st hfuel hslot
    have hlt : st.next < M := by omega
    obtain ⟨xn, hxn, hxp⟩ := htab.hsurj st.next hlt
    have hsl2 : st.slots[st.next]? =
        some ((recFor cfg.hi S xn.key).map renderRec) := by
      have h := hslot xn hxn (by omega)
      rw [hxp] at h
      exact h
    have hfs : fragSwitch cfg st st.next = Except.ok st := by
      unfold fragSwitch
      rw [if_neg (fun hc => hc hfr)]
    have hsink : sinkOf cfg st = none := by
      unfold sinkOf
      rw [if_neg (fun hc => hc hfr)]
    have hea : entryAtPos tab st.next = some xn := by
      have := entryAtPos_unique tab htab.hpos xn hxn
      rw [hxp] at this
      exact this
    have hstep : finalDrain cfg M (fuel+1) st =
        (if st.next < M then
          match st.slots[st.next]? with
          | some (some s) =>
            match fragSwitch cfg st st.next with
            | Except.error e => (st, some e)
            | Except.ok st1 =>
              finalDrain cfg M fuel {st1 with
                out := st1.out ++ [(sinkOf cfg st1, s)]
                next := st1.next + 1}
          | _ => finalDrain cfg M fuel {st with next := st.next + 1}
        else (st, none)) := rfl
    have hrange : List.range' st.next (M - st.next) =
        st.next :: List.range' (st.next + 1) (M - (st.next + 1)) := by
      have hk : M - st.next = (M - (st.next + 1)) + 1 := by omega
      rw [hk, List.range'_succ]
    cases hrf : recFor cfg.hi S xn.key with
    | none =>
      rw [hrf, Option.map_none'] at hsl2
      have hred : finalDrain cfg M (fuel+1) st =
          finalDrain cfg M fuel {st with next := st.next + 1} := by
        rw [hstep, if_pos hlt, hsl2]
      obtain ⟨st1, heq, hout1, hrc1, hed1, hel1⟩ :=
        ih {st with next := st.next + 1} (by dsimp only; omega)
          (by
            intro x hx hxle
            dsimp only at hxle ⊢
            exact hslot x hx (by omega))
      refine ⟨st1, by rw [hred]; exact heq, ?_, hrc1, hed1, hel1⟩
      rw [hout1]
      dsimp only
      rw [hrange, List.filterMap_cons]
      have helem : outElem cfg tab S st.next = none := by
        unfold outElem
        rw [hea]
        dsimp only [Option.bind]
        rw [hrf]
        rfl
      rw [helem]
    | some r =>
      rw [hrf, Option.map_some'] at hsl2
      have hred : finalDrain cfg M (fuel+1) st =
          finalDrain cfg M fuel {st with
            out := st.out ++ [(sinkOf cfg st, renderRec r)]
            next := st.next + 1} := by
        rw [hstep, if_pos hlt, hsl2]
        dsimp only
        rw [hfs]
      obtain ⟨st1, heq, hout1, hrc1, hed1, hel1⟩ :=
        ih {st with
            out := st.out ++ [(sinkOf cfg st, renderRec r)]
            next := st.next + 1}
          (by dsimp only; omega)
          (by
            intro x hx hxle
            dsimp only at hxle ⊢
            exact hslot x hx (by omega))
      refine ⟨st1, by rw [hred]; exact heq, ?_, hrc1, hed1, hel1⟩
      rw [hout1]
      dsimp only
      rw [hrange, List.filterMap_cons]
      have helem : outElem cfg tab S st.next = some (none, renderRec r) := by
        unfold outElem
        rw [hea]
        dsimp only [Option.bind]
        rw [hrf]
        rfl
      rw [helem, hsink]
      rw [List.append_assoc]
      rfl

/-- The unchecked pending store at end of stream leaves the buffer described
by the whole prefix as stored set. -/
theorem pendingStore_ord (cfg : Config) (tab : List SelEntry) (M : Nat)
    (htab : OrdTab tab M) (done : List Rec) (st : St)
    (hOrd : OrdInv cfg tab M done st) (hScan : ScanInv tab M M st) :
    (pendingStore tab st).next = st.next ∧
    (pendingStore tab st).records = st.records ∧
    (pendingStore tab st).emitted = st.emitted ∧
    (pendingStore tab st).emitlist = st.emitlist ∧
    (∀ x ∈ tab, st.next ≤ x.pos →
      (pendingStore tab st).slots[x.pos]?
        = some ((recFor cfg.hi done x.key).map renderRec)) ∧
    (pendingStore tab st).out = outSpec cfg tab done st.next := by
  cases hpend : pendingOf cfg tab M done with
  | none =>
    have hacc : st.accum = none := by
      rw [hOrd.haccum, hpend]
      rfl
    have hstored0 : storedOf cfg tab M done = done := by
      unfold storedOf
      rw [hpend]
    have hps : pendingStore tab st = st := by
      unfold pendingStore
      rw [hacc]
    rw [hps]
    refine ⟨rfl, rfl, rfl, rfl, ?_, ?_⟩
    · intro x hx hxle
      have h := hOrd.hslot x hx
      rw [hstored0, if_neg (by omega)] at h
      exact h
    · have h := hOrd.hout
      rw [hstored0] at h
      exact h
  | some rp =>
    obtain ⟨xm, hxmem, hxm1, hgetd, hxm3, hxm4, hkey, hrfm, haccp, hslotD,
      houtD, hfullD⟩ :=
      store_pending cfg tab M htab done st rp hOrd hScan hpend
    have hps : pendingStore tab st = {st with
        slots := st.slots.set xm.pos (some (renderRec rp))
        accum := none} := by
      unfold pendingStore
      rw [haccp]
      dsimp only
      rw [hgetd]
    rw [hps]
    refine ⟨rfl, rfl, rfl, rfl, ?_, houtD⟩
    intro x hx hxle
    have h := hslotD x hx
    rw [if_neg (by omega)] at h
    exact h

/-- The empty prefix satisfies the order invariant at the initial state. -/
theorem ordInv_init (cfg : Config) (tab : List SelEntry) (M : Nat)
    (htab : OrdTab tab M) : OrdInv cfg tab M [] (initSt M) := by
  have hcount : ∀ n : Nat, (List.replicate n false).countP (fun b => b) = 0 := by
    intro n
    induction n with
    | zero => rfl
    | succ n ih =>
      rw [List.replicate_succ, List.countP_cons]
      simp [ih]
  refine ⟨?_, rfl, ?_, ?_, rfl, ?_, ?_⟩
  · intro i x hx
    have hil : i < tab.length := getElem?_some_lt hx
    have hiM : i < M := by
      have := htab.hM
      omega
    exact List.getElem?_replicate_of_lt hiM
  · intro r hp
    cases hp
  · intro x hx
    have hb : x.pos < M := htab.hposlt x hx
    rw [show (initSt M).next = 0 from rfl, if_neg (Nat.not_lt_zero _)]
    exact List.getElem?_replicate_of_lt hb
  · intro x hx hxlt
    exact absurd hxlt (Nat.not_lt_zero _)
  · exact (hcount M).symm

/-- With pairwise distinct raw keys the dedup pass keeps the sorted table
unchanged (no warnings), and the table satisfies all standing order facts. -/
theorem ordTab_pipeline (cod : Bool) (raw : List (Str × Option Str))
    (hraw : raw ≠ []) (hkeys : (raw.map Prod.fst).Nodup) :
    remove_dups cod (sort_entries (mkEntries raw))
      = Except.ok (sort_entries (mkEntries raw), 0) ∧
    OrdTab (sort_entries (mkEntries raw)) raw.length := by
  have hperm : (sort_entries (mkEntries raw)).Perm (mkEntries raw) :=
    sort_entries_perm _
  have hkperm : ((sort_entries (mkEntries raw)).map SelEntry.key).Perm
      (raw.map Prod.fst) := by
    have h := hperm.map SelEntry.key
    rw [mkEntries_map_key] at h
    exact h
  have hknd : ((sort_entries (mkEntries raw)).map SelEntry.key).Nodup :=
    hkperm.nodup_iff.mpr hkeys
  have hchain : (sort_entries (mkEntries raw)).Chain'
      (fun x y => x.key ≠ y.key) := by
    refine List.Pairwise.chain' ?_
    exact List.pairwise_map.mp hknd
  have hlen : (sort_entries (mkEntries raw)).length = raw.length := by
    rw [hperm.length_eq, mkEntries_length]
  refine ⟨remove_dups_distinct cod _ hchain, ?_⟩
  refine ⟨hlen.symm, ?_, hknd, ?_, ?_, ?_, ?_⟩
  · cases hr : raw with
    | nil => exact absurd hr hraw
    | cons q qs => simp
  · have h := sort_entries_pairwise (mkEntries raw)
    unfold strSorted
    rw [List.pairwise_map]
    exact h
  · have h1 : ((mkEntries raw).map SelEntry.pos).Nodup := by
      rw [mkEntries_map_pos]
      exact List.nodup_range _
    exact ((hperm.map SelEntry.pos).nodup_iff).mpr h1
  · intro x hx
    have h2 : x ∈ mkEntries raw := hperm.subset hx
    have h3 : x.pos ∈ (mkEntries raw).map SelEntry.pos :=
      List.mem_map_of_mem _ h2
    rw [mkEntries_map_pos] at h3
    exact List.mem_range.mp h3
  · intro p hp
    have h1 : p ∈ (mkEntries raw).map SelEntry.pos := by
      rw [mkEntries_map_pos]
      exact List.mem_range.mpr hp
    have h2 : p ∈ (sort_entries (mkEntries raw)).map SelEntry.pos :=
      ((hperm.map SelEntry.pos).mem_iff).mpr h1
    obtain ⟨x, hx, hxp⟩ := List.mem_map.mp h2
    exact ⟨x, hx, hxp⟩

/-- The position-ordered output over the full range, rewritten as the raw
selector list (in original order) restricted to the stored records. -/
theorem outSpec_raw (cfg : Config) (raw : List (Str × Option Str))
    (S : List Rec)
    (htab : OrdTab (sort_entries (mkEntries raw)) raw.length) :
    outSpec cfg (sort_entries (mkEntries raw)) S raw.length
      = raw.filterMap (fun q => (recFor cfg.hi S q.1).map
          (fun r0 => ((none : Option Str), renderRec r0))) := by
  have hlen : (mkEntries raw).length = raw.length := mkEntries_length raw
  have hperm : (sort_entries (mkEntries raw)).Perm (mkEntries raw) :=
    sort_entries_perm _
  have hstep1 : outSpec cfg (sort_entries (mkEntries raw)) S raw.length
      = (List.range (mkEntries raw).length).filterMap
          (fun p => ((mkEntries raw)[p]?).bind
            (fun x => (recFor cfg.hi S x.key).map
              (fun r0 => ((none : Option Str), renderRec r0)))) := by
    unfold outSpec
    rw [← hlen]
    refine List.filterMap_congr ?_
    intro p hp
    have hpM : p < (mkEntries raw).length := List.mem_range.mp hp
    have hx : (mkEntries raw)[p]? = some ((mkEntries raw).get ⟨p, hpM⟩) := by
      rw [List.getElem?_eq_getElem hpM]
      rfl
    have hxm : (mkEntries raw).get ⟨p, hpM⟩ ∈ mkEntries raw :=
      List.get_mem (mkEntries raw) p hpM
    have hxp : ((mkEntries raw).get ⟨p, hpM⟩).pos = p := by
      have h1 : ((mkEntries raw).map SelEntry.pos)[p]? = some p := by
        rw [mkEntries_map_pos, List.getElem?_range (by omega)]
      rw [List.getElem?_map, hx] at h1
      dsimp only [Option.map] at h1
      exact Option.some.inj h1
    have hea : entryAtPos (sort_entries (mkEntries raw)) p
        = some ((mkEntries raw).get ⟨p, hpM⟩) := by
      have := entryAtPos_unique (sort_entries (mkEntries raw)) htab.hpos
        ((mkEntries raw).get ⟨p, hpM⟩) (hperm.mem_iff.mpr hxm)
      rw [hxp] at this
      exact this
    unfold outElem
    rw [hea, hx]
    rfl
  rw [hstep1, filterMap_index]
  unfold mkEntries
  rw [List.filterMap_map]
  have h2 : ((fun x : SelEntry => (recFor cfg.hi S x.key).map
        (fun r0 => ((none : Option Str), renderRec r0)))
      ∘ (fun p : Nat × (Str × Option Str) => SelEntry.mk p.2.1 p.2.2 p.1))
      = ((fun q : Str × Option Str => (recFor cfg.hi S q.1).map
        (fun r0 => ((none : Option Str), renderRec r0))) ∘ Prod.snd) := rfl
  rw [h2, ← List.filterMap_map, List.enum_map_snd]

/-- C1 (order law, amended): for a selector list with pairwise distinct
keys and a stream hitting each selector key at most once, a plain Select
run (`frag = 0`, `reject = false`) writes exactly the selector list's
original-order sequence restricted to the matched keys — provided the run
is not aborted by the missing-selector check, i.e. when `-com` is set or
every selector key occurs in the stream.  (Without that proviso the claim
fails: see the counterexample.) -/
theorem C1_order_law_amended (cfg : Config) (selLines : List Str)
    (stream : List Rec)
    (hrej : cfg.reject = false) (hfr : cfg.frag = 0)
    (hne : get_entries (cfg.frag ≠ 0) cfg.hs selLines ≠ [])
    (hkeys : ((get_entries (cfg.frag ≠ 0) cfg.hs selLines).map Prod.fst).Nodup)
    (honce : ∀ k ∈ (get_entries (cfg.frag ≠ 0) cfg.hs selLines).map Prod.fst,
      (stream.filter (fun r0 => decide (keyOfRec cfg.hi r0 = k))).length ≤ 1)
    (hcom : cfg.com = true ∨
      ∀ k ∈ (get_entries (cfg.frag ≠ 0) cfg.hs selLines).map Prod.fst,
        ∃ r0 ∈ stream, keyOfRec cfg.hi r0 = k) :
    (fastaselecth cfg selLines stream).out
      = (get_entries (cfg.frag ≠ 0) cfg.hs selLines).filterMap
          (fun q => (recFor cfg.hi stream q.1).map
            (fun r0 => ((none : Option Str), renderRec r0))) := by
  obtain ⟨raw, hraweq⟩ : ∃ raw0, raw0 = get_entries (cfg.frag ≠ 0) cfg.hs selLines :=
    ⟨_, rfl⟩
  rw [← hraweq] at hne hkeys honce hcom ⊢
  obtain ⟨hdd, htab⟩ := ordTab_pipeline cfg.cod raw hne hkeys
  have hlen0 : ¬ (raw.length = 0) := fun hc => hne (List.length_eq_zero.mp hc)
  have hlen : (sort_entries (mkEntries raw)).length = raw.length := htab.hM.symm
  have hkperm : ((sort_entries (mkEntries raw)).map SelEntry.key).Perm
      (raw.map Prod.fst) := by
    have h := (sort_entries_perm (mkEntries raw)).map SelEntry.key
    rw [mkEntries_map_key] at h
    exact h
  have honce2 : ∀ x ∈ sort_entries (mkEntries raw),
      (([] ++ stream).filter
        (fun r0 => decide (keyOfRec cfg.hi r0 = x.key))).length ≤ 1 := by
    intro x hx
    exact honce x.key (hkperm.subset (List.mem_map_of_mem _ hx))
  have htinv := ordTab_toTabInv (sort_entries (mkEntries raw)) raw.length htab
  have hrun := runRecs_ord cfg (sort_entries (mkEntries raw)) raw.length htab
    hrej hfr stream [] (initSt raw.length)
    (ordInv_init cfg (sort_entries (mkEntries raw)) raw.length htab)
    (scanInv_init (sort_entries (mkEntries raw)) raw.length raw.length htinv)
    honce2
  have hruninv := runRecs_inv cfg (sort_entries (mkEntries raw)) raw.length
    raw.length htinv hrej stream (initSt raw.length)
    (scanInv_init (sort_entries (mkEntries raw)) raw.length raw.length htinv)
  unfold fastaselecth
  dsimp only
  rw [← hraweq, if_neg hlen0, hdd]
  dsimp only
  rw [mkEntries_length raw, hlen]
  cases hsc : runRecs cfg (sort_entries (mkEntries raw)) raw.length
      (initSt raw.length) stream with
  | fatal e st1 =>
    exact ((hrun.2.2 e st1 hsc).elim)
  | bye st1 rem =>
    obtain ⟨hout1, _⟩ := hrun.2.1 st1 rem hsc
    dsimp only
    rw [hout1]
    exact outSpec_raw cfg raw stream htab
  | eof st1 =>
    have hOrdF : OrdInv cfg (sort_entries (mkEntries raw)) raw.length stream st1 :=
      hrun.1 st1 hsc
    have hScanF : ScanInv (sort_entries (mkEntries raw)) raw.length raw.length st1 :=
      hruninv.1 st1 hsc
    obtain ⟨hn2, hr2, he2, hl2, hslot2, hout2⟩ :=
      pendingStore_ord cfg (sort_entries (mkEntries raw)) raw.length htab
        stream st1 hOrdF hScanF
    obtain ⟨st3, hfd, hout3, hrc3, hed3, hel3⟩ :=
      finalDrain_desc cfg (sort_entries (mkEntries raw)) raw.length hfr htab
        stream (raw.length - (pendingStore (sort_entries (mkEntries raw)) st1).next)
        (pendingStore (sort_entries (mkEntries raw)) st1) rfl
        (by
          intro x hx hxle
          rw [hn2] at hxle
          exact hslot2 x hx hxle)
    have hnlt : st1.next < raw.length := hScanF.hnext
    have houtfin : st3.out = outSpec cfg (sort_entries (mkEntries raw)) stream
        raw.length := by
      rw [hout3, hout2, hn2]
      have h0 := List.range'_append_1 0 st1.next (raw.length - st1.next)
      have e1 : 0 + st1.next = st1.next := by omega
      have e2 : (raw.length - st1.next) + st1.next = raw.length := by omega
      rw [e1, e2] at h0
      unfold outSpec
      rw [List.range_eq_range', List.range_eq_range', ← List.filterMap_append, h0]
    have hfinout : st3.out = raw.filterMap
        (fun q => (recFor cfg.hi stream q.1).map
          (fun r0 => ((none : Option Str), renderRec r0))) := by
      rw [houtfin]
      exact outSpec_raw cfg raw stream htab
    unfold finishRun
    dsimp only
    by_cases hmiss : st1.emitted ≤ raw.length - 1
    · rw [if_pos ⟨hrej, hmiss⟩]
      by_cases hcomv : cfg.com = false
      · exfalso
        rcases hcom with hcomT | hall
        · rw [hcomT] at hcomv
          cases hcomv
        · have hemM : st1.emitted = raw.length := by
            rw [hOrdF.hemitted]
            have hlenE : st1.emitlist.length = raw.length := hScanF.hflags
            have hAll : ∀ b ∈ st1.emitlist, (fun b => b) b = true := by
              intro b hb
              obtain ⟨i, hi⟩ := mem_getElem? hb
              have hiM : i < raw.length := by
                have := getElem?_some_lt hi
                omega
              have hit : i < (sort_entries (mkEntries raw)).length := by omega
              have hx : (sort_entries (mkEntries raw))[i]?
                  = some ((sort_entries (mkEntries raw)).get ⟨i, hit⟩) := by
                rw [List.getElem?_eq_getElem hit]
                rfl
              have hf := hOrdF.hflag i _ hx
              rw [hi] at hf
              have hb2 := Option.some.inj hf
              have hkmem : ((sort_entries (mkEntries raw)).get ⟨i, hit⟩).key
                  ∈ raw.map Prod.fst :=
                hkperm.subset (List.mem_map_of_mem _ (List.getElem?_mem hx))
              obtain ⟨r0, hr0, hr0k⟩ := hall _ hkmem
              have hsome : (recFor cfg.hi stream
                  ((sort_entries (mkEntries raw)).get ⟨i, hit⟩).key).isSome := by
                unfold recFor
                rw [List.find?_isSome]
                exact ⟨r0, hr0, decide_eq_true hr0k⟩
              rw [hb2, hsome]
            rw [List.countP_eq_length.mpr hAll, hlenE]
          have hM1 := htab.hM1
          omega
      · rw [if_neg hcomv]
        rw [hfd]
        dsimp only
        exact hfinout
    · rw [if_neg (fun hc => hmiss hc.2)]
      rw [hfd]
      dsimp only
      exact hfinout

/-- Witness for C1: selector `A`, stream containing `A` once; the run
writes exactly the restricted (here: full) selector sequence. -/
theorem C1_order_law_witness :
    (fastaselecth cfgPlain [[65]] [⟨[65], [[103]]⟩]).out
      = (get_entries (cfgPlain.frag ≠ 0) cfgPlain.hs [[65]]).filterMap
          (fun q => (recFor cfgPlain.hi [⟨[65], [[103]]⟩] q.1).map
            (fun r0 => ((none : Option Str), renderRec r0))) :=
  C1_order_law_amended cfgPlain [[65]] [⟨[65], [[103]]⟩] rfl rfl
    (by decide) (by decide) (by decide) (Or.inr (by decide))

/-- Counterexample to C1 as stated: selectors `X, Y`, stream containing
only `X` (a subset, each key at most once), default configuration
(`continueOnMiss` off).  The matched restriction is the one-element
sequence `X`, but the run aborts at the missing-selector check before the
final drain and writes nothing. -/
theorem C1_order_law_counterexample :
    (fastaselecth cfgPlain [[88], [89]] [⟨[88], []⟩]).out = [] ∧
    (get_entries (cfgPlain.frag ≠ 0) cfgPlain.hs [[88], [89]]).filterMap
        (fun q => (recFor cfgPlain.hi [⟨[88], []⟩] q.1).map
          (fun r0 => ((none : Option Str), renderRec r0)))
      = [(none, renderRec ⟨[88], []⟩)] ∧
    ¬ ((fastaselecth cfgPlain [[88], [89]] [⟨[88], []⟩]).out
      = (get_entries (cfgPlain.frag ≠ 0) cfgPlain.hs [[88], [89]]).filterMap
          (fun q => (recFor cfgPlain.hi [⟨[88], []⟩] q.1).map
            (fun r0 => ((none : Option Str), renderRec r0)))) := by
  refine ⟨by decide, by decide, ?_⟩
  intro hc
  rw [(by decide : (fastaselecth cfgPlain [[88], [89]] [⟨[88], []⟩]).out
    = ([] : List (Option Str × Str)))] at hc
  exact absurd hc (by decide)

/-- C8 (completeness check, amended): for a plain Select run over pairwise
distinct selector keys, a stream hitting each key at most once and missing
at least one selector: the reported misses are exactly the unmatched
selector keys (in table order), the early exit cannot fire; without `-com`
the run fails with the missing-selector error, with `-com` it succeeds and
writes exactly the selector-order restriction to the matched keys (for
duplicate-carrying selector lists the emission half fails: see the
counterexample). -/
theorem C8_completeness_amended (cfg : Config) (selLines : List Str)
    (stream : List Rec)
    (hrej : cfg.reject = false) (hfr : cfg.frag = 0)
    (hne : get_entries (cfg.frag ≠ 0) cfg.hs selLines ≠ [])
    (hkeys : ((get_entries (cfg.frag ≠ 0) cfg.hs selLines).map Prod.fst).Nodup)
    (honce : ∀ k ∈ (get_entries (cfg.frag ≠ 0) cfg.hs selLines).map Prod.fst,
      (stream.filter (fun r0 => decide (keyOfRec cfg.hi r0 = k))).length ≤ 1)
    (hmiss : ∃ k ∈ (get_entries (cfg.frag ≠ 0) cfg.hs selLines).map Prod.fst,
      ∀ r0 ∈ stream, ¬ (keyOfRec cfg.hi r0 = k)) :
    ((fastaselecth cfg selLines stream).missReported
      = ((sort_entries (mkEntries (get_entries (cfg.frag ≠ 0) cfg.hs selLines))).filter
          (fun x => decide ((recFor cfg.hi stream x.key).isSome = false))).map
          SelEntry.key ∧
      (fastaselecth cfg selLines stream).missReported ≠ [] ∧
      (fastaselecth cfg selLines stream).byeExit = false) ∧
    (cfg.com = false →
      (fastaselecth cfg selLines stream).err = some Err.missingSelector) ∧
    (cfg.com = true →
      (fastaselecth cfg selLines stream).err = none ∧
      (fastaselecth cfg selLines stream).out
        = (get_entries (cfg.frag ≠ 0) cfg.hs selLines).filterMap
            (fun q => (recFor cfg.hi stream q.1).map
              (fun r0 => ((none : Option Str), renderRec r0)))) := by
  obtain ⟨raw, hraweq⟩ : ∃ raw0, raw0 = get_entries (cfg.frag ≠ 0) cfg.hs selLines :=
    ⟨_, rfl⟩
  rw [← hraweq] at hne hkeys honce hmiss ⊢
  obtain ⟨hdd, htab⟩ := ordTab_pipeline cfg.cod raw hne hkeys
  have hlen0 : ¬ (raw.length = 0) := fun hc => hne (List.length_eq_zero.mp hc)
  have hlen : (sort_entries (mkEntries raw)).length = raw.length := htab.hM.symm
  have hkperm : ((sort_entries (mkEntries raw)).map SelEntry.key).Perm
      (raw.map Prod.fst) := by
    have h := (sort_entries_perm (mkEntries raw)).map SelEntry.key
    rw [mkEntries_map_key] at h
    exact h
  have honce2 : ∀ x ∈ sort_entries (mkEntries raw),
      (([] ++ stream).filter
        (fun r0 => decide (keyOfRec cfg.hi r0 = x.key))).length ≤ 1 := by
    intro x hx
    exact honce x.key (hkperm.subset (List.mem_map_of_mem _ hx))
  have htinv := ordTab_toTabInv (sort_entries (mkEntries raw)) raw.length htab
  have hrun := runRecs_ord cfg (sort_entries (mkEntries raw)) raw.length htab
    hrej hfr stream [] (initSt raw.length)
    (ordInv_init cfg (sort_entries (mkEntries raw)) raw.length htab)
    (scanInv_init (sort_entries (mkEntries raw)) raw.length raw.length htinv)
    honce2
  have hruninv := runRecs_inv cfg (sort_entries (mkEntries raw)) raw.length
    raw.length htinv hrej stream (initSt raw.length)
    (scanInv_init (sort_entries (mkEntries raw)) raw.length raw.length htinv)
  obtain ⟨k0, hk0, hk0not⟩ := hmiss
  have hk0t : k0 ∈ (sort_entries (mkEntries raw)).map SelEntry.key :=
    hkperm.mem_iff.mpr hk0
  obtain ⟨x0, hx0, hx0k⟩ := List.mem_map.mp hk0t
  have hrfn0 : recFor cfg.hi stream x0.key = none := by
    unfold recFor
    rw [List.find?_eq_none]
    intro a ha hpa
    exact hk0not a ha (by rw [← hx0k]; exact of_decide_eq_true hpa)
  unfold fastaselecth
  dsimp only
  rw [← hraweq, if_neg hlen0, hdd]
  dsimp only
  rw [mkEntries_length raw, hlen]
  cases hsc : runRecs cfg (sort_entries (mkEntries raw)) raw.length
      (initSt raw.length) stream with
  | fatal e st1 =>
    exact ((hrun.2.2 e st1 hsc).elim)
  | bye st1 rem =>
    exfalso
    obtain ⟨_, hfull⟩ := hrun.2.1 st1 rem hsc
    have h1 := hfull x0 hx0
    rw [show (([] : List Rec) ++ stream) = stream from rfl, hrfn0] at h1
    cases h1
  | eof st1 =>
    have hOrdF : OrdInv cfg (sort_entries (mkEntries raw)) raw.length stream st1 :=
      hrun.1 st1 hsc
    have hScanF : ScanInv (sort_entries (mkEntries raw)) raw.length raw.length st1 :=
      hruninv.1 st1 hsc
    have hemlist : st1.emitlist = (sort_entries (mkEntries raw)).map
        (fun x => (recFor cfg.hi stream x.key).isSome) := by
      apply List.ext_getElem?
      intro n
      by_cases hn : n < (sort_entries (mkEntries raw)).length
      · have hx : (sort_entries (mkEntries raw))[n]?
            = some ((sort_entries (mkEntries raw)).get ⟨n, hn⟩) := by
          rw [List.getElem?_eq_getElem hn]
          rfl
        rw [hOrdF.hflag n _ hx, List.getElem?_map, hx]
        rfl
      · have h1 : st1.emitlist[n]? = none := List.getElem?_eq_none (by
          have h2 := hScanF.hflags
          have h3 := htab.hM
          omega)
        have h2 : ((sort_entries (mkEntries raw)).map
            (fun x => (recFor cfg.hi stream x.key).isSome))[n]? = none :=
          List.getElem?_eq_none (by rw [List.length_map]; omega)
        rw [h1, h2]
    have hz : (sort_entries (mkEntries raw)).zip ((sort_entries (mkEntries raw)).map
        (fun x => (recFor cfg.hi stream x.key).isSome))
        = (sort_entries (mkEntries raw)).map
            (fun x => (x, (recFor cfg.hi stream x.key).isSome)) := by
      have h := List.zip_map' id (fun x => (recFor cfg.hi stream x.key).isSome)
        (sort_entries (mkEntries raw))
      rw [List.map_id] at h
      exact h
    have hmissEq : missingKeys (sort_entries (mkEntries raw)) st1.emitlist
        = ((sort_entries (mkEntries raw)).filter
            (fun x => decide ((recFor cfg.hi stream x.key).isSome = false))).map
            SelEntry.key := by
      unfold missingKeys
      rw [hemlist, hz, List.filter_map]
      have hcomp : ((fun pe : SelEntry × Bool => decide (pe.2 = false))
          ∘ (fun x : SelEntry => (x, (recFor cfg.hi stream x.key).isSome)))
          = (fun x : SelEntry =>
              decide ((recFor cfg.hi stream x.key).isSome = false)) := rfl
      rw [hcomp, List.map_map]
      have hcomp2 : ((fun pe : SelEntry × Bool => pe.1.key)
          ∘ (fun x : SelEntry => (x, (recFor cfg.hi stream x.key).isSome)))
          = SelEntry.key := rfl
      rw [hcomp2]
    have hmne : ((sort_entries (mkEntries raw)).filter
        (fun x => decide ((recFor cfg.hi stream x.key).isSome = false))).map
        SelEntry.key ≠ [] := by
      have hxf : x0 ∈ (sort_entries (mkEntries raw)).filter
          (fun x => decide ((recFor cfg.hi stream x.key).isSome = false)) := by
        refine List.mem_filter.mpr ⟨hx0, ?_⟩
        rw [hrfn0]
        rfl
      exact List.ne_nil_of_mem (List.mem_map_of_mem SelEntry.key hxf)
    have hfalsemem : false ∈ st1.emitlist := by
      obtain ⟨i, hi⟩ := mem_getElem? hx0
      have hflagi := hOrdF.hflag i x0 hi
      rw [hrfn0] at hflagi
      exact List.getElem?_mem hflagi
    have hmissle : st1.emitted ≤ raw.length - 1 := by
      have hcne : st1.emitlist.countP (fun b => b) ≠ st1.emitlist.length := by
        intro hc
        have hall := List.countP_eq_length.mp hc
        have := hall false hfalsemem
        cases this
      have hcle : st1.emitlist.countP (fun b => b) ≤ st1.emitlist.length :=
        List.countP_le_length (fun b => b)
      have hlenE : st1.emitlist.length = raw.length := hScanF.hflags
      have hed := hOrdF.hemitted
      omega
    obtain ⟨hn2, hr2, he2, hl2, hslot2, hout2⟩ :=
      pendingStore_ord cfg (sort_entries (mkEntries raw)) raw.length htab
        stream st1 hOrdF hScanF
    obtain ⟨st3, hfd, hout3, hrc3, hed3, hel3⟩ :=
      finalDrain_desc cfg (sort_entries (mkEntries raw)) raw.length hfr htab
        stream (raw.length - (pendingStore (sort_entries (mkEntries raw)) st1).next)
        (pendingStore (sort_entries (mkEntries raw)) st1) rfl
        (by
          intro x hx hxle
          rw [hn2] at hxle
          exact hslot2 x hx hxle)
    have hnlt : st1.next < raw.length := hScanF.hnext
    have hfinout : st3.out = raw.filterMap
        (fun q => (recFor cfg.hi stream q.1).map
          (fun r0 => ((none : Option Str), renderRec r0))) := by
      rw [hout3, hout2, hn2]
      have h0 := List.range'_append_1 0 st1.next (raw.length - st1.next)
      have e1 : 0 + st1.next = st1.next := by omega
      have e2 : (raw.length - st1.next) + st1.next = raw.length := by omega
      rw [e1, e2] at h0
      rw [show outSpec cfg (sort_entries (mkEntries raw)) stream st1.next
          ++ (List.range' st1.next (raw.length - st1.next)).filterMap
            (outElem cfg (sort_entries (mkEntries raw)) stream)
          = outSpec cfg (sort_entries (mkEntries raw)) stream raw.length by
        unfold outSpec
        rw [List.range_eq_range', List.range_eq_range', ← List.filterMap_append, h0]]
      exact outSpec_raw cfg raw stream htab
    unfold finishRun
    dsimp only
    rw [if_pos ⟨hrej, hmissle⟩]
    cases hcomv : cfg.com with
    | false =>
      rw [if_pos rfl]
      dsimp only
      refine ⟨⟨hmissEq, ?_, rfl⟩, ?_, ?_⟩
      · rw [hmissEq]
        exact hmne
      · intro _
        rfl
      · intro hc
        cases hc
    | true =>
      rw [if_neg (by intro hc; cases hc)]
      rw [hfd]
      dsimp only
      refine ⟨⟨hmissEq, ?_, rfl⟩, ?_, ?_⟩
      · rw [hmissEq]
        exact hmne
      · intro hc
        cases hc
      · intro _
        exact ⟨rfl, hfinout⟩

/-- Witness for C8: selectors `A, B`, stream containing only `A`; the run
reports `B` missing and (without `-com`) fails. -/
theorem C8_completeness_witness :
    ((fastaselecth cfgPlain [[65], [66]] [recA]).missReported
      = ((sort_entries (mkEntries
          (get_entries (cfgPlain.frag ≠ 0) cfgPlain.hs [[65], [66]]))).filter
          (fun x => decide ((recFor cfgPlain.hi [recA] x.key).isSome = false))).map
          SelEntry.key ∧
      (fastaselecth cfgPlain [[65], [66]] [recA]).missReported ≠ [] ∧
      (fastaselecth cfgPlain [[65], [66]] [recA]).byeExit = false) ∧
    (cfgPlain.com = false →
      (fastaselecth cfgPlain [[65], [66]] [recA]).err = some Err.missingSelector) ∧
    (cfgPlain.com = true →
      (fastaselecth cfgPlain [[65], [66]] [recA]).err = none ∧
      (fastaselecth cfgPlain [[65], [66]] [recA]).out
        = (get_entries (cfgPlain.frag ≠ 0) cfgPlain.hs [[65], [66]]).filterMap
            (fun q => (recFor cfgPlain.hi [recA] q.1).map
              (fun r0 => ((none : Option Str), renderRec r0)))) :=
  C8_completeness_amended cfgPlain [[65], [66]] [recA] rfl rfl (by decide)
    (by decide) (by decide) (by decide)

/-- Counterexample to C8 as stated, on a duplicate-carrying selector list:
`-cod -com`, selectors `A, A, B`, stream containing only `B`.  The run
reaches end of stream with `A` unmatched, reports it and succeeds — but
the matched record `B` (the `emitted` counter reads 1) was buffered at its
raw position 2, beyond the deduplicated count 2, and is silently never
written: the output is empty. -/
theorem C8_completeness_counterexample :
    fastaselecth cfgCodCom [[65], [65], [66]] [recB]
      = ⟨none, [], [[65]], 1, 1, 1, false⟩ ∧
    keyOfRec cfgCodCom.hi recB = [66] ∧
    (fastaselecth cfgCodCom [[65], [65], [66]] [recB]).out = [] ∧
    (fastaselecth cfgCodCom [[65], [65], [66]] [recB]).emitted = 1 := by
  refine ⟨by decide, by decide, by decide, by decide⟩
